import Mathlib

/-!
The symbol table and the file-name set-up of yacc.

A shallow embedding of `src/symtab.c` (hash, make_bucket, lookup,
create_symbol_table) and of the option and file-name handling of `src/main.c`
(setflag, getargs, alloc_file_name, find_suffix, create_file_names, open_files),
followed by the properties proved about them.

Conventions of the embedding.

* A C string is the list of its characters before the terminating NUL.  In
  `symtab.c` the characters are used as numbers, so a symbol name is a list of
  `Int`: the value each `char` has after promotion to `int`.  Plain `char` may be
  signed or unsigned, so a character value lies between -128 and 255 and is not
  0.  The theorems are stated for all lists; only the lists of such values stand
  for C strings.
* A pointer to a bucket is the position of the bucket in the list of allocated
  buckets; the null pointer is `none`.
* A C function that stops the program (a failed `assert`, `exit`, `usage`) or
  whose behaviour is undefined (an access outside an array, a null dereference,
  a read through a pointer to a freed block) returns `none`.
* A file name is the list of its characters.  The command line is given as
  `getopt` delivers it: the options in order, each with its argument, followed by
  the operands.
* Whether an opening of a file succeeds is a parameter of `open_files`; a stream
  is identified by the position of its opening among the successful openings.
-/

namespace Yacc

/-! ## symtab.c -/

/-- Number of entries of the symbol table (`#define TABLE_SIZE 1024`). -/
def TABLE_SIZE : Nat := 1024

/-- Modelled from the spec: `defs.h` is not among the sources; the symbol
classes are the ones the data model lists (Unknown, Terminal, Nonterminal). -/
inductive Class_t where
  | UNKNOWN
  | TERM
  | NONTERM
  deriving DecidableEq, Repr

/-- Modelled from the spec: `defs.h` is not among the sources; the
associativities are the ones the data model lists after None. -/
inductive Assoc_t where
  | TOKEN
  | LEFT
  | RIGHT
  | NONASSOC
  deriving DecidableEq, Repr

/-- Modelled from the spec: `defs.h` is not among the sources; `UNDEFINED` is
the value a symbol has before a token number is assigned to it. -/
def UNDEFINED : Int := -1

/-- The record `bucket`, with the fields `make_bucket` fills in.  The field
`class` of the source is `class_` here, `class` being a keyword. -/
structure bucket where
  link : Option Nat
  next : Option Nat
  name : List Int
  tag : Option (List Int)
  value : Int
  index : Int
  prec : Int
  class_ : Class_t
  assoc : Assoc_t
  args : Int
  argnames : Option Nat
  argtags : Option Nat
  destructor : Option (List Int)
  deriving DecidableEq, Repr

/-- The loop of `hash`: `while ((c = *++s) != 0) k = (31 * k + c) & (TABLE_SIZE - 1);`
run over the characters after the first.  `Int.land` is the bitwise "and" of
two's complement integers; `31 * k + c` stays far inside the range of `int`, as
`k` is a character or a masked value and `c` a character. -/
def hashLoop (k : Int) : List Int → Int
  | [] => k
  | c :: s => hashLoop (Int.land (31 * k + c) ((TABLE_SIZE : Int) - 1)) s

/-- The function `hash`.  `assert(name && *name)` stops the program on the empty
name; otherwise `k` starts as the first character and the loop runs over the
rest. -/
def hash : List Int → Option Int
  | [] => none
  | c :: s => some (hashLoop c s)

/-- The function `make_bucket`: a fresh bucket carrying a copy of `name`, every
other field at its initial value.  Allocation is taken to succeed. -/
def make_bucket (name : List Int) : bucket :=
  { link := none
    next := none
    name := name
    tag := none
    value := UNDEFINED
    index := 0
    prec := 0
    class_ := Class_t.UNKNOWN
    assoc := Assoc_t.TOKEN
    args := -1
    argnames := none
    argtags := none
    destructor := none }

/-- The globals of `symtab.c` after `create_symbol_table`: the allocated
buckets, the `TABLE_SIZE` slots of `symbol_table`, `first_symbol` and
`last_symbol`. -/
structure SymTab where
  heap : List bucket
  symbol_table : List (Option Nat)
  first_symbol : Option Nat
  last_symbol : Option Nat
  deriving DecidableEq, Repr

/-- The places `bpp` can point to in `lookup`: a slot of `symbol_table` or the
`link` field of a bucket. -/
inductive Ref where
  | slot (i : Nat)
  | link (p : Nat)
  deriving DecidableEq, Repr

/-- The address `symbol_table + h` as a slot number.  The address exists only for
`0 <= h < TABLE_SIZE`; elsewhere the access is undefined. -/
def slotOf (tbl : List (Option Nat)) (h : Int) : Option Nat :=
  if 0 ≤ h ∧ h < (tbl.length : Int) then some h.toNat else none

/-- The loop `while (bp) { if (strcmp(name, bp->name) == 0) return (bp);
bpp = &bp->link; bp = *bpp; }` of `lookup`.  The result is the pair `(bpp, bp)`
with which the loop is left: `bp` is the bucket found, or null when the chain is
exhausted and `bpp` is where the chain ends.  `fuel` bounds the number of
iterations. -/
def lookupLoop (heap : List bucket) (name : List Int) :
    Nat → Ref → Option Nat → Option (Ref × Option Nat)
  | 0, _, _ => none
  | _ + 1, bpp, none => some (bpp, none)
  | fuel + 1, bpp, some p =>
    match heap[p]? with
    | none => none
    | some b =>
      if name = b.name then some (bpp, some p)
      else lookupLoop heap name fuel (Ref.link p) b.link

/-- The assignment `*bpp = bp`. -/
def storeRef (st : SymTab) (bpp : Ref) (bp : Nat) : Option SymTab :=
  match bpp with
  | Ref.slot i =>
    if i < st.symbol_table.length then
      some { st with symbol_table := st.symbol_table.set i (some bp) }
    else none
  | Ref.link p =>
    match st.heap[p]? with
    | none => none
    | some b => some { st with heap := st.heap.set p { b with link := some bp } }

/-- The assignments `last_symbol->next = bp; last_symbol = bp;`. -/
def appendSymbol (st : SymTab) (bp : Nat) : Option SymTab :=
  match st.last_symbol with
  | none => none
  | some l =>
    match st.heap[l]? with
    | none => none
    | some b =>
      some { st with heap := st.heap.set l { b with next := some bp }
                     last_symbol := some bp }

/-- The function `lookup`: the bucket returned and the globals after the call.
A chain of the table is never longer than the number of allocated buckets, which
is the bound given to the loop. -/
def lookup (name : List Int) (st : SymTab) : Option (Nat × SymTab) :=
  match hash name with
  | none => none
  | some h =>
    match slotOf st.symbol_table h with
    | none => none
    | some i =>
      match lookupLoop st.heap name (st.heap.length + 1) (Ref.slot i)
          (st.symbol_table[i]?.join) with
      | none => none
      | some (_, some p) => some (p, st)
      | some (bpp, none) =>
        let bp := st.heap.length
        let st1 : SymTab := { st with heap := st.heap ++ [make_bucket name] }
        match storeRef st1 bpp bp with
        | none => none
        | some st2 =>
          match appendSymbol st2 bp with
          | none => none
          | some st3 => some (bp, st3)

/-- The name of the built-in symbol, the C string "error". -/
def errorName : List Int := [101, 114, 114, 111, 114]

/-- The bucket `create_symbol_table` makes: `bp = make_bucket("error");
bp->index = 1; bp->class = TERM;`. -/
def errorBucket : bucket :=
  { make_bucket errorName with index := 1, class_ := Class_t.TERM }

/-- The function `create_symbol_table`: the globals it leaves. -/
def create_symbol_table : Option SymTab :=
  let tbl : List (Option Nat) := List.replicate TABLE_SIZE none
  let bp : bucket := errorBucket
  match hash errorName with
  | none => none
  | some h =>
    match slotOf tbl h with
    | none => none
    | some i =>
      some { heap := [bp]
             symbol_table := tbl.set i (some 0)
             first_symbol := some 0
             last_symbol := some 0 }

/-- A sequence of `lookup` calls, each on the globals the previous one left. -/
def lookupsFrom (st : SymTab) : List (List Int) → Option SymTab
  | [] => some st
  | n :: ns =>
    match lookup n st with
    | none => none
    | some (_, st1) => lookupsFrom st1 ns

/-- The program fragment `create_symbol_table(); lookup(n1); ...; lookup(nk);`. -/
def lookups (names : List (List Int)) : Option SymTab :=
  match create_symbol_table with
  | none => none
  | some st => lookupsFrom st names

/-- The traversal `for (p = start; p; p = p->next)` collecting the buckets
visited; `fuel` bounds the number of steps. -/
def walkNext (heap : List bucket) : Nat → Option Nat → Option (List Nat)
  | _, none => some []
  | 0, some _ => none
  | fuel + 1, some p =>
    match heap[p]? with
    | none => none
    | some b =>
      match walkNext heap fuel b.next with
      | none => none
      | some l => some (p :: l)

/-- The buckets on the list from `first_symbol` through `next`, in order. -/
def symbolList (st : SymTab) : Option (List Nat) :=
  walkNext st.heap st.heap.length st.first_symbol

/-- The names met on the list from `first_symbol` through `next`, in order. -/
def symbolNames (st : SymTab) : Option (List (List Int)) :=
  (symbolList st).map (fun l => l.filterMap (fun p => st.heap[p]?.map bucket.name))


/-! ### The shape of the symbol table between calls -/

/-- The buckets whose name hashes to slot `s`, in order of allocation. -/
def slotMembers (heap : List bucket) (s : Nat) : List Nat :=
  (List.range heap.length).filter
    (fun p => decide ((heap[p]?).bind (fun (b : bucket) => hash b.name) = some (s : Int)))

/-- The pointer `bp` heads a chain through `link` that visits exactly the buckets
of `l`, in order, and ends in a null pointer. -/
def IsChain (heap : List bucket) : List Nat → Option Nat → Prop
  | [], bp => bp = none
  | q :: l, bp => bp = some q ∧ ∃ b, heap[q]? = some b ∧ IsChain heap l b.link

/-- Where `bpp` points after the loop of `lookup` has walked the whole chain
`l`: at the `link` field of the last bucket, or where it started when the chain
is empty. -/
def chainEnd (bpp : Ref) : List Nat → Ref
  | [] => bpp
  | q :: l => chainEnd (Ref.link q) l

/-- The invariant of the globals of `symtab.c`: the buckets are linked through
`next` in order of allocation, from `first_symbol` to `last_symbol`; the chain of
every slot holds exactly the buckets whose name hashes to the slot; names are
pairwise different; the first bucket is the built-in `error` symbol. -/
structure Inv (st : SymTab) : Prop where
  table_len : st.symbol_table.length = TABLE_SIZE
  first : st.first_symbol = some 0
  last : ∃ k, st.heap.length = k + 1 ∧ st.last_symbol = some k
  next : ∀ (p : Nat) (b : bucket), st.heap[p]? = some b →
    b.next = if p + 1 < st.heap.length then some (p + 1) else none
  slots : ∀ (p : Nat) (b : bucket), st.heap[p]? = some b →
    ∃ s : Nat, s < TABLE_SIZE ∧ hash b.name = some (s : Int)
  chains : ∀ s : Nat, s < TABLE_SIZE →
    IsChain st.heap (slotMembers st.heap s) (st.symbol_table[s]?.join)
  nodup : (st.heap.map bucket.name).Nodup
  error : ∃ b : bucket, st.heap[0]? = some b ∧
    b = { errorBucket with link := b.link, next := b.next }

/-- The value `hash(name)` addresses one of the `TABLE_SIZE` slots of
`symbol_table`. -/
def addressable (name : List Int) : Prop :=
  ∃ h : Int, hash name = some h ∧ 0 ≤ h ∧ h < (TABLE_SIZE : Int)

/-- The names a sequence of lookups adds to the names `seen` already in the
table: each name not seen before, once, in order of first lookup. -/
def firstOccur (seen : List (List Int)) : List (List Int) → List (List Int)
  | [] => []
  | n :: ns =>
    if n ∈ seen then firstOccur seen ns else n :: firstOccur (n :: seen) ns

/-- The list the spec describes for a sequence of lookups: "error" followed by
the distinct looked-up names other than "error", in order of first lookup. -/
def declarationOrder (names : List (List Int)) : List (List Int) :=
  errorName :: firstOccur [errorName] names

/-- The globals after `create_symbol_table(); lookup("a"); lookup("cd");`, two
names that hash to the same slot 97. -/
def sampleTable : SymTab :=
  { heap := [{ errorBucket with next := some 1 },
             { make_bucket [97] with link := some 2, next := some 2 },
             make_bucket [99, 100]]
    symbol_table := ((List.replicate TABLE_SIZE none).set 520 (some 0)).set 97 (some 1)
    first_symbol := some 0
    last_symbol := some 2 }

/-- The globals after `create_symbol_table(); lookup("a");`. -/
def oneNameTable : SymTab :=
  { heap := [{ errorBucket with next := some 1 }, make_bucket [97]]
    symbol_table := ((List.replicate TABLE_SIZE none).set 520 (some 0)).set 97 (some 1)
    first_symbol := some 0
    last_symbol := some 1 }

/-! ## main.c -/

/-- Modelled from the spec: `defs.h` is not among the sources; `main.c` names the
default code file `y.code.c` (comment on `code_file`, text of `usage`). -/
def CODE_SUFFIX : List Char := ".code.c".toList

/-- Modelled from the spec: `defs.h` is not among the sources; `main.c` names the
default defines file `y.tab.h` (comment on `defines_file`). -/
def DEFINES_SUFFIX : List Char := ".tab.h".toList

/-- Modelled from the spec: `defs.h` is not among the sources; `main.c` names the
default externs file `y.tab.i` (comment on `externs_file`, text of `usage`). -/
def EXTERNS_SUFFIX : List Char := ".tab.i".toList

/-- Modelled from the spec: `defs.h` is not among the sources; `main.c` names the
default output file `y.tab.c` (comment on `output_file`). -/
def OUTPUT_SUFFIX : List Char := ".tab.c".toList

/-- Modelled from the spec: `defs.h` is not among the sources; `main.c` names the
default verbose file `y.output` (comment on `verbose_file`, text of `usage`). -/
def VERBOSE_SUFFIX : List Char := ".output".toList

/-- Modelled from the spec: `defs.h` is not among the sources; `main.c` names the
default graph file `y.dot` (comment on `graph_file`). -/
def GRAPH_SUFFIX : List Char := ".dot".toList

/-- A request to open a file: `fopen(name, "r")`, `fopen(name, "w")` or
`open_tmpfile(label)`. -/
inductive OpenReq where
  | read (name : List Char)
  | write (name : List Char)
  | temp (label : List Char)
  deriving DecidableEq, Repr

/-- A `FILE *` that is not null: `stdin`, or the stream returned by the `k`-th
successful opening of the run. -/
inductive Stream where
  | stdin
  | file (k : Nat)
  deriving DecidableEq, Repr

/-- The globals of `main.c` that `getargs`, `create_file_names` and `open_files`
read or write.  A flag that only ever holds 0 or 1 is a `Bool`; a null `char *`
or `FILE *` is `none`.  `file_prefix` is never null: it holds the string it
points to, and `none` once the block it points to has been freed, when reading
through it has no defined behaviour.  `opened` lists the openings that
succeeded, in order, and `stderr` the diagnostics printed.  The global
`pure_parser` of the source is `pure_parser_` here. -/
structure Globals where
  dflag : Bool
  dflag2 : Bool
  gflag : Bool
  iflag : Bool
  lflag : Bool
  oflag : Bool
  rflag : Bool
  sflag : Bool
  tflag : Bool
  vflag : Bool
  backtrack : Bool
  locations : Bool
  pure_parser_ : Bool
  symbol_prefix : Option (List Char)
  myname : List Char
  explicit_file_name : Bool
  file_prefix : Option (List Char)
  code_file_name : Option (List Char)
  input_file_name : Option (List Char)
  input_file_name_len : Nat
  defines_file_name : Option (List Char)
  externs_file_name : Option (List Char)
  graph_file_name : Option (List Char)
  output_file_name : Option (List Char)
  verbose_file_name : Option (List Char)
  action_file : Option Stream
  code_file : Option Stream
  defines_file : Option Stream
  externs_file : Option Stream
  input_file : Option Stream
  output_file : Option Stream
  text_file : Option Stream
  union_file : Option Stream
  verbose_file : Option Stream
  graph_file : Option Stream
  opened : List OpenReq
  stderr : List (List Char)
  deriving DecidableEq, Repr

/-- The globals as their initialisers leave them when `main` starts. -/
def initialGlobals : Globals :=
  { dflag := false, dflag2 := false, gflag := false, iflag := false, lflag := false
    oflag := false, rflag := false, sflag := false, tflag := false, vflag := false
    backtrack := false, locations := false, pure_parser_ := false
    symbol_prefix := none
    myname := "yacc".toList
    explicit_file_name := false
    file_prefix := some "y".toList
    code_file_name := none, input_file_name := none, input_file_name_len := 0
    defines_file_name := none, externs_file_name := none, graph_file_name := none
    output_file_name := none, verbose_file_name := none
    action_file := none, code_file := none, defines_file := none, externs_file := none
    input_file := none, output_file := none, text_file := none, union_file := none
    verbose_file := none, graph_file := none
    opened := [], stderr := [] }

/-- The function `setflag`.  `-V` prints the version and exits, a character that
is no option calls `usage`, which exits: both give `none`. -/
def setflag (g : Globals) (ch : Char) : Option Globals :=
  if ch = 'B' then some { g with backtrack := true }
  else if ch = 'd' then some { g with dflag := true, dflag2 := false }
  else if ch = 'g' then some { g with gflag := true }
  else if ch = 'i' then some { g with iflag := true }
  else if ch = 'l' then some { g with lflag := true }
  else if ch = 'L' then some { g with locations := true }
  else if ch = 'P' then some { g with pure_parser_ := true }
  else if ch = 'r' then some { g with rflag := true }
  else if ch = 's' then some { g with sflag := true }
  else if ch = 't' then some { g with tflag := true }
  else if ch = 'v' then some { g with vflag := true }
  else if ch = 'V' then none
  else if ch = 'y' then some g
  else none

/-- The body of the loop of `getargs` for one option: `ch` is what `getopt`
returned and `optarg` the argument it delivered with it. -/
def getargsStep (g : Globals) (ch : Char) (optarg : List Char) : Option Globals :=
  if ch = 'b' then some { g with file_prefix := some optarg }
  else if ch = 'H' then
    some { g with dflag := true, dflag2 := true, defines_file_name := some optarg }
  else if ch = 'o' then
    some { g with output_file_name := some optarg, explicit_file_name := true }
  else if ch = 'p' then some { g with symbol_prefix := some optarg }
  else setflag g ch

/-- The loop `while ((ch = getopt(...)) != -1)` of `getargs`, run over the
options `getopt` delivers, in order. -/
def getargsLoop (g : Globals) : List (Char × List Char) → Option Globals
  | [] => some g
  | (ch, optarg) :: rest =>
    match getargsStep g ch optarg with
    | none => none
    | some g1 => getargsLoop g1 rest

/-- The globals after `if (argc > 0) myname = argv[0];`, the first statement of
`getargs`; `argv0` is `argv[0]` when `argc > 0`. -/
def startGlobals (argv0 : Option (List Char)) : Globals :=
  match argv0 with
  | some a => { initialGlobals with myname := a }
  | none => initialGlobals

/-- The end of `getargs`, after the loop: `operands` are the arguments from
`optind` on.  A single "-" makes `stdin` the input, a single other argument
names the input file, and anything else calls `usage`, which exits. -/
def inputOperand (g : Globals) (operands : List (List Char)) : Option Globals :=
  match operands with
  | [] => none
  | [a] =>
    if a = "-".toList then some { g with input_file := some Stream.stdin }
    else some { g with input_file_name_len := a.length, input_file_name := some a }
  | _ :: _ :: _ => none

/-- The function `getargs`.  The command line is given as `getopt` reads it:
`argv0` is `argv[0]` when `argc > 0`, `opts` the options in order, each with its
argument, and `operands` the arguments from `optind` on.  The result is `none`
when the program exits inside `getargs`. -/
def getargs (argv0 : Option (List Char)) (opts : List (Char × List Char))
    (operands : List (List Char)) : Option Globals :=
  match getargsLoop (startGlobals argv0) opts with
  | none => none
  | some g => inputOperand g operands

/-- The call `strlcpy(dst, src, size)` on a fresh buffer: the string left in
`dst`, at most `size - 1` characters of `src`. -/
def strlcpy (src : List Char) (size : Nat) : List Char :=
  if size = 0 then [] else src.take (size - 1)

/-- The call `strlcat(dst, src, size)`: the string left in `dst`, which grows by
as many characters of `src` as fit in `size - 1` characters in all. -/
def strlcat (dst src : List Char) (size : Nat) : List Char :=
  if size ≤ dst.length then dst else dst ++ src.take (size - dst.length - 1)

/-- The function `alloc_file_name`, which reads the global `file_prefix`. -/
def alloc_file_name ( file_prefix : List Char) (len : Nat) (suffix : List Char) :
    List Char :=
  let len := len + suffix.length + 1
  strlcat (strlcpy file_prefix len) suffix len

/-- The function `find_suffix`: the offset in `name` of the pointer returned, or
`none` for a null result. -/
def find_suffix (name suffix : List Char) : Option Nat :=
  if suffix.length ≤ name.length then
    if name.drop (name.length - suffix.length) = suffix then
      some (name.length - suffix.length)
    else none
  else none

/-- The call `strrchr(s, c)`: the offset of the last `c` in `s`, or `none`. -/
def strrchr : List Char → Char → Option Nat
  | [], _ => none
  | x :: s, c =>
    match strrchr s c with
    | some i => some (i + 1)
    | none => if x = c then some 0 else none

/-- The test `xsuffix != 0 && (!strcmp(xsuffix, ".c") || ... )` of
`create_file_names`, on the text of the name from `xsuffix` on. -/
def knownSuffix (x : List Char) : Bool :=
  x = ".c".toList || x = ".C".toList || x = ".cc".toList || x = ".cxx".toList ||
    x = ".cpp".toList

/-- The first block of `create_file_names`: the values of `suffix` (as an offset
in `output_file_name`, `none` for null), `defines_suffix` and `externs_suffix`
after `if (output_file_name != 0) { if (!(suffix = find_suffix(output_file_name,
OUTPUT_SUFFIX)) && (suffix = find_suffix(output_file_name, ".c"))) {
defines_suffix = ".h"; externs_suffix = ".i"; } }`. -/
def chosenSuffix (g : Globals) : Option Nat × List Char × List Char :=
  match g.output_file_name with
  | none => (none, DEFINES_SUFFIX, EXTERNS_SUFFIX)
  | some out =>
    match find_suffix out OUTPUT_SUFFIX with
    | some off => (some off, DEFINES_SUFFIX, EXTERNS_SUFFIX)
    | none =>
      match find_suffix out ".c".toList with
      | some off => (some off, ".h".toList, ".i".toList)
      | none => (none, DEFINES_SUFFIX, EXTERNS_SUFFIX)

/-- The second block of `create_file_names`: the string `file_prefix` points to
and the value of `len` after `if (suffix != NULL) { len = (size_t)(suffix -
output_file_name); file_prefix = emalloc(len + 1); strncpy(file_prefix,
output_file_name, len)[len] = 0; } else len = strlen(file_prefix);`.  The call
of `strlen` reads through `file_prefix`: there is no result when the block has
been freed. -/
def chosenPrefix (g : Globals) : Option (List Char × Nat) :=
  match (chosenSuffix g).1, g.output_file_name with
  | some off, some out => some (out.take off, off)
  | _, _ =>
    match g.file_prefix with
    | some p => some (p, p.length)
    | none => none

/-- The block `if (output_file_name == 0) { oflag = 1;
CREATE_FILE_NAME(output_file_name, OUTPUT_SUFFIX); }`. -/
def nameOutput (pfx : List Char) (len : Nat) (g : Globals) : Globals :=
  match g.output_file_name with
  | none => { g with oflag := true
                     output_file_name := some (alloc_file_name pfx len OUTPUT_SUFFIX) }
  | some _ => g

/-- The block `if (rflag) { CREATE_FILE_NAME(code_file_name, CODE_SUFFIX); } else
code_file_name = output_file_name;`. -/
def nameCode (pfx : List Char) (len : Nat) (g : Globals) : Globals :=
  if g.rflag then { g with code_file_name := some (alloc_file_name pfx len CODE_SUFFIX) }
  else { g with code_file_name := g.output_file_name }

/-- The block `if (dflag && !dflag2) { ... }`; `out` is the string
`output_file_name` points to, which is not null at this point.  The buffer
`defines_file_name` starts as a copy of `out`; the recognised branch stores 'h'
at offset `k + 1` and NUL at offset `k + 2`, where `k` is the offset of the last
'.'.  The other branch prints `"%s: suffix of output file name %s not
recognized, no -d file generated.\n"` with `myname` and `output_file_name`. -/
def nameDefines (pfx : List Char) (len : Nat) (defines_suffix out : List Char)
    (g : Globals) : Globals :=
  if g.dflag && !g.dflag2 then
    if g.explicit_file_name then
      match strrchr out '.' with
      | some k =>
        if knownSuffix (out.drop k) then
          { g with defines_file_name := some ((out.set (k + 1) 'h').take (k + 2)) }
        else
          { g with
            stderr := g.stderr ++ [g.myname ++ ": suffix of output file name ".toList ++
              out ++ " not recognized, no -d file generated.\n".toList]
            dflag := false, defines_file_name := none }
      | none =>
        { g with
          stderr := g.stderr ++ [g.myname ++ ": suffix of output file name ".toList ++
            out ++ " not recognized, no -d file generated.\n".toList]
          dflag := false, defines_file_name := none }
    else { g with defines_file_name := some (alloc_file_name pfx len defines_suffix) }
  else g

/-- The block `if (iflag) { CREATE_FILE_NAME(externs_file_name, externs_suffix); }`. -/
def nameExterns (pfx : List Char) (len : Nat) (externs_suffix : List Char)
    (g : Globals) : Globals :=
  if g.iflag then
    { g with externs_file_name := some (alloc_file_name pfx len externs_suffix) }
  else g

/-- The block `if (vflag) { CREATE_FILE_NAME(verbose_file_name, VERBOSE_SUFFIX); }`. -/
def nameVerbose (pfx : List Char) (len : Nat) (g : Globals) : Globals :=
  if g.vflag then
    { g with verbose_file_name := some (alloc_file_name pfx len VERBOSE_SUFFIX) }
  else g

/-- The block `if (gflag) { CREATE_FILE_NAME(graph_file_name, GRAPH_SUFFIX); }`. -/
def nameGraph (pfx : List Char) (len : Nat) (g : Globals) : Globals :=
  if g.gflag then
    { g with graph_file_name := some (alloc_file_name pfx len GRAPH_SUFFIX) }
  else g

/-- The string `output_file_name` points to after the block that names the
output file. -/
def outputName (pfx : List Char) (len : Nat) (g : Globals) : List Char :=
  match g.output_file_name with
  | none => alloc_file_name pfx len OUTPUT_SUFFIX
  | some o => o

/-- The last block of `create_file_names`: `if (suffix != NULL) {
free(file_prefix); }`.  The pointer `file_prefix` keeps its value and the block
it points to is gone. -/
def freePrefix (suffix : Option Nat) (g : Globals) : Globals :=
  match suffix with
  | some _ => { g with file_prefix := none }
  | none => g

/-- The function `create_file_names`: its blocks in the order of the source.
`alloc_file_name` reads `file_prefix`, which at each of its calls points to the
string the second block left. -/
def create_file_names (g : Globals) : Option Globals :=
  let suffix := (chosenSuffix g).1
  let defines_suffix := (chosenSuffix g).2.1
  let externs_suffix := (chosenSuffix g).2.2
  match chosenPrefix g with
  | none => none
  | some (pfx, len) =>
    let g1 : Globals := { g with file_prefix := some pfx }
    let out := outputName pfx len g
    some (freePrefix suffix (nameGraph pfx len (nameVerbose pfx len
      (nameExterns pfx len externs_suffix (nameDefines pfx len defines_suffix out
        (nameCode pfx len (nameOutput pfx len g1)))))))

/-- One opening: `fs` tells which openings succeed.  A failed opening calls
`open_error`, which exits, and gives `none`; a successful one gives the new
stream and is recorded in `opened`. -/
def openStream (fs : OpenReq → Bool) (g : Globals) (req : OpenReq) :
    Option (Stream × Globals) :=
  if fs req then
    some (Stream.file g.opened.length, { g with opened := g.opened ++ [req] })
  else none

/-- The call `fopen(name, mode)` followed by the test of its result; a null
`name` has no defined behaviour. -/
def openNamed (fs : OpenReq → Bool) (g : Globals) (name : Option (List Char))
    (mk : List Char → OpenReq) : Option (Stream × Globals) :=
  match name with
  | none => none
  | some n => openStream fs g (mk n)

/-- The block `if (input_file == 0) { input_file = fopen(input_file_name, "r");
if (input_file == 0) open_error(input_file_name); }` of `open_files`. -/
def openInput (fs : OpenReq → Bool) (g : Globals) : Option Globals :=
  match g.input_file with
  | some _ => some g
  | none =>
    match openNamed fs g g.input_file_name OpenReq.read with
    | none => none
    | some (s, g') => some { g' with input_file := some s }

/-- The statement `action_file = open_tmpfile("action_file");`. -/
def openAction (fs : OpenReq → Bool) (g : Globals) : Option Globals :=
  match openStream fs g (OpenReq.temp "action_file".toList) with
  | none => none
  | some (s, g') => some { g' with action_file := some s }

/-- The statement `text_file = open_tmpfile("text_file");`. -/
def openText (fs : OpenReq → Bool) (g : Globals) : Option Globals :=
  match openStream fs g (OpenReq.temp "text_file".toList) with
  | none => none
  | some (s, g') => some { g' with text_file := some s }

/-- The block `if (vflag) { verbose_file = fopen(verbose_file_name, "w"); ... }`. -/
def openVerbose (fs : OpenReq → Bool) (g : Globals) : Option Globals :=
  if g.vflag then
    match openNamed fs g g.verbose_file_name OpenReq.write with
    | none => none
    | some (s, g') => some { g' with verbose_file := some s }
  else some g

/-- The block `if (gflag) { graph_file = fopen(graph_file_name, "w"); ...
fprintf(graph_file, "digraph %s {\n", file_prefix); ... }`.  The first `fprintf`
reads through `file_prefix`: there is no result when the block has been freed.
The strings written to the graph file are not recorded. -/
def openGraph (fs : OpenReq → Bool) (g : Globals) : Option Globals :=
  if g.gflag then
    match openNamed fs g g.graph_file_name OpenReq.write with
    | none => none
    | some (s, g') =>
      match g'.file_prefix with
      | none => none
      | some _ => some { g' with graph_file := some s }
  else some g

/-- The block `if (dflag || dflag2) { defines_file = fopen(defines_file_name, "w");
... union_file = open_tmpfile("union_file"); }`. -/
def openDefines (fs : OpenReq → Bool) (g : Globals) : Option Globals :=
  if g.dflag || g.dflag2 then
    match openNamed fs g g.defines_file_name OpenReq.write with
    | none => none
    | some (s, g') =>
      match openStream fs { g' with defines_file := some s }
          (OpenReq.temp "union_file".toList) with
      | none => none
      | some (u, g'') => some { g'' with union_file := some u }
  else some g

/-- The block `if (iflag) { externs_file = fopen(externs_file_name, "w"); ... }`. -/
def openExterns (fs : OpenReq → Bool) (g : Globals) : Option Globals :=
  if g.iflag then
    match openNamed fs g g.externs_file_name OpenReq.write with
    | none => none
    | some (s, g') => some { g' with externs_file := some s }
  else some g

/-- The statements `output_file = fopen(output_file_name, "w"); if (output_file
== 0) open_error(output_file_name);`. -/
def openOutput (fs : OpenReq → Bool) (g : Globals) : Option Globals :=
  match openNamed fs g g.output_file_name OpenReq.write with
  | none => none
  | some (s, g') => some { g' with output_file := some s }

/-- The block `if (rflag) { code_file = fopen(code_file_name, "w"); ... } else
code_file = output_file;`. -/
def openCode (fs : OpenReq → Bool) (g : Globals) : Option Globals :=
  if g.rflag then
    match openNamed fs g g.code_file_name OpenReq.write with
    | none => none
    | some (s, g') => some { g' with code_file := some s }
  else some { g with code_file := g.output_file }

/-- The function `open_files`: `create_file_names()` followed by the openings,
in the order of the source. -/
def open_files (fs : OpenReq → Bool) (g0 : Globals) : Option Globals :=
  ((((((((((create_file_names g0).bind (openInput fs)).bind (openAction fs)).bind
    (openText fs)).bind (openVerbose fs)).bind (openGraph fs)).bind
    (openDefines fs)).bind (openExterns fs)).bind (openOutput fs)).bind (openCode fs))

/-- Every opening succeeds. -/
def allOpen : OpenReq → Bool := fun _ => true

/-- The option `ch` is among the options of the command line. -/
def optGiven (ch : Char) (opts : List (Char × List Char)) : Bool :=
  opts.any (fun o => decide (o.1 = ch))

/-- The argument of the last option `ch` of the command line, if there is one. -/
def lastArg (ch : Char) : List (Char × List Char) → Option (List Char)
  | [] => none
  | (c, a) :: r =>
    match lastArg ch r with
    | some x => some x
    | none => if c = ch then some a else none

/-- Which of `-d` and `-H` is in effect: the last of the two on the command
line, if there is one. -/
def definesOption : List (Char × List Char) → Option Char
  | [] => none
  | (c, _) :: r =>
    match definesOption r with
    | some x => some x
    | none => if c = 'd' ∨ c = 'H' then some c else none

/-- The text of `name` from its last '.' is one of ".c", ".C", ".cc", ".cxx",
".cpp". -/
def recognised (name : List Char) : Bool :=
  match strrchr name '.' with
  | some k => knownSuffix (name.drop k)
  | none => false

/-- When a defines file is made: `-H` is in effect, or `-d` is in effect and
either no `-o` was given or the name given with `-o` has a recognised suffix. -/
def definesMade (opts : List (Char × List Char)) : Bool :=
  match definesOption opts with
  | none => false
  | some c =>
    if c = 'H' then true
    else
      match lastArg 'o' opts with
      | none => true
      | some out => recognised out

/-- The string the recognised branch of `create_file_names` leaves in
`defines_file_name` for the output name `out`. -/
def headerName (out : List Char) : List Char :=
  match strrchr out '.' with
  | some k => (out.set (k + 1) 'h').take (k + 2)
  | none => out

/-- The condition under which `create_file_names` prints its diagnostic and
clears `dflag`. -/
def definesDropped (g : Globals) (out : List Char) : Bool :=
  g.dflag && !g.dflag2 && g.explicit_file_name && !recognised out

/-- The openings `open_files` makes after `create_file_names` has left the
globals `c`, in order. -/
def plannedOpenings (c : Globals) : List OpenReq :=
  (if c.input_file.isSome then [] else (c.input_file_name.map OpenReq.read).toList) ++
  [OpenReq.temp "action_file".toList, OpenReq.temp "text_file".toList] ++
  (if c.vflag then (c.verbose_file_name.map OpenReq.write).toList else []) ++
  (if c.gflag then (c.graph_file_name.map OpenReq.write).toList else []) ++
  (if c.dflag || c.dflag2 then
    (c.defines_file_name.map OpenReq.write).toList ++ [OpenReq.temp "union_file".toList]
  else []) ++
  (if c.iflag then (c.externs_file_name.map OpenReq.write).toList else []) ++
  (c.output_file_name.map OpenReq.write).toList ++
  (if c.rflag then (c.code_file_name.map OpenReq.write).toList else [])

/-- The opening that gave the stream `s`: the request at the position of `s`
among the successful openings `opened`; `none` for `stdin` and for a null
stream. -/
def streamReq (opened : List OpenReq) (s : Option Stream) : Option OpenReq :=
  match s with
  | some (Stream.file k) => opened[k]?
  | _ => none

/-- The value of `file_prefix` when the file names are made, in terms of the
command line: the part of the `-o` name before OUTPUT_SUFFIX or before ".c" when
it ends in one of them, and otherwise the `-b` argument, or "y" without `-b`. -/
def prefixFor (opts : List (Char × List Char)) : List Char :=
  match lastArg 'o' opts with
  | none => (lastArg 'b' opts).getD "y".toList
  | some out =>
    match find_suffix out OUTPUT_SUFFIX with
    | some off => out.take off
    | none =>
      match find_suffix out ".c".toList with
      | some off => out.take off
      | none => (lastArg 'b' opts).getD "y".toList

/-- The block `file_prefix` points to is freed at the end of `create_file_names`,
in terms of the command line: the `-o` name ends in OUTPUT_SUFFIX or in ".c". -/
def prefixFreed (opts : List (Char × List Char)) : Bool :=
  match lastArg 'o' opts with
  | none => false
  | some out =>
    (find_suffix out OUTPUT_SUFFIX).isSome || (find_suffix out ".c".toList).isSome

/-- The globals `getargs` leaves for the command line `-d -o foo.y -v g.y`. -/
def sampleA : Globals :=
  { initialGlobals with
    dflag := true, vflag := true
    output_file_name := some "foo.y".toList, explicit_file_name := true
    input_file_name := some "g.y".toList, input_file_name_len := 3 }

/-- The globals `open_files` leaves for the command line `-d -o foo.y -v g.y`
when every opening succeeds. -/
def sampleAOpened : Globals :=
  { sampleA with
    dflag := false
    code_file_name := some "foo.y".toList
    verbose_file_name := some "y.output".toList
    stderr := ["yacc: suffix of output file name foo.y not recognized, no -d file generated.\n".toList]
    input_file := some (Stream.file 0)
    action_file := some (Stream.file 1)
    text_file := some (Stream.file 2)
    verbose_file := some (Stream.file 3)
    output_file := some (Stream.file 4)
    code_file := some (Stream.file 4)
    opened := [OpenReq.read "g.y".toList, OpenReq.temp "action_file".toList,
      OpenReq.temp "text_file".toList, OpenReq.write "y.output".toList,
      OpenReq.write "foo.y".toList] }

/-- The globals `getargs` leaves for the command line `-d -o parse.cpp -r -i -`. -/
def sampleB : Globals :=
  { initialGlobals with
    dflag := true, rflag := true, iflag := true
    output_file_name := some "parse.cpp".toList, explicit_file_name := true
    input_file := some Stream.stdin }

/-- The globals `open_files` leaves for the command line `-d -o parse.cpp -r -i -`
when every opening succeeds. -/
def sampleBOpened : Globals :=
  { sampleB with
    code_file_name := some "y.code.c".toList
    defines_file_name := some "parse.h".toList
    externs_file_name := some "y.tab.i".toList
    action_file := some (Stream.file 0)
    text_file := some (Stream.file 1)
    defines_file := some (Stream.file 2)
    union_file := some (Stream.file 3)
    externs_file := some (Stream.file 4)
    output_file := some (Stream.file 5)
    code_file := some (Stream.file 6)
    opened := [OpenReq.temp "action_file".toList, OpenReq.temp "text_file".toList,
      OpenReq.write "parse.h".toList, OpenReq.temp "union_file".toList,
      OpenReq.write "y.tab.i".toList, OpenReq.write "parse.cpp".toList,
      OpenReq.write "y.code.c".toList] }

/-- The globals `getargs` leaves for the command line `-b zz -d -g -i -v g.y`. -/
def sampleC : Globals :=
  { initialGlobals with
    dflag := true, gflag := true, iflag := true, vflag := true
    file_prefix := some "zz".toList
    input_file_name := some "g.y".toList, input_file_name_len := 3 }

/-- The names `open_files` passes to `fopen` are not null: there is an input
stream or an input file name, the output file has a name, and each optional file
whose flag is set has a name; and `file_prefix` can be read when the graph file
is asked for. -/
def namesReady (g : Globals) : Prop :=
  (g.input_file.isSome = true ∨ g.input_file_name.isSome = true) ∧
  (g.vflag = true → g.verbose_file_name.isSome = true) ∧
  (g.gflag = true → g.graph_file_name.isSome = true ∧
    Option.isSome g.file_prefix = true) ∧
  ((g.dflag || g.dflag2) = true → g.defines_file_name.isSome = true) ∧
  (g.iflag = true → g.externs_file_name.isSome = true) ∧
  g.output_file_name.isSome = true ∧
  (g.rflag = true → g.code_file_name.isSome = true)

/-- The globals `getargs` leaves for the command line `-d -H foo.h g.y`. -/
def sampleD : Globals :=
  { initialGlobals with
    dflag := true, dflag2 := true
    defines_file_name := some "foo.h".toList
    input_file_name := some "g.y".toList, input_file_name_len := 3 }

/-- The globals `getargs` leaves for the command line `-g -o foo.c g.y`. -/
def sampleE : Globals :=
  { initialGlobals with
    gflag := true
    output_file_name := some "foo.c".toList, explicit_file_name := true
    input_file_name := some "g.y".toList, input_file_name_len := 3 }

/-- The globals `create_file_names` leaves for the command line `-g -o foo.c g.y`:
the graph file is named and the block `file_prefix` points to has been freed. -/
def sampleENamed : Globals :=
  { sampleE with
    file_prefix := none
    code_file_name := some "foo.c".toList
    graph_file_name := some "foo.dot".toList }

/-- The globals `getargs` leaves for the command line `-g -r -o foo.c g.y`. -/
def sampleF : Globals :=
  { initialGlobals with
    gflag := true, rflag := true
    output_file_name := some "foo.c".toList, explicit_file_name := true
    input_file_name := some "g.y".toList, input_file_name_len := 3 }

/-- The globals `getargs` leaves for the command line `-r -o foo.c g.y`. -/
def sampleG : Globals :=
  { initialGlobals with
    rflag := true
    output_file_name := some "foo.c".toList, explicit_file_name := true
    input_file_name := some "g.y".toList, input_file_name_len := 3 }

/-! ## Properties of symtab.c -/

theorem ldiff_mask (n : Nat) : Nat.ldiff 1023 n = 1023 - n % 1024 := by
  apply Nat.eq_of_testBit_eq
  intro i
  rw [Nat.testBit_ldiff]
  have h1 : (1023 : Nat) = 2 ^ 10 - 1 := by norm_num
  have h2 : 1023 - n % 1024 = 2 ^ 10 - (n % 2 ^ 10 + 1) := by
    have : n % 1024 < 1024 := Nat.mod_lt _ (by norm_num)
    norm_num
    omega
  rw [h2, Nat.testBit_two_pow_sub_succ (Nat.mod_lt _ (by norm_num)), Nat.testBit_mod_two_pow, h1,
    Nat.testBit_two_pow_sub_one]
  by_cases h : i < 10 <;> simp [h]

/-- On two's complement integers `x & (TABLE_SIZE - 1)` is the remainder of `x`
modulo `TABLE_SIZE` that lies between 0 and `TABLE_SIZE - 1`. -/
theorem land_mask (x : Int) : Int.land x ((TABLE_SIZE : Int) - 1) = x % 1024 := by
  show Int.land x 1023 = x % 1024
  cases x with
  | ofNat n =>
    show ((n &&& 1023 : Nat) : Int) = _
    have : n &&& 1023 = n % 1024 := Nat.and_pow_two_sub_one_eq_mod n 10
    rw [this]; rfl
  | negSucc n =>
    show ((Nat.ldiff 1023 n : Nat) : Int) = _
    rw [ldiff_mask]
    have : n % 1024 < 1024 := Nat.mod_lt _ (by norm_num)
    rw [Int.negSucc_eq]
    omega

theorem hashLoop_range (s : List Int) (k : Int) (hk : 0 ≤ k ∧ k < 1024) :
    0 ≤ hashLoop k s ∧ hashLoop k s < 1024 := by
  induction s generalizing k with
  | nil => exact hk
  | cons c s ih =>
    simp only [hashLoop]
    apply ih
    rw [land_mask]
    constructor
    · exact Int.emod_nonneg _ (by norm_num)
    · exact Int.emod_lt_of_pos _ (by norm_num)

/-- A name of two or more characters hashes into the table, whatever its
characters. -/
theorem hash_range_of_two (c d : Int) (s : List Int) :
    ∃ h : Int, hash (c :: d :: s) = some h ∧ 0 ≤ h ∧ h < 1024 := by
  refine ⟨_, rfl, ?_⟩
  simp only [hashLoop]
  apply hashLoop_range
  rw [land_mask]
  exact ⟨Int.emod_nonneg _ (by norm_num), Int.emod_lt_of_pos _ (by norm_num)⟩

/-- A non-empty name whose first character is not negative hashes into the
table. -/
theorem hash_range_of_nonneg (c : Int) (s : List Int) (h0 : 0 ≤ c) (h1 : c ≤ 255) :
    ∃ h : Int, hash (c :: s) = some h ∧ 0 ≤ h ∧ h < 1024 := by
  cases s with
  | nil => exact ⟨c, rfl, h0, by omega⟩
  | cons d s => exact hash_range_of_two c d s

theorem addressable_iff (n : List Int) :
    addressable n ↔ ∃ s : Nat, s < TABLE_SIZE ∧ hash n = some (s : Int) := by
  constructor
  · rintro ⟨h, hh, h0, h1⟩
    refine ⟨h.toNat, ?_, ?_⟩
    · have : (h.toNat : Int) = h := Int.toNat_of_nonneg h0
      omega
    · rw [hh, Int.toNat_of_nonneg h0]
  · rintro ⟨s, hs, hh⟩
    exact ⟨s, hh, by omega, by exact_mod_cast hs⟩

theorem mem_slotMembers (heap : List bucket) (s p : Nat) :
    p ∈ slotMembers heap s ↔
      ∃ b, heap[p]? = some b ∧ hash b.name = some (s : Int) := by
  unfold slotMembers
  rw [List.mem_filter, List.mem_range]
  constructor
  · rintro ⟨hp, hd⟩
    have hd := of_decide_eq_true hd
    rw [List.getElem?_eq_getElem hp] at hd
    exact ⟨heap[p], List.getElem?_eq_getElem hp, hd⟩
  · rintro ⟨b, hb, hh⟩
    obtain ⟨hp, _⟩ := List.getElem?_eq_some.1 hb
    refine ⟨hp, decide_eq_true ?_⟩
    rw [hb]
    exact hh

theorem slotMembers_nodup (heap : List bucket) (s : Nat) : (slotMembers heap s).Nodup :=
  List.Nodup.filter _ (List.nodup_range _)

theorem slotMembers_append (heap : List bucket) (nb : bucket) (s : Nat) :
    slotMembers (heap ++ [nb]) s =
      slotMembers heap s ++
        (if hash nb.name = some (s : Int) then [heap.length] else []) := by
  unfold slotMembers
  rw [List.length_append, List.length_singleton, List.range_succ, List.filter_append]
  congr 1
  · apply List.filter_congr
    intro p hp
    rw [List.mem_range] at hp
    rw [List.getElem?_append_left hp]
  · simp only [List.filter_cons, List.filter_nil, List.getElem?_concat_length, Option.bind_some]
    by_cases h : hash nb.name = some (s : Int) <;> simp [h]

/-- The members of a slot depend on the names of the buckets only. -/
theorem slotMembers_congr (heap heap' : List bucket) (s : Nat)
    (h : heap'.map bucket.name = heap.map bucket.name) :
    slotMembers heap' s = slotMembers heap s := by
  have hlen : heap'.length = heap.length := by
    simpa using congrArg List.length h
  unfold slotMembers
  rw [hlen]
  apply List.filter_congr
  intro p _
  have hp : (heap'[p]?).map bucket.name = (heap[p]?).map bucket.name := by
    rw [← List.getElem?_map, ← List.getElem?_map, h]
  have e : ∀ o : Option bucket,
      o.bind (fun (b : bucket) => hash b.name) = (o.map bucket.name).bind hash := by
    intro o; cases o <;> rfl
  rw [e, e, hp]

theorem IsChain.congr {heap heap' : List bucket} {l : List Nat} {bp : Option Nat}
    (hc : IsChain heap l bp)
    (h : ∀ p ∈ l, ∀ b, heap[p]? = some b → ∃ b', heap'[p]? = some b' ∧ b'.link = b.link) :
    IsChain heap' l bp := by
  induction l generalizing bp with
  | nil => exact hc
  | cons q l ih =>
    obtain ⟨hbp, b, hb, hrest⟩ := hc
    obtain ⟨b', hb', hl⟩ := h q (List.mem_cons_self _ _) b hb
    refine ⟨hbp, b', hb', ?_⟩
    rw [hl]
    exact ih hrest (fun p hp => h p (List.mem_cons_of_mem _ hp))

theorem chainEnd_of_ne_nil (bpp : Ref) (l : List Nat) (hl : l ≠ []) :
    ∃ p ∈ l, chainEnd bpp l = Ref.link p := by
  induction l generalizing bpp with
  | nil => exact absurd rfl hl
  | cons q l ih =>
    cases l with
    | nil => exact ⟨q, List.mem_cons_self _ _, rfl⟩
    | cons r l =>
      obtain ⟨p, hp, he⟩ := ih (Ref.link q) (by simp)
      exact ⟨p, List.mem_cons_of_mem _ hp, he⟩

/-- Storing a new bucket where the chain ends makes the chain one bucket
longer. -/
theorem IsChain.snoc {heap heap' : List bucket} {l : List Nat} {bp : Option Nat}
    (bpp : Ref) (new : Nat)
    (hc : IsChain heap l bp) (hbpp : ∀ p ∈ l, bpp ≠ Ref.link p) (hnd : l.Nodup)
    (h : ∀ p ∈ l, ∀ b, heap[p]? = some b →
      ∃ b', heap'[p]? = some b' ∧
        b'.link = if Ref.link p = chainEnd bpp l then some new else b.link)
    (hnew : ∃ nb, heap'[new]? = some nb ∧ nb.link = none) :
    IsChain heap' (l ++ [new]) (if l = [] then some new else bp) := by
  induction l generalizing bp bpp with
  | nil =>
    obtain ⟨nb, hnb, hlink⟩ := hnew
    exact ⟨by simp, nb, hnb, hlink⟩
  | cons q l ih =>
    obtain ⟨hbp, b, hb, hrest⟩ := hc
    obtain ⟨b', hb', hl⟩ := h q (List.mem_cons_self _ _) b hb
    have hq : q ∉ l := (List.nodup_cons.1 hnd).1
    have hnd' : l.Nodup := (List.nodup_cons.1 hnd).2
    have hih := ih (Ref.link q) hrest
      (fun p hp e => hq (by cases e; exact hp)) hnd'
      (fun p hp b hb => h p (List.mem_cons_of_mem _ hp) b hb)
    refine ⟨by simp [hbp], b', hb', ?_⟩
    show IsChain heap' (l ++ [new]) b'.link
    have hlink : b'.link = if l = [] then some new else b.link := by
      rw [hl]
      by_cases hl0 : l = []
      · subst hl0; simp [chainEnd]
      · obtain ⟨p, hp, he⟩ := chainEnd_of_ne_nil (Ref.link q) l hl0
        have hne : Ref.link q ≠ chainEnd bpp (q :: l) := by
          show Ref.link q ≠ chainEnd (Ref.link q) l
          rw [he]
          intro e
          cases e
          exact hq hp
        simp [hne, hl0]
    rw [hlink]
    exact hih

/-- What the loop of `lookup` does on a chain: it stops at a bucket of the chain
that carries the name, or it walks the whole chain, no bucket of which carries
the name. -/
theorem lookupLoop_spec (heap : List bucket) (name : List Int) (l : List Nat)
    (fuel : Nat) (bpp : Ref) (bp : Option Nat)
    (hc : IsChain heap l bp) (hf : l.length < fuel) :
    (lookupLoop heap name fuel bpp bp = some (chainEnd bpp l, none) ∧
        ∀ p ∈ l, ∀ b, heap[p]? = some b → b.name ≠ name) ∨
      (∃ r p b, lookupLoop heap name fuel bpp bp = some (r, some p) ∧ p ∈ l ∧
        heap[p]? = some b ∧ b.name = name) := by
  induction l generalizing fuel bpp bp with
  | nil =>
    have hbp : bp = none := hc
    subst hbp
    cases fuel with
    | zero => exact absurd hf (by simp)
    | succ fuel => exact Or.inl ⟨rfl, by simp⟩
  | cons q l ih =>
    obtain ⟨hbp, b, hb, hrest⟩ := hc
    subst hbp
    cases fuel with
    | zero => exact absurd hf (by simp)
    | succ fuel =>
      have hf' : l.length < fuel := by simpa using hf
      by_cases hn : name = b.name
      · right
        refine ⟨bpp, q, b, ?_, List.mem_cons_self _ _, hb, hn.symm⟩
        simp [lookupLoop, hb, hn]
      · have e : lookupLoop heap name (fuel + 1) bpp (some q) =
            lookupLoop heap name fuel (Ref.link q) b.link := by
          simp [lookupLoop, hb, hn]
        rw [e]
        rcases ih fuel (Ref.link q) b.link hrest hf' with ⟨h1, h2⟩ | ⟨r, p, b2, h1, h2, h3⟩
        · left
          refine ⟨h1, ?_⟩
          intro p hp b2 hb2
          rcases List.mem_cons.1 hp with rfl | hp
          · rw [hb] at hb2
            cases hb2
            exact fun e => hn e.symm
          · exact h2 p hp b2 hb2
        · right
          exact ⟨r, p, b2, h1, List.mem_cons_of_mem _ h2, h3⟩

theorem slotOf_natCast (tbl : List (Option Nat)) (s : Nat) (hs : s < tbl.length) :
    slotOf tbl (s : Int) = some s := by
  unfold slotOf
  have : (0 : Int) ≤ (s : Int) ∧ (s : Int) < (tbl.length : Int) :=
    ⟨Int.natCast_nonneg _, by exact_mod_cast hs⟩
  rw [if_pos this, Int.toNat_natCast]

theorem slotOf_eq_some (tbl : List (Option Nat)) (h : Int) (i : Nat)
    (e : slotOf tbl h = some i) : h = (i : Int) ∧ i < tbl.length := by
  unfold slotOf at e
  split at e
  · rename_i hh
    cases e
    have : (h.toNat : Int) = h := Int.toNat_of_nonneg hh.1
    constructor
    · exact this.symm
    · have h2 := hh.2
      rw [← this] at h2
      exact_mod_cast h2
  · cases e

/-- Buckets of an invariant table with equal names are the same bucket. -/
theorem Inv.name_inj {st : SymTab} (inv : Inv st) {p q : Nat} {b c : bucket}
    (hp : st.heap[p]? = some b) (hq : st.heap[q]? = some c) (e : b.name = c.name) :
    p = q := by
  obtain ⟨hp1, hp2⟩ := List.getElem?_eq_some.1 hp
  obtain ⟨hq1, hq2⟩ := List.getElem?_eq_some.1 hq
  have hp1' : p < (st.heap.map bucket.name).length := by simpa using hp1
  have hq1' : q < (st.heap.map bucket.name).length := by simpa using hq1
  apply (@List.Nodup.getElem_inj_iff _ _ inv.nodup p hp1' q hq1').1
  rw [List.getElem_map, List.getElem_map, hp2, hq2, e]

theorem slotMembers_length_lt (heap : List bucket) (s : Nat) :
    (slotMembers heap s).length < heap.length + 1 := by
  unfold slotMembers
  have := List.length_filter_le
    (fun p => decide ((heap[p]?).bind (fun (b : bucket) => hash b.name) = some (s : Int)))
    (List.range heap.length)
  rw [List.length_range] at this
  omega

/-- Looking up the name of a bucket of an invariant table returns that bucket
and leaves the globals as they are. -/
theorem lookup_found {st : SymTab} (inv : Inv st) {p : Nat} {b : bucket}
    (hp : st.heap[p]? = some b) : lookup b.name st = some (p, st) := by
  obtain ⟨s, hs, hh⟩ := inv.slots p b hp
  have hso : slotOf st.symbol_table (s : Int) = some s :=
    slotOf_natCast _ _ (by rw [inv.table_len]; exact hs)
  have hmem : p ∈ slotMembers st.heap s := (mem_slotMembers _ _ _).2 ⟨b, hp, hh⟩
  unfold lookup
  rw [hh]
  simp only [hso]
  rcases lookupLoop_spec st.heap b.name (slotMembers st.heap s) (st.heap.length + 1)
      (Ref.slot s) (st.symbol_table[s]?.join) (inv.chains s hs)
      (slotMembers_length_lt _ _) with ⟨_, h2⟩ | ⟨r, q, c, h1, _, h3, h4⟩
  · exact absurd rfl (h2 p hmem b hp)
  · rw [h1]
    have : q = p := inv.name_inj h3 hp h4
    subst this
    rfl

theorem storeRef_spec (st : SymTab) (bpp : Ref) (new : Nat)
    (hb : (∃ s, bpp = Ref.slot s ∧ s < st.symbol_table.length) ∨
      (∃ q, bpp = Ref.link q ∧ q < st.heap.length)) :
    ∃ st2, storeRef st bpp new = some st2 ∧
      st2.first_symbol = st.first_symbol ∧ st2.last_symbol = st.last_symbol ∧
      st2.heap.length = st.heap.length ∧
      st2.symbol_table.length = st.symbol_table.length ∧
      (∀ (p : Nat) (b : bucket), st.heap[p]? = some b →
        st2.heap[p]? =
          some { b with link := if Ref.link p = bpp then some new else b.link }) ∧
      (∀ s : Nat, s < st.symbol_table.length →
        st2.symbol_table[s]? =
          if Ref.slot s = bpp then some (some new) else st.symbol_table[s]?) := by
  rcases hb with ⟨s, rfl, hs⟩ | ⟨q, rfl, hq⟩
  · refine ⟨{ st with symbol_table := st.symbol_table.set s (some new) }, ?_, rfl, rfl, rfl,
      ?_, ?_, ?_⟩
    · simp [storeRef, hs]
    · simp
    · intro p b hp
      simp [hp]
    · intro s' hs'
      simp only [List.getElem?_set]
      by_cases e : s = s'
      · subst e; simp [hs]
      · have : Ref.slot s' ≠ Ref.slot s := fun h => e (by cases h; rfl)
        simp [e, this]
  · have hq' : st.heap[q]? = some st.heap[q] := List.getElem?_eq_getElem hq
    refine ⟨{ st with heap := st.heap.set q { st.heap[q] with link := some new } }, ?_, rfl,
      rfl, ?_, rfl, ?_, ?_⟩
    · simp [storeRef, hq']
    · simp
    · intro p b hp
      simp only [List.getElem?_set]
      by_cases e : q = p
      · subst e
        rw [hq'] at hp
        cases hp
        simp [hq]
      · have : Ref.link p ≠ Ref.link q := fun h => e (by cases h; rfl)
        simp [e, this, hp]
    · intro s' _
      simp

theorem appendSymbol_spec (st : SymTab) (new k : Nat) (hl : st.last_symbol = some k)
    (hk : k < st.heap.length) :
    ∃ st3, appendSymbol st new = some st3 ∧
      st3.first_symbol = st.first_symbol ∧ st3.last_symbol = some new ∧
      st3.heap.length = st.heap.length ∧
      st3.symbol_table = st.symbol_table ∧
      (∀ (p : Nat) (b : bucket), st.heap[p]? = some b →
        st3.heap[p]? =
          some { b with next := if p = k then some new else b.next }) := by
  have hk' : st.heap[k]? = some st.heap[k] := List.getElem?_eq_getElem hk
  refine ⟨{ st with heap := st.heap.set k { st.heap[k] with next := some new }
                    last_symbol := some new }, ?_, rfl, rfl, ?_, rfl, ?_⟩
  · simp [appendSymbol, hl, hk']
  · simp
  · intro p b hp
    simp only [List.getElem?_set]
    by_cases e : k = p
    · subst e
      rw [hk'] at hp
      cases hp
      simp [hk]
    · have : p ≠ k := fun h => e h.symm
      simp [e, this, hp]

theorem names_extend {heap heap3 : List bucket} {n : List Int}
    (H2 : heap3.length = heap.length + 1)
    (H4 : ∀ (p : Nat) (b : bucket), heap[p]? = some b →
      ∃ b', heap3[p]? = some b' ∧ b'.name = b.name)
    (H5 : ∃ nb, heap3[heap.length]? = some nb ∧ nb.name = n) :
    heap3.map bucket.name = heap.map bucket.name ++ [n] := by
  apply List.ext_getElem?
  intro i
  rw [List.getElem?_map]
  rcases Nat.lt_trichotomy i heap.length with hi | hi | hi
  · obtain ⟨b', hb', hn⟩ := H4 i heap[i] (List.getElem?_eq_getElem hi)
    rw [List.getElem?_append_left (by simpa using hi), List.getElem?_map, hb',
      List.getElem?_eq_getElem hi]
    simp [hn]
  · subst hi
    obtain ⟨nb, hnb, hn⟩ := H5
    rw [hnb, List.getElem?_append_right (by simp)]
    simp [hn]
  · rw [List.getElem?_eq_none (by omega), List.getElem?_eq_none (by simp; omega)]
    rfl

/-- A state that differs from an invariant one by a new last bucket, linked at the
end of the chain of its slot and at the end of the symbol list, is invariant. -/
theorem inv_extend {st st3 : SymTab} (inv : Inv st) {n : List Int} {s k : Nat}
    (hs : s < TABLE_SIZE) (hh : hash n = some (s : Int))
    (hnew : ∀ b ∈ st.heap, b.name ≠ n) (hk : st.heap.length = k + 1)
    (H1 : st3.symbol_table.length = TABLE_SIZE)
    (H2 : st3.heap.length = st.heap.length + 1)
    (H3 : st3.first_symbol = some 0) (H3' : st3.last_symbol = some st.heap.length)
    (H4 : ∀ (p : Nat) (b : bucket), st.heap[p]? = some b →
      st3.heap[p]? = some { b with
        link := if Ref.link p = chainEnd (Ref.slot s) (slotMembers st.heap s)
          then some st.heap.length else b.link
        next := if p = k then some st.heap.length else b.next })
    (H5 : st3.heap[st.heap.length]? = some (make_bucket n))
    (H6 : ∀ s' : Nat, s' < TABLE_SIZE →
      st3.symbol_table[s']? =
        if Ref.slot s' = chainEnd (Ref.slot s) (slotMembers st.heap s)
        then some (some st.heap.length) else st.symbol_table[s']?) :
    Inv st3 ∧ st3.heap.map bucket.name = st.heap.map bucket.name ++ [n] := by
  have hnames : st3.heap.map bucket.name = st.heap.map bucket.name ++ [n] :=
    names_extend H2 (fun p b hb => ⟨_, H4 p b hb, rfl⟩) ⟨_, H5, rfl⟩
  have hold : ∀ (p : Nat) (hp : p < st.heap.length), st.heap[p]? = some st.heap[p] :=
    fun p hp => List.getElem?_eq_getElem hp
  refine ⟨?_, hnames⟩
  constructor
  · exact H1
  · exact H3
  · exact ⟨st.heap.length, H2, H3'⟩
  · intro p b3 hb3
    rcases Nat.lt_trichotomy p st.heap.length with hp | hp | hp
    · rw [H4 p _ (hold p hp)] at hb3
      cases hb3
      have hn := inv.next p st.heap[p] (hold p hp)
      show (if p = k then some st.heap.length else (st.heap[p]).next) = _
      rw [hn, H2]
      by_cases e : p = k
      · subst e; simp [hk]
      · have h1 : p + 1 < st.heap.length := by omega
        have h2 : p + 1 < st.heap.length + 1 := by omega
        simp [e, h1, h2]
    · subst hp
      rw [H5] at hb3
      cases hb3
      simp [make_bucket, H2]
    · have := List.getElem?_eq_some.1 hb3
      obtain ⟨h, _⟩ := this
      omega
  · intro p b3 hb3
    rcases Nat.lt_trichotomy p st.heap.length with hp | hp | hp
    · rw [H4 p _ (hold p hp)] at hb3
      cases hb3
      exact inv.slots p st.heap[p] (hold p hp)
    · subst hp
      rw [H5] at hb3
      cases hb3
      exact ⟨s, hs, hh⟩
    · obtain ⟨h, _⟩ := List.getElem?_eq_some.1 hb3
      omega
  · intro s' hs'
    have hm : slotMembers st3.heap s' =
        slotMembers st.heap s' ++
          (if hash n = some (s' : Int) then [st.heap.length] else []) := by
      have hap := slotMembers_append st.heap (make_bucket n) s'
      have hmk : (make_bucket n).name = n := rfl
      rw [hmk] at hap
      rw [← hap]
      apply slotMembers_congr
      rw [hnames]
      simp [make_bucket]
    rw [hm, H6 s' hs']
    by_cases e : s' = s
    · subst e
      rw [if_pos hh]
      have hsn := @IsChain.snoc st.heap st3.heap _ _ (Ref.slot s') st.heap.length
        (inv.chains s' hs) (fun _ _ h => by cases h) (slotMembers_nodup _ _)
        (fun p _ b hb => ⟨_, H4 p b hb, rfl⟩) ⟨_, H5, rfl⟩
      by_cases hl : slotMembers st.heap s' = []
      · rw [hl] at hsn ⊢
        simpa [chainEnd] using hsn
      · obtain ⟨q, _, hq⟩ := chainEnd_of_ne_nil (Ref.slot s') _ hl
        rw [if_neg hl] at hsn
        rw [hq, if_neg (by intro h; cases h)]
        exact hsn
    · have hne : hash n ≠ some (s' : Int) := by
        rw [hh]
        intro h
        apply e
        have := Option.some.inj h
        exact_mod_cast this.symm
      rw [if_neg hne, List.append_nil]
      have hbpp : ∀ p ∈ slotMembers st.heap s',
          Ref.link p ≠ chainEnd (Ref.slot s) (slotMembers st.heap s) := by
        intro p hp
        by_cases hl : slotMembers st.heap s = []
        · rw [hl]; intro h; cases h
        · obtain ⟨q, hq, hqe⟩ := chainEnd_of_ne_nil (Ref.slot s) _ hl
          rw [hqe]
          intro h
          cases h
          obtain ⟨b1, hb1, hh1⟩ := (mem_slotMembers _ _ _).1 hp
          obtain ⟨b2, hb2, hh2⟩ := (mem_slotMembers _ _ _).1 hq
          rw [hb1] at hb2
          cases hb2
          rw [hh1] at hh2
          apply e
          have := Option.some.inj hh2
          exact_mod_cast this
      have htab : Ref.slot s' ≠ chainEnd (Ref.slot s) (slotMembers st.heap s) := by
        by_cases hl : slotMembers st.heap s = []
        · rw [hl]; intro h; cases h; exact e rfl
        · obtain ⟨q, _, hqe⟩ := chainEnd_of_ne_nil (Ref.slot s) _ hl
          rw [hqe]; intro h; cases h
      rw [if_neg htab]
      apply IsChain.congr (inv.chains s' hs')
      intro p hp b hb
      refine ⟨_, H4 p b hb, ?_⟩
      simp [hbpp p hp]
  · rw [hnames]
    apply List.Nodup.append inv.nodup (List.nodup_singleton n)
    intro x hx hx'
    rw [List.mem_singleton] at hx'
    subst hx'
    obtain ⟨b, hb, hbn⟩ := List.mem_map.1 hx
    exact hnew b hb hbn
  · obtain ⟨b, hb, he⟩ := inv.error
    refine ⟨_, H4 0 b hb, ?_⟩
    rw [he]

/-- Looking up a name no bucket carries allocates one bucket, stores it at the
end of the chain of its slot and at the end of the symbol list, and keeps the
invariant. -/
theorem lookup_new {st : SymTab} (inv : Inv st) {n : List Int} (ha : addressable n)
    (hnew : ∀ b ∈ st.heap, b.name ≠ n) :
    ∃ st', lookup n st = some (st.heap.length, st') ∧ Inv st' ∧
      st'.heap.length = st.heap.length + 1 ∧
      st'.heap.map bucket.name = st.heap.map bucket.name ++ [n] ∧
      st'.first_symbol = st.first_symbol ∧ st'.last_symbol = some st.heap.length ∧
      st'.heap[st.heap.length]? = some (make_bucket n) ∧
      (∀ (p : Nat) (b : bucket), st.heap[p]? = some b →
        ∃ b', st'.heap[p]? = some b' ∧ b' = { b with link := b'.link, next := b'.next }) := by
  obtain ⟨s, hs, hh⟩ := (addressable_iff n).1 ha
  obtain ⟨k, hk, hlast⟩ := inv.last
  have hso : slotOf st.symbol_table (s : Int) = some s :=
    slotOf_natCast _ _ (by rw [inv.table_len]; exact hs)
  have hloop : lookupLoop st.heap n (st.heap.length + 1) (Ref.slot s)
      (st.symbol_table[s]?.join) =
        some (chainEnd (Ref.slot s) (slotMembers st.heap s), none) := by
    rcases lookupLoop_spec st.heap n (slotMembers st.heap s) (st.heap.length + 1)
        (Ref.slot s) (st.symbol_table[s]?.join) (inv.chains s hs)
        (slotMembers_length_lt _ _) with ⟨h1, _⟩ | ⟨r, q, c, _, _, h3, h4⟩
    · exact h1
    · exact absurd h4 (hnew c (List.mem_iff_getElem?.2 ⟨q, h3⟩))
  let st1 : SymTab := { st with heap := st.heap ++ [make_bucket n] }
  have hb : (∃ s', chainEnd (Ref.slot s) (slotMembers st.heap s) = Ref.slot s' ∧
        s' < st1.symbol_table.length) ∨
      (∃ q, chainEnd (Ref.slot s) (slotMembers st.heap s) = Ref.link q ∧
        q < st1.heap.length) := by
    by_cases hl : slotMembers st.heap s = []
    · left
      rw [hl]
      exact ⟨s, rfl, by show s < st.symbol_table.length; rw [inv.table_len]; exact hs⟩
    · right
      obtain ⟨q, hq, hqe⟩ := chainEnd_of_ne_nil (Ref.slot s) _ hl
      obtain ⟨b, hb, _⟩ := (mem_slotMembers _ _ _).1 hq
      obtain ⟨hq', _⟩ := List.getElem?_eq_some.1 hb
      exact ⟨q, hqe, by show q < (st.heap ++ [make_bucket n]).length; simp; omega⟩
  obtain ⟨st2, hst2, hf2, hl2, hlen2, htl2, hheap2, htab2⟩ :=
    storeRef_spec st1 (chainEnd (Ref.slot s) (slotMembers st.heap s)) st.heap.length hb
  have hlen1 : st1.heap.length = st.heap.length + 1 := by
    show (st.heap ++ [make_bucket n]).length = _
    simp
  obtain ⟨st3, hst3, hf3, hl3, hlen3, htab3, hheap3⟩ :=
    appendSymbol_spec st2 st.heap.length k (by rw [hl2]; exact hlast) (by omega)
  have hres : lookup n st = some (st.heap.length, st3) := by
    unfold lookup
    rw [hh]
    simp only [hso, hloop]
    show (match storeRef st1 (chainEnd (Ref.slot s) (slotMembers st.heap s)) st.heap.length with
      | none => none
      | some st2 =>
        match appendSymbol st2 st.heap.length with
        | none => none
        | some st3 => some (st.heap.length, st3)) = _
    rw [hst2]
    simp only [hst3]
  have hchain_ne : Ref.link st.heap.length ≠
      chainEnd (Ref.slot s) (slotMembers st.heap s) := by
    by_cases hl : slotMembers st.heap s = []
    · rw [hl]; intro h; cases h
    · obtain ⟨q, hq, hqe⟩ := chainEnd_of_ne_nil (Ref.slot s) _ hl
      obtain ⟨b, hb, _⟩ := (mem_slotMembers _ _ _).1 hq
      obtain ⟨hq', _⟩ := List.getElem?_eq_some.1 hb
      rw [hqe]
      intro h
      cases h
      omega
  have H4 : ∀ (p : Nat) (b : bucket), st.heap[p]? = some b →
      st3.heap[p]? = some { b with
        link := if Ref.link p = chainEnd (Ref.slot s) (slotMembers st.heap s)
          then some st.heap.length else b.link
        next := if p = k then some st.heap.length else b.next } := by
    intro p b hp
    obtain ⟨hp', _⟩ := List.getElem?_eq_some.1 hp
    have h1 : st1.heap[p]? = some b := by
      show (st.heap ++ [make_bucket n])[p]? = some b
      rw [List.getElem?_append_left hp', hp]
    rw [hheap3 p _ (hheap2 p b h1)]
  have H5 : st3.heap[st.heap.length]? = some (make_bucket n) := by
    have h1 : st1.heap[st.heap.length]? = some (make_bucket n) :=
      List.getElem?_concat_length _ _
    rw [hheap3 _ _ (hheap2 _ _ h1)]
    have hk' : st.heap.length ≠ k := by omega
    simp [hchain_ne, hk', make_bucket]
  have H6 : ∀ s' : Nat, s' < TABLE_SIZE →
      st3.symbol_table[s']? =
        if Ref.slot s' = chainEnd (Ref.slot s) (slotMembers st.heap s)
        then some (some st.heap.length) else st.symbol_table[s']? := by
    intro s' hs'
    rw [htab3]
    exact htab2 s' (by show s' < st.symbol_table.length; rw [inv.table_len]; exact hs')
  have hext := @inv_extend st st3 inv n s k hs hh hnew hk
    (by rw [htab3, htl2]; exact inv.table_len)
    (by rw [hlen3, hlen2, hlen1])
    (by rw [hf3, hf2]; exact inv.first) hl3 H4 H5 H6
  refine ⟨st3, hres, hext.1, by rw [hlen3, hlen2, hlen1], hext.2, by rw [hf3, hf2], hl3,
    H5, ?_⟩
  intro p b hp
  exact ⟨_, H4 p b hp, rfl⟩

theorem hash_errorName : hash errorName = some 520 := by decide

theorem create_symbol_table_eq :
    create_symbol_table =
      some { heap := [errorBucket]
             symbol_table := (List.replicate TABLE_SIZE none).set 520 (some 0)
             first_symbol := some 0
             last_symbol := some 0 } := by
  unfold create_symbol_table
  rw [hash_errorName]
  have : slotOf (List.replicate TABLE_SIZE (none : Option Nat)) 520 = some 520 := by
    have := slotOf_natCast (List.replicate TABLE_SIZE (none : Option Nat)) 520
      (by rw [List.length_replicate]; decide)
    exact this
  simp only [this]

/-- The globals `create_symbol_table` leaves satisfy the invariant. -/
theorem create_symbol_table_inv :
    ∃ st0, create_symbol_table = some st0 ∧ Inv st0 ∧ st0.heap = [errorBucket] := by
  refine ⟨_, create_symbol_table_eq, ?_, rfl⟩
  have hsm : ∀ s : Nat, slotMembers [errorBucket] s = if s = 520 then [0] else [] := by
    intro s
    unfold slotMembers
    have h : hash errorBucket.name = some 520 := hash_errorName
    have hr : List.range [errorBucket].length = [0] := rfl
    rw [hr]
    simp only [List.filter_cons, List.filter_nil]
    have e : ([errorBucket][0]?).bind (fun (b : bucket) => hash b.name) = some 520 := h
    rw [e]
    by_cases hs : s = 520
    · subst hs; simp
    · have : (some (520 : Int)) ≠ some (s : Int) := by
        intro h2
        apply hs
        have := Option.some.inj h2
        exact_mod_cast this.symm
      simp [this, hs]
  constructor
  · show ((List.replicate TABLE_SIZE (none : Option Nat)).set 520 (some 0)).length = TABLE_SIZE
    rw [List.length_set, List.length_replicate]
  · rfl
  · exact ⟨0, rfl, rfl⟩
  · intro p b hb
    cases p with
    | zero =>
      simp at hb
      subst hb
      rfl
    | succ p => simp at hb
  · intro p b hb
    cases p with
    | zero =>
      simp at hb
      subst hb
      exact ⟨520, by decide, hash_errorName⟩
    | succ p => simp at hb
  · intro s hs
    show IsChain [errorBucket] (slotMembers [errorBucket] s)
      (((List.replicate TABLE_SIZE (none : Option Nat)).set 520 (some 0))[s]?.join)
    rw [hsm s, List.getElem?_set]
    by_cases e : s = 520
    · subst e
      simp only [if_true]
      have : (520 : Nat) < (List.replicate TABLE_SIZE (none : Option Nat)).length := by
        rw [List.length_replicate]; decide
      rw [if_pos this]
      exact ⟨rfl, errorBucket, rfl, rfl⟩
    · have e' : ¬ (520 = s) := fun h => e h.symm
      rw [if_neg e, if_neg e', List.getElem?_replicate, if_pos hs]
      rfl
  · simp
  · exact ⟨errorBucket, rfl, rfl⟩

theorem lookup_none_of_not_addressable {st : SymTab} (inv : Inv st) {n : List Int}
    (ha : ¬ addressable n) : lookup n st = none := by
  cases hh : hash n with
  | none => simp only [lookup, hh]
  | some h =>
    cases hs : slotOf st.symbol_table h with
    | none => simp only [lookup, hh, hs]
    | some i =>
      exfalso
      apply ha
      obtain ⟨e, hi⟩ := slotOf_eq_some _ _ _ hs
      rw [inv.table_len] at hi
      exact ⟨h, hh, by rw [e]; exact Int.natCast_nonneg _, by rw [e]; exact_mod_cast hi⟩

/-- The three ways a call of `lookup` on an invariant table can go. -/
theorem lookup_cases {st : SymTab} (inv : Inv st) (n : List Int) :
    (¬ addressable n ∧ lookup n st = none) ∨
    (addressable n ∧ ∃ p b, st.heap[p]? = some b ∧ b.name = n ∧
      lookup n st = some (p, st)) ∨
    (addressable n ∧ (∀ b ∈ st.heap, b.name ≠ n) ∧
      ∃ st', lookup n st = some (st.heap.length, st') ∧ Inv st' ∧
        st'.heap.length = st.heap.length + 1 ∧
        st'.heap.map bucket.name = st.heap.map bucket.name ++ [n] ∧
        st'.first_symbol = st.first_symbol ∧ st'.last_symbol = some st.heap.length ∧
        st'.heap[st.heap.length]? = some (make_bucket n) ∧
        (∀ (p : Nat) (b : bucket), st.heap[p]? = some b →
          ∃ b', st'.heap[p]? = some b' ∧
            b' = { b with link := b'.link, next := b'.next })) := by
  by_cases ha : addressable n
  · by_cases hex : ∃ b ∈ st.heap, b.name = n
    · obtain ⟨b, hb, hbn⟩ := hex
      obtain ⟨p, hp⟩ := List.mem_iff_getElem?.1 hb
      right; left
      refine ⟨ha, p, b, hp, hbn, ?_⟩
      rw [← hbn]
      exact lookup_found inv hp
    · right; right
      have hnew : ∀ b ∈ st.heap, b.name ≠ n := fun b hb e => hex ⟨b, hb, e⟩
      exact ⟨ha, hnew, lookup_new inv ha hnew⟩
  · exact Or.inl ⟨ha, lookup_none_of_not_addressable inv ha⟩

theorem firstOccur_congr (s1 s2 : List (List Int)) (ns : List (List Int))
    (h : ∀ x, x ∈ s1 ↔ x ∈ s2) : firstOccur s1 ns = firstOccur s2 ns := by
  induction ns generalizing s1 s2 with
  | nil => rfl
  | cons n ns ih =>
    simp only [firstOccur]
    by_cases h1 : n ∈ s1
    · rw [if_pos h1, if_pos ((h n).1 h1)]
      exact ih s1 s2 h
    · rw [if_neg h1, if_neg (fun h2 => h1 ((h n).2 h2))]
      congr 1
      apply ih
      intro x
      simp only [List.mem_cons, h x]

/-- A run of lookups keeps the invariant and adds the names not seen before, in
order of first lookup. -/
theorem lookupsFrom_inv {st st' : SymTab} (inv : Inv st) (ns : List (List Int))
    (h : lookupsFrom st ns = some st') :
    Inv st' ∧
      st'.heap.map bucket.name =
        st.heap.map bucket.name ++ firstOccur (st.heap.map bucket.name) ns := by
  induction ns generalizing st with
  | nil =>
    simp only [lookupsFrom, Option.some.injEq] at h
    subst h
    exact ⟨inv, by simp [firstOccur]⟩
  | cons n ns ih =>
    unfold lookupsFrom at h
    rcases lookup_cases inv n with ⟨_, h1⟩ | ⟨_, p, b, hp, hbn, h1⟩ |
        ⟨_, hnew, st1, h1, inv1, _, hnames, _⟩
    · rw [h1] at h
      cases h
    · rw [h1] at h
      have hmem : n ∈ st.heap.map bucket.name :=
        List.mem_map.2 ⟨b, List.mem_iff_getElem?.2 ⟨p, hp⟩, hbn⟩
      obtain ⟨i1, i2⟩ := ih inv h
      refine ⟨i1, ?_⟩
      rw [i2]
      simp only [firstOccur, if_pos hmem]
    · rw [h1] at h
      have hmem : n ∉ st.heap.map bucket.name := by
        intro hm
        obtain ⟨b, hb, hbn⟩ := List.mem_map.1 hm
        exact hnew b hb hbn
      obtain ⟨i1, i2⟩ := ih inv1 h
      refine ⟨i1, ?_⟩
      rw [i2, hnames]
      simp only [firstOccur, if_neg hmem, List.append_assoc, List.singleton_append]
      congr 2
      apply firstOccur_congr
      intro x
      simp only [List.mem_append, List.mem_singleton, List.mem_cons]
      tauto

/-- A run of lookups is defined as soon as every name addresses a slot. -/
theorem lookupsFrom_defined {st : SymTab} (inv : Inv st) (ns : List (List Int))
    (h : ∀ n ∈ ns, addressable n) : ∃ st', lookupsFrom st ns = some st' := by
  induction ns generalizing st with
  | nil => exact ⟨st, rfl⟩
  | cons n ns ih =>
    have ha : addressable n := h n (List.mem_cons_self _ _)
    have hrest : ∀ m ∈ ns, addressable m := fun m hm => h m (List.mem_cons_of_mem _ hm)
    unfold lookupsFrom
    rcases lookup_cases inv n with ⟨hna, _⟩ | ⟨_, p, b, _, _, h1⟩ |
        ⟨_, _, st1, h1, inv1, _⟩
    · exact absurd ha hna
    · rw [h1]
      exact ih inv hrest
    · rw [h1]
      exact ih inv1 hrest

theorem lookups_inv {names : List (List Int)} {st : SymTab}
    (h : lookups names = some st) :
    Inv st ∧ st.heap.map bucket.name = declarationOrder names := by
  obtain ⟨st0, h0, inv0, hheap⟩ := create_symbol_table_inv
  unfold lookups at h
  rw [h0] at h
  obtain ⟨i1, i2⟩ := lookupsFrom_inv inv0 names h
  refine ⟨i1, ?_⟩
  rw [i2, hheap]
  rfl

/-- The program `create_symbol_table(); lookup(n1); ...; lookup(nk);` runs to
completion whenever every name addresses a slot of the table. -/
theorem lookups_defined (names : List (List Int)) (h : ∀ n ∈ names, addressable n) :
    ∃ st, lookups names = some st := by
  obtain ⟨st0, h0, inv0, _⟩ := create_symbol_table_inv
  unfold lookups
  rw [h0]
  exact lookupsFrom_defined inv0 names h

theorem walkNext_spec (heap : List bucket)
    (hnext : ∀ (p : Nat) (b : bucket), heap[p]? = some b →
      b.next = if p + 1 < heap.length then some (p + 1) else none)
    (m p fuel : Nat) (hp : p + m = heap.length) (hf : m ≤ fuel) :
    walkNext heap fuel (if p < heap.length then some p else none) =
      some (List.range' p m) := by
  induction m generalizing p fuel with
  | zero =>
    have : ¬ p < heap.length := by omega
    rw [if_neg this]
    cases fuel <;> rfl
  | succ m ih =>
    have hlt : p < heap.length := by omega
    rw [if_pos hlt]
    cases fuel with
    | zero => omega
    | succ fuel =>
      have hb : heap[p]? = some heap[p] := List.getElem?_eq_getElem hlt
      have hn := hnext p heap[p] hb
      have := ih (p + 1) fuel (by omega) (by omega)
      rw [← hn] at this
      simp only [walkNext, hb, this]
      rfl

theorem filterMap_range_getElem? {α β : Type} (f : α → β) (l : List α) :
    (List.range l.length).filterMap (fun p => (l[p]?).map f) = l.map f := by
  induction l using List.reverseRecOn with
  | nil => rfl
  | append_singleton l a ih =>
    rw [List.length_append, List.length_singleton, List.range_succ, List.filterMap_append,
      List.map_append]
    congr 1
    · rw [← ih]
      apply List.filterMap_congr
      intro p hp
      rw [List.mem_range] at hp
      rw [List.getElem?_append_left hp]
    · simp

theorem Inv.symbolList_eq {st : SymTab} (inv : Inv st) :
    symbolList st = some (List.range st.heap.length) := by
  obtain ⟨k, hk, _⟩ := inv.last
  unfold symbolList
  rw [inv.first, List.range_eq_range']
  have := walkNext_spec st.heap inv.next st.heap.length 0 st.heap.length (by simp) (le_refl _)
  rw [if_pos (by omega)] at this
  exact this

theorem Inv.symbolNames_eq {st : SymTab} (inv : Inv st) :
    symbolNames st = some (st.heap.map bucket.name) := by
  unfold symbolNames
  rw [inv.symbolList_eq]
  simp only [Option.map_some', Option.some.injEq]
  exact filterMap_range_getElem? bucket.name st.heap

theorem lookupsFrom_addressable {st st' : SymTab} (inv : Inv st) (ns : List (List Int))
    (h : lookupsFrom st ns = some st') : ∀ n ∈ ns, addressable n := by
  induction ns generalizing st with
  | nil => intro n hn; cases hn
  | cons m ns ih =>
    unfold lookupsFrom at h
    rcases lookup_cases inv m with ⟨_, h1⟩ | ⟨ha, p, b, _, _, h1⟩ |
        ⟨ha, _, st1, h1, inv1, _⟩
    · rw [h1] at h
      cases h
    · rw [h1] at h
      intro n hn
      rcases List.mem_cons.1 hn with rfl | hn
      · exact ha
      · exact ih inv h n hn
    · rw [h1] at h
      intro n hn
      rcases List.mem_cons.1 hn with rfl | hn
      · exact ha
      · exact ih inv1 h n hn

/-- The program `create_symbol_table(); lookup(n1); ...; lookup(nk);` runs to
completion exactly when the hash of every name addresses a slot of the table. -/
theorem lookups_defined_iff (names : List (List Int)) :
    (∃ st, lookups names = some st) ↔ ∀ n ∈ names, addressable n := by
  constructor
  · rintro ⟨st, h⟩
    obtain ⟨st0, h0, inv0, _⟩ := create_symbol_table_inv
    unfold lookups at h
    rw [h0] at h
    exact lookupsFrom_addressable inv0 names h
  · exact lookups_defined names

set_option maxRecDepth 100000

/-- C1: the program `create_symbol_table(); lookup(n1); ...; lookup(nk);` runs
to completion exactly when every hash addresses a slot of the table, and in
every state it reaches the list from `first_symbol` through `next` is well
formed, no two different buckets on it carry equal names, and the names met
along it are pairwise different. -/
theorem interned_names_unique (names : List (List Int)) :
    ((∃ st, lookups names = some st) ↔ ∀ n ∈ names, addressable n) ∧
    ∀ st, lookups names = some st →
      ∃ l ns, symbolList st = some l ∧ symbolNames st = some ns ∧ ns.Nodup ∧
        ∀ p ∈ l, ∀ q ∈ l, ∀ (b c : bucket), st.heap[p]? = some b →
          st.heap[q]? = some c → b.name = c.name → p = q := by
  refine ⟨lookups_defined_iff names, ?_⟩
  intro st h
  obtain ⟨inv, _⟩ := lookups_inv h
  refine ⟨_, _, inv.symbolList_eq, inv.symbolNames_eq, inv.nodup, ?_⟩
  intro p _ q _ b c hb hc e
  exact inv.name_inj hb hc e

theorem interned_names_unique_witness :
    lookups [[97], [99, 100], [97]] = some sampleTable ∧
      ∃ l ns, symbolList sampleTable = some l ∧ symbolNames sampleTable = some ns ∧
        ns.Nodup ∧
        ∀ p ∈ l, ∀ q ∈ l, ∀ (b c : bucket), sampleTable.heap[p]? = some b →
          sampleTable.heap[q]? = some c → b.name = c.name → p = q :=
  ⟨by decide,
    (interned_names_unique [[97], [99, 100], [97]]).2 sampleTable (by decide)⟩

/-- Every name of two or more characters, and every one-character name whose
character is not negative, hashes to a slot of the table. -/
theorem hash_in_table (n : List Int)
    (h : 2 ≤ n.length ∨ ∃ c, n = [c] ∧ 0 ≤ c ∧ c ≤ 255) : addressable n := by
  rcases h with h | ⟨c, rfl, h0, h1⟩
  · match n, h with
    | c :: d :: s, _ =>
      obtain ⟨x, hx, h0, h1⟩ := hash_range_of_two c d s
      exact ⟨x, hx, h0, by exact_mod_cast h1⟩
  · exact ⟨c, rfl, h0, by show c < 1024; omega⟩

/-- C2 at a failing input, and what holds for every name.  The name made of the
one byte 0xE9, read as a signed `char` (value -23), is not empty and `lookup` of
it has no defined result, on the table `create_symbol_table` leaves and on the
table after `lookup("a")`: `symbol_table + hash(name)` lies before the table.
In every state reached by `create_symbol_table()` followed by a sequence of
`lookup` calls, `lookup(n)` has a result exactly when `hash(n)` addresses a slot
of the table, which it does for every name of two or more characters and every
one-character name whose character is not negative; and then `lookup(n)`
returns a bucket whose name is `n`, a second `lookup(n)` returns the same bucket
and leaves all the globals (table, buckets, `first_symbol`, `last_symbol`) as
they are, and when a bucket already carries `n` the first call changes nothing
either. -/
theorem lookup_idempotent :
    (([-23] : List Int) ≠ [] ∧
      create_symbol_table.isSome = true ∧
      create_symbol_table.bind (lookup [-23]) = none ∧
      lookups [[97]] = some oneNameTable ∧
      lookup [-23] oneNameTable = none) ∧
    ∀ (names : List (List Int)) (st : SymTab) (n : List Int),
      lookups names = some st →
      ((2 ≤ n.length ∨ ∃ c, n = [c] ∧ 0 ≤ c ∧ c ≤ 255) → addressable n) ∧
      (¬ addressable n → lookup n st = none) ∧
      (addressable n →
        ∃ b st', lookup n st = some (b, st') ∧
          (∃ c, st'.heap[b]? = some c ∧ c.name = n) ∧
          lookup n st' = some (b, st') ∧
          ((∃ c ∈ st.heap, c.name = n) → st' = st)) := by
  refine ⟨⟨by decide, by decide, by decide, by decide, by decide⟩, ?_⟩
  intro names st n h
  obtain ⟨inv, _⟩ := lookups_inv h
  refine ⟨hash_in_table n, lookup_none_of_not_addressable inv, ?_⟩
  intro ha
  rcases lookup_cases inv n with ⟨hna, _⟩ | ⟨_, p, b, hp, hbn, h1⟩ |
      ⟨_, hnew, st1, h1, inv1, _, _, _, _, hnb, _⟩
  · exact absurd ha hna
  · exact ⟨p, st, h1, ⟨b, hp, hbn⟩, h1, fun _ => rfl⟩
  · refine ⟨st.heap.length, st1, h1, ⟨_, hnb, rfl⟩, ?_, ?_⟩
    · exact lookup_found inv1 hnb
    · rintro ⟨c, hc, hcn⟩
      exact absurd hcn (hnew c hc)

theorem lookup_idempotent_witness :
    lookups [[97]] = some oneNameTable ∧ addressable [99, 100] ∧
      ∃ b st', lookup [99, 100] oneNameTable = some (b, st') ∧
        (∃ c, st'.heap[b]? = some c ∧ c.name = [99, 100]) ∧
        lookup [99, 100] st' = some (b, st') ∧
        ((∃ c ∈ oneNameTable.heap, c.name = [99, 100]) → st' = oneNameTable) :=
  ⟨by decide, ⟨97, by decide, by decide, by decide⟩,
    (lookup_idempotent.2 [[97]] oneNameTable [99, 100] (by decide)).2.2
      ⟨97, by decide, by decide, by decide⟩⟩

/-- C3 at a failing input, and what holds on every run.  The name made of the
one byte 0xE9, read as a signed `char` (value -23), is carried by no bucket of
the table after `create_symbol_table(); lookup("a");`, and `lookup` of it has no
defined result: no bucket is appended.  The program `create_symbol_table();
lookup(n1); ...; lookup(nk);` runs to completion exactly when every hash
addresses a slot of the table; after it, the traversal from `first_symbol`
through `next` meets "error" followed by the distinct looked-up names other than
"error", in order of first lookup; and a further `lookup` of a name no bucket
carries has a result exactly when its hash addresses a slot, and then appends
exactly one bucket at the tail of that list: the new bucket is `last_symbol`,
its `next` is null, and the earlier buckets stay where they were, with every
field but `link` and `next` as it was. -/
theorem declaration_order_preserved :
    (lookups [[97]] = some oneNameTable ∧
      (∀ b ∈ oneNameTable.heap, b.name ≠ [-23]) ∧
      lookup [-23] oneNameTable = none) ∧
    ∀ names : List (List Int),
      ((∃ st, lookups names = some st) ↔ ∀ n ∈ names, addressable n) ∧
      ∀ st, lookups names = some st →
        symbolNames st = some (declarationOrder names) ∧
        ∀ n, (∀ b ∈ st.heap, b.name ≠ n) →
          (¬ addressable n → lookup n st = none) ∧
          (addressable n →
            ∃ l st', symbolList st = some l ∧
              lookup n st = some (st.heap.length, st') ∧
              symbolList st' = some (l ++ [st.heap.length]) ∧
              st'.last_symbol = some st.heap.length ∧
              (∃ nb, st'.heap[st.heap.length]? = some nb ∧ nb.name = n ∧
                nb.next = none) ∧
              (∀ (p : Nat) (b : bucket), st.heap[p]? = some b →
                ∃ b', st'.heap[p]? = some b' ∧
                  b' = { b with link := b'.link, next := b'.next })) := by
  refine ⟨⟨by decide, by decide, by decide⟩, ?_⟩
  intro names
  refine ⟨lookups_defined_iff names, ?_⟩
  intro st h
  obtain ⟨inv, hnames⟩ := lookups_inv h
  refine ⟨by rw [inv.symbolNames_eq, hnames], ?_⟩
  intro n hnew
  refine ⟨lookup_none_of_not_addressable inv, ?_⟩
  intro ha
  obtain ⟨st1, h1, inv1, hlen, _, _, hlast, hnb, hold⟩ := lookup_new inv ha hnew
  refine ⟨_, st1, inv.symbolList_eq, h1, ?_, hlast, ⟨_, hnb, rfl, rfl⟩, hold⟩
  rw [inv1.symbolList_eq, hlen, List.range_succ]

theorem declaration_order_preserved_witness :
    lookups [[97], [99, 100], [97]] = some sampleTable ∧
      symbolNames sampleTable = some [errorName, [97], [99, 100]] ∧
      (∀ b ∈ sampleTable.heap, b.name ≠ [98]) ∧ addressable [98] ∧
      ∃ l st', symbolList sampleTable = some l ∧
        lookup [98] sampleTable = some (sampleTable.heap.length, st') ∧
        symbolList st' = some (l ++ [sampleTable.heap.length]) ∧
        st'.last_symbol = some sampleTable.heap.length ∧
        (∃ nb, st'.heap[sampleTable.heap.length]? = some nb ∧ nb.name = [98] ∧
          nb.next = none) ∧
        (∀ (p : Nat) (b : bucket), sampleTable.heap[p]? = some b →
          ∃ b', st'.heap[p]? = some b' ∧
            b' = { b with link := b'.link, next := b'.next }) :=
  have h := (declaration_order_preserved.2 [[97], [99, 100], [97]]).2 sampleTable
    (by decide)
  ⟨by decide, h.1, by decide, ⟨98, by decide, by decide, by decide⟩,
    (h.2 [98] (by decide)).2 ⟨98, by decide, by decide, by decide⟩⟩

/-- C4: `create_symbol_table` makes the bucket "error" with class TERM and index
1 and makes it `first_symbol`; in every state reached by a sequence of `lookup`
calls after it, `lookup("error")` returns that bucket and changes nothing, the
bucket is still `first_symbol` with the fields `create_symbol_table` gave it
(`link` and `next` apart), and no other bucket is named "error". -/
theorem error_symbol_builtin (names : List (List Int)) :
    create_symbol_table.map (fun s => (s.first_symbol, s.heap)) =
        some (some 0, [errorBucket]) ∧
    errorBucket.name = errorName ∧ errorBucket.class_ = Class_t.TERM ∧
    errorBucket.index = 1 ∧
    ((∃ st, lookups names = some st) ↔ ∀ n ∈ names, addressable n) ∧
    ∀ st, lookups names = some st →
      lookup errorName st = some (0, st) ∧ st.first_symbol = some 0 ∧
      (∃ b, st.heap[0]? = some b ∧
        b = { errorBucket with link := b.link, next := b.next } ∧
        b.name = errorName ∧ b.class_ = Class_t.TERM ∧ b.index = 1) ∧
      (∀ (p : Nat) (c : bucket), st.heap[p]? = some c → c.name = errorName → p = 0) := by
  refine ⟨by rw [create_symbol_table_eq]; rfl, rfl, rfl, rfl, lookups_defined_iff names, ?_⟩
  intro st h
  obtain ⟨inv, _⟩ := lookups_inv h
  obtain ⟨b, hb, he⟩ := inv.error
  have hname : b.name = errorName := by rw [he]; rfl
  refine ⟨?_, inv.first, ⟨b, hb, he, hname, ?_, ?_⟩, ?_⟩
  · rw [← hname]
    exact lookup_found inv hb
  · rw [he]; rfl
  · rw [he]; rfl
  · intro p c hc hcn
    exact inv.name_inj hc hb (by rw [hcn, hname])

theorem error_symbol_builtin_witness :
    lookups [[97], errorName, [99, 100]] = some sampleTable ∧
      lookup errorName sampleTable = some (0, sampleTable) ∧
      sampleTable.first_symbol = some 0 ∧
      (∃ b, sampleTable.heap[0]? = some b ∧
        b = { errorBucket with link := b.link, next := b.next } ∧
        b.name = errorName ∧ b.class_ = Class_t.TERM ∧ b.index = 1) ∧
      (∀ (p : Nat) (c : bucket), sampleTable.heap[p]? = some c →
        c.name = errorName → p = 0) :=
  ⟨by decide,
    (error_symbol_builtin [[97], errorName, [99, 100]]).2.2.2.2.2 sampleTable
      (by decide)⟩

/-- C9 at a failing input: for the one-character name whose character is the
byte 0xE9 read as a signed `char` (value -23), `hash` returns -23, which is no
slot of the table, and `lookup` of that name has no defined result. -/
theorem hash_of_negative_char_escapes_table :
    hash [-23] = some (-23) ∧ ¬ addressable [-23] ∧
      slotOf (List.replicate TABLE_SIZE none) (-23) = none ∧
      lookup [-23] oneNameTable = none := by
  refine ⟨rfl, ?_, by decide, by decide⟩
  rintro ⟨h, hh, h0, _⟩
  have : h = -23 := by
    have := Option.some.inj hh
    exact this.symm
  omega


/-! ## Properties of main.c -/

theorem lastArg_cons (ch c : Char) (a : List Char) (r : List (Char × List Char)) :
    lastArg ch ((c, a) :: r) =
      match lastArg ch r with
      | some x => some x
      | none => if c = ch then some a else none := rfl

theorem definesOption_cons (c : Char) (a : List Char) (r : List (Char × List Char)) :
    definesOption ((c, a) :: r) =
      match definesOption r with
      | some x => some x
      | none => if c = 'd' ∨ c = 'H' then some c else none := rfl

theorem optGiven_cons (ch c : Char) (a : List Char) (r : List (Char × List Char)) :
    optGiven ch ((c, a) :: r) = (decide (c = ch) || optGiven ch r) := by
  simp [optGiven]

/-- The result of `getargsStep`, option by option. -/
theorem getargsStep_cases (g : Globals) (ch : Char) (a : List Char) :
    (ch = 'b' ∧ getargsStep g ch a = some { g with file_prefix := some a }) ∨
    (ch = 'H' ∧ getargsStep g ch a = some { g with dflag := true, dflag2 := true, defines_file_name := some a }) ∨
    (ch = 'o' ∧ getargsStep g ch a = some { g with output_file_name := some a, explicit_file_name := true }) ∨
    (ch = 'p' ∧ getargsStep g ch a = some { g with symbol_prefix := some a }) ∨
    (ch = 'B' ∧ getargsStep g ch a = some { g with backtrack := true }) ∨
    (ch = 'd' ∧ getargsStep g ch a = some { g with dflag := true, dflag2 := false }) ∨
    (ch = 'g' ∧ getargsStep g ch a = some { g with gflag := true }) ∨
    (ch = 'i' ∧ getargsStep g ch a = some { g with iflag := true }) ∨
    (ch = 'l' ∧ getargsStep g ch a = some { g with lflag := true }) ∨
    (ch = 'L' ∧ getargsStep g ch a = some { g with locations := true }) ∨
    (ch = 'P' ∧ getargsStep g ch a = some { g with pure_parser_ := true }) ∨
    (ch = 'r' ∧ getargsStep g ch a = some { g with rflag := true }) ∨
    (ch = 's' ∧ getargsStep g ch a = some { g with sflag := true }) ∨
    (ch = 't' ∧ getargsStep g ch a = some { g with tflag := true }) ∨
    (ch = 'v' ∧ getargsStep g ch a = some { g with vflag := true }) ∨
    (ch = 'V' ∧ getargsStep g ch a = none) ∨
    (ch = 'y' ∧ getargsStep g ch a = some g) ∨
    getargsStep g ch a = none := by
  by_cases h0 : ch = 'b'
  · subst h0
    exact Or.inl ⟨rfl, by simp [getargsStep, setflag]⟩
  by_cases h1 : ch = 'H'
  · subst h1
    exact Or.inr (Or.inl ⟨rfl, by simp [getargsStep, setflag]⟩)
  by_cases h2 : ch = 'o'
  · subst h2
    exact Or.inr (Or.inr (Or.inl ⟨rfl, by simp [getargsStep, setflag]⟩))
  by_cases h3 : ch = 'p'
  · subst h3
    exact Or.inr (Or.inr (Or.inr (Or.inl ⟨rfl, by simp [getargsStep, setflag]⟩)))
  by_cases h4 : ch = 'B'
  · subst h4
    exact Or.inr (Or.inr (Or.inr (Or.inr (Or.inl ⟨rfl, by simp [getargsStep, setflag]⟩))))
  by_cases h5 : ch = 'd'
  · subst h5
    exact Or.inr (Or.inr (Or.inr (Or.inr (Or.inr (Or.inl ⟨rfl, by simp [getargsStep, setflag]⟩)))))
  by_cases h6 : ch = 'g'
  · subst h6
    exact Or.inr (Or.inr (Or.inr (Or.inr (Or.inr (Or.inr (Or.inl ⟨rfl, by simp [getargsStep, setflag]⟩))))))
  by_cases h7 : ch = 'i'
  · subst h7
    exact Or.inr (Or.inr (Or.inr (Or.inr (Or.inr (Or.inr (Or.inr (Or.inl ⟨rfl, by simp [getargsStep, setflag]⟩)))))))
  by_cases h8 : ch = 'l'
  · subst h8
    exact Or.inr (Or.inr (Or.inr (Or.inr (Or.inr (Or.inr (Or.inr (Or.inr (Or.inl ⟨rfl, by simp [getargsStep, setflag]⟩))))))))
  by_cases h9 : ch = 'L'
  · subst h9
    exact Or.inr (Or.inr (Or.inr (Or.inr (Or.inr (Or.inr (Or.inr (Or.inr (Or.inr (Or.inl ⟨rfl, by simp [getargsStep, setflag]⟩)))))))))
  by_cases h10 : ch = 'P'
  · subst h10
    exact Or.inr (Or.inr (Or.inr (Or.inr (Or.inr (Or.inr (Or.inr (Or.inr (Or.inr (Or.inr (Or.inl ⟨rfl, by simp [getargsStep, setflag]⟩))))))))))
  by_cases h11 : ch = 'r'
  · subst h11
    exact Or.inr (Or.inr (Or.inr (Or.inr (Or.inr (Or.inr (Or.inr (Or.inr (Or.inr (Or.inr (Or.inr (Or.inl ⟨rfl, by simp [getargsStep, setflag]⟩)))))))))))
  by_cases h12 : ch = 's'
  · subst h12
    exact Or.inr (Or.inr (Or.inr (Or.inr (Or.inr (Or.inr (Or.inr (Or.inr (Or.inr (Or.inr (Or.inr (Or.inr (Or.inl ⟨rfl, by simp [getargsStep, setflag]⟩))))))))))))
  by_cases h13 : ch = 't'
  · subst h13
    exact Or.inr (Or.inr (Or.inr (Or.inr (Or.inr (Or.inr (Or.inr (Or.inr (Or.inr (Or.inr (Or.inr (Or.inr (Or.inr (Or.inl ⟨rfl, by simp [getargsStep, setflag]⟩)))))))))))))
  by_cases h14 : ch = 'v'
  · subst h14
    exact Or.inr (Or.inr (Or.inr (Or.inr (Or.inr (Or.inr (Or.inr (Or.inr (Or.inr (Or.inr (Or.inr (Or.inr (Or.inr (Or.inr (Or.inl ⟨rfl, by simp [getargsStep, setflag]⟩))))))))))))))
  by_cases h15 : ch = 'V'
  · subst h15
    exact Or.inr (Or.inr (Or.inr (Or.inr (Or.inr (Or.inr (Or.inr (Or.inr (Or.inr (Or.inr (Or.inr (Or.inr (Or.inr (Or.inr (Or.inr (Or.inl ⟨rfl, by simp [getargsStep, setflag]⟩)))))))))))))))
  by_cases h16 : ch = 'y'
  · subst h16
    exact Or.inr (Or.inr (Or.inr (Or.inr (Or.inr (Or.inr (Or.inr (Or.inr (Or.inr (Or.inr (Or.inr (Or.inr (Or.inr (Or.inr (Or.inr (Or.inr (Or.inl ⟨rfl, by simp [getargsStep, setflag]⟩))))))))))))))))
  · exact Or.inr (Or.inr (Or.inr (Or.inr (Or.inr (Or.inr (Or.inr (Or.inr (Or.inr (Or.inr (Or.inr (Or.inr (Or.inr (Or.inr (Or.inr (Or.inr (Or.inr (by simp [getargsStep, setflag, h0, h1, h2, h3, h4, h5, h6, h7, h8, h9, h10, h11, h12, h13, h14, h15, h16])))))))))))))))))

/-- What one option does to the fields the file names depend on. -/
theorem getargsStep_spec (g g1 : Globals) (ch : Char) (a : List Char)
    (h : getargsStep g ch a = some g1) :
    g1.vflag = (g.vflag || decide (ch = 'v')) ∧
    g1.gflag = (g.gflag || decide (ch = 'g')) ∧
    g1.iflag = (g.iflag || decide (ch = 'i')) ∧
    g1.rflag = (g.rflag || decide (ch = 'r')) ∧
    g1.dflag = (g.dflag || decide (ch = 'd') || decide (ch = 'H')) ∧
    g1.dflag2 = (if ch = 'H' then true else if ch = 'd' then false else g.dflag2) ∧
    g1.output_file_name = (if ch = 'o' then some a else g.output_file_name) ∧
    g1.explicit_file_name = (g.explicit_file_name || decide (ch = 'o')) ∧
    Globals.file_prefix g1 = (if ch = 'b' then some a else Globals.file_prefix g) ∧
    g1.defines_file_name = (if ch = 'H' then some a else g.defines_file_name) ∧
    g1.myname = g.myname ∧ g1.code_file_name = g.code_file_name ∧
    g1.externs_file_name = g.externs_file_name ∧
    g1.graph_file_name = g.graph_file_name ∧
    g1.verbose_file_name = g.verbose_file_name ∧
    g1.input_file_name = g.input_file_name ∧
    g1.action_file = g.action_file ∧ g1.code_file = g.code_file ∧
    g1.defines_file = g.defines_file ∧ g1.externs_file = g.externs_file ∧
    g1.input_file = g.input_file ∧ g1.output_file = g.output_file ∧
    g1.text_file = g.text_file ∧ g1.union_file = g.union_file ∧
    g1.verbose_file = g.verbose_file ∧ g1.graph_file = g.graph_file ∧
    g1.opened = g.opened ∧ g1.stderr = g.stderr := by
  rcases getargsStep_cases g ch a with
    ⟨rfl, e⟩ | ⟨rfl, e⟩ | ⟨rfl, e⟩ | ⟨rfl, e⟩ | ⟨rfl, e⟩ | ⟨rfl, e⟩ | ⟨rfl, e⟩ | ⟨rfl, e⟩ | ⟨rfl, e⟩ | ⟨rfl, e⟩ | ⟨rfl, e⟩ | ⟨rfl, e⟩ | ⟨rfl, e⟩ | ⟨rfl, e⟩ | ⟨rfl, e⟩ | ⟨rfl, e⟩ | ⟨rfl, e⟩ | e
  all_goals rw [e] at h
  all_goals cases h
  all_goals simp

/-- What the options of the command line do, together, to the fields the file
names depend on. -/
theorem getargsLoop_spec (opts : List (Char × List Char)) (g g1 : Globals)
    (h : getargsLoop g opts = some g1) :
    g1.vflag = (g.vflag || optGiven 'v' opts) ∧
    g1.gflag = (g.gflag || optGiven 'g' opts) ∧
    g1.iflag = (g.iflag || optGiven 'i' opts) ∧
    g1.rflag = (g.rflag || optGiven 'r' opts) ∧
    g1.dflag = (g.dflag || (definesOption opts).isSome) ∧
    g1.dflag2 = (match definesOption opts with
      | none => g.dflag2
      | some c => decide (c = 'H')) ∧
    g1.output_file_name = (match lastArg 'o' opts with
      | none => g.output_file_name
      | some x => some x) ∧
    g1.explicit_file_name = (g.explicit_file_name || (lastArg 'o' opts).isSome) ∧
    Globals.file_prefix g1 = (match lastArg 'b' opts with
      | none => Globals.file_prefix g
      | some x => some x) ∧
    g1.defines_file_name = (match lastArg 'H' opts with
      | none => g.defines_file_name
      | some x => some x) ∧
    g1.myname = g.myname ∧ g1.code_file_name = g.code_file_name ∧
    g1.externs_file_name = g.externs_file_name ∧
    g1.graph_file_name = g.graph_file_name ∧
    g1.verbose_file_name = g.verbose_file_name ∧
    g1.input_file_name = g.input_file_name ∧
    g1.action_file = g.action_file ∧ g1.code_file = g.code_file ∧
    g1.defines_file = g.defines_file ∧ g1.externs_file = g.externs_file ∧
    g1.input_file = g.input_file ∧ g1.output_file = g.output_file ∧
    g1.text_file = g.text_file ∧ g1.union_file = g.union_file ∧
    g1.verbose_file = g.verbose_file ∧ g1.graph_file = g.graph_file ∧
    g1.opened = g.opened ∧ g1.stderr = g.stderr := by
  induction opts generalizing g with
  | nil =>
    simp only [getargsLoop, Option.some.injEq] at h
    subst h
    simp [optGiven, definesOption, lastArg]
  | cons o opts ih =>
    obtain ⟨ch, a⟩ := o
    unfold getargsLoop at h
    cases hs : getargsStep g ch a with
    | none => rw [hs] at h; cases h
    | some g2 =>
      rw [hs] at h
      have h2 := ih g2 h
      have h1 := getargsStep_spec g g2 ch a hs
      obtain ⟨a1, a2, a3, a4, a5, a6, a7, a8, a9, a10, a11, a12, a13, a14, a15, a16, a17,
        a18, a19, a20, a21, a22, a23, a24, a25, a26, a27, a28⟩ := h1
      obtain ⟨b1, b2, b3, b4, b5, b6, b7, b8, b9, b10, b11, b12, b13, b14, b15, b16, b17,
        b18, b19, b20, b21, b22, b23, b24, b25, b26, b27, b28⟩ := h2
      refine ⟨?_, ?_, ?_, ?_, ?_, ?_, ?_, ?_, ?_, ?_, by rw [b11, a11], by rw [b12, a12],
        by rw [b13, a13], by rw [b14, a14], by rw [b15, a15], by rw [b16, a16],
        by rw [b17, a17], by rw [b18, a18], by rw [b19, a19], by rw [b20, a20],
        by rw [b21, a21], by rw [b22, a22], by rw [b23, a23], by rw [b24, a24],
        by rw [b25, a25], by rw [b26, a26], by rw [b27, a27], by rw [b28, a28]⟩
      · rw [b1, a1, optGiven_cons, Bool.or_assoc]
      · rw [b2, a2, optGiven_cons, Bool.or_assoc]
      · rw [b3, a3, optGiven_cons, Bool.or_assoc]
      · rw [b4, a4, optGiven_cons, Bool.or_assoc]
      · rw [b5, a5, definesOption_cons]
        cases definesOption opts with
        | some x => simp
        | none =>
          by_cases hd : ch = 'd'
          · subst hd; simp
          · by_cases hH : ch = 'H'
            · subst hH; simp
            · simp [hd, hH]
      · rw [b6, a6, definesOption_cons]
        cases definesOption opts with
        | some x => simp
        | none =>
          by_cases hd : ch = 'd'
          · subst hd; simp
          · by_cases hH : ch = 'H'
            · subst hH; simp
            · simp [hd, hH]
      · rw [b7, a7, lastArg_cons]
        cases lastArg 'o' opts with
        | some x => simp
        | none => by_cases ho : ch = 'o' <;> simp [ho]
      · rw [b8, a8, lastArg_cons]
        cases lastArg 'o' opts with
        | some x => simp
        | none => by_cases ho : ch = 'o' <;> simp [ho]
      · rw [b9, a9, lastArg_cons]
        cases lastArg 'b' opts with
        | some x => simp
        | none => by_cases ho : ch = 'b' <;> simp [ho]
      · rw [b10, a10, lastArg_cons]
        cases lastArg 'H' opts with
        | some x => simp
        | none => by_cases ho : ch = 'H' <;> simp [ho]

theorem nameOutput_eq (p : List Char) (l : Nat) (g : Globals) :
    nameOutput p l g =
      { g with oflag := g.oflag || g.output_file_name.isNone
               output_file_name := some (outputName p l g) } := by
  unfold nameOutput outputName
  cases h : g.output_file_name with
  | none => simp
  | some o =>
    simp only [Option.isNone_some, Bool.or_false]
    rw [← h]

theorem nameCode_eq (p : List Char) (l : Nat) (g : Globals) :
    nameCode p l g =
      { g with code_file_name :=
          if g.rflag then some (alloc_file_name p l CODE_SUFFIX)
          else g.output_file_name } := by
  unfold nameCode
  split_ifs <;> rfl

theorem nameExterns_eq (p : List Char) (l : Nat) (sfx : List Char) (g : Globals) :
    nameExterns p l sfx g =
      { g with externs_file_name :=
          if g.iflag then some (alloc_file_name p l sfx) else g.externs_file_name } := by
  unfold nameExterns
  split_ifs <;> rfl

theorem nameVerbose_eq (p : List Char) (l : Nat) (g : Globals) :
    nameVerbose p l g =
      { g with verbose_file_name :=
          if g.vflag then some (alloc_file_name p l VERBOSE_SUFFIX)
          else g.verbose_file_name } := by
  unfold nameVerbose
  split_ifs <;> rfl

theorem nameGraph_eq (p : List Char) (l : Nat) (g : Globals) :
    nameGraph p l g =
      { g with graph_file_name :=
          if g.gflag then some (alloc_file_name p l GRAPH_SUFFIX)
          else g.graph_file_name } := by
  unfold nameGraph
  split_ifs <;> rfl

theorem nameDefines_eq (p : List Char) (l : Nat) (sfx out : List Char) (g : Globals) :
    nameDefines p l sfx out g =
      { g with
        dflag := g.dflag && !definesDropped g out
        defines_file_name :=
          if g.dflag && !g.dflag2 then
            if g.explicit_file_name then
              if recognised out then some (headerName out) else none
            else some (alloc_file_name p l sfx)
          else g.defines_file_name
        stderr :=
          if definesDropped g out then
            g.stderr ++ [g.myname ++ ": suffix of output file name ".toList ++ out ++
              " not recognized, no -d file generated.\n".toList]
          else g.stderr } := by
  obtain ⟨d, d2, gf, fi, fl, fo, fr, fs, ft, fv, bt, loc, pp, sp, mn, ex, fp, cfn, ifn,
    ifnl, dfn, efn, gfn, ofn, vfn, af, cf, df, ef, inf, outf, tf, uf, vf, grf, op, se⟩ := g
  cases d <;> cases d2 <;> cases ex <;>
    simp [nameDefines, definesDropped]
  cases hk : strrchr out '.' with
  | none => simp [recognised, headerName, hk]
  | some k =>
    cases hs : knownSuffix (List.drop k out) <;> simp [recognised, headerName, hk, hs]

/-- The name `alloc_file_name` builds is the whole prefix followed by the whole
suffix: nothing is cut off when `len` is the length of `file_prefix`. -/
theorem alloc_file_name_eq (p s : List Char) : alloc_file_name p p.length s = p ++ s := by
  unfold alloc_file_name strlcat strlcpy
  have h1 : p.length + s.length + 1 ≠ 0 := by omega
  have h2 : List.take (p.length + s.length + 1 - 1) p = p :=
    List.take_of_length_le (by omega)
  simp only [h1, if_false, h2]
  have h3 : ¬ (p.length + s.length + 1 ≤ p.length) := by omega
  rw [if_neg h3]
  have h4 : p.length + s.length + 1 - p.length - 1 = s.length := by omega
  rw [h4, List.take_length]

theorem find_suffix_eq_some (name s : List Char) (off : Nat)
    (h : find_suffix name s = some off) :
    off + s.length = name.length ∧ name.drop off = s ∧ name = name.take off ++ s := by
  unfold find_suffix at h
  split_ifs at h with h1 h2
  cases h
  refine ⟨by omega, h2, ?_⟩
  conv_lhs => rw [← List.take_append_drop (name.length - s.length) name]
  rw [h2]

theorem find_suffix_append (p s : List Char) : find_suffix (p ++ s) s = some p.length := by
  unfold find_suffix
  have h1 : s.length ≤ (p ++ s).length := by simp
  have h2 : (p ++ s).length - s.length = p.length := by simp
  rw [if_pos h1, h2, List.drop_left, if_pos rfl]

theorem chosenSuffix_some (g : Globals) (off : Nat) (h : (chosenSuffix g).1 = some off) :
    ∃ out, g.output_file_name = some out ∧
      ((find_suffix out OUTPUT_SUFFIX = some off ∧
          (chosenSuffix g).2 = (DEFINES_SUFFIX, EXTERNS_SUFFIX)) ∨
        (find_suffix out OUTPUT_SUFFIX = none ∧ find_suffix out ".c".toList = some off ∧
          (chosenSuffix g).2 = (".h".toList, ".i".toList))) := by
  unfold chosenSuffix at h ⊢
  cases ho : g.output_file_name with
  | none => rw [ho] at h; cases h
  | some out =>
    rw [ho] at h
    refine ⟨out, rfl, ?_⟩
    simp only at h ⊢
    cases h1 : find_suffix out OUTPUT_SUFFIX with
    | some o1 =>
      rw [h1] at h
      simp only at h ⊢
      left
      exact ⟨by rw [← h], trivial⟩
    | none =>
      rw [h1] at h
      simp only at h ⊢
      cases h2 : find_suffix out ".c".toList with
      | some o2 =>
        rw [h2] at h
        simp only at h ⊢
        right
        exact ⟨trivial, by rw [← h], trivial⟩
      | none =>
        rw [h2] at h
        cases h

theorem chosenSuffix_none (g : Globals) (h : (chosenSuffix g).1 = none) :
    (chosenSuffix g).2 = (DEFINES_SUFFIX, EXTERNS_SUFFIX) ∧
      ∀ out, g.output_file_name = some out →
        find_suffix out OUTPUT_SUFFIX = none ∧ find_suffix out ".c".toList = none := by
  unfold chosenSuffix at h ⊢
  cases ho : g.output_file_name with
  | none => exact ⟨rfl, fun out h => by cases h⟩
  | some out =>
    rw [ho] at h
    simp only at h ⊢
    cases h1 : find_suffix out OUTPUT_SUFFIX with
    | some o1 => rw [h1] at h; cases h
    | none =>
      rw [h1] at h
      simp only at h ⊢
      cases h2 : find_suffix out ".c".toList with
      | some o2 => rw [h2] at h; cases h
      | none =>
        refine ⟨rfl, ?_⟩
        intro o ho'
        cases ho'
        exact ⟨h1, h2⟩

/-- The value `len` of `create_file_names` is the length of the string
`file_prefix` points to. -/
theorem chosenPrefix_len (g : Globals) (p : List Char) (l : Nat)
    (h : chosenPrefix g = some (p, l)) : l = p.length := by
  unfold chosenPrefix at h
  cases hs : (chosenSuffix g).1 with
  | none =>
    rw [hs] at h
    simp only at h
    cases hf : Globals.file_prefix g with
    | none => rw [hf] at h; cases h
    | some q =>
      rw [hf] at h
      cases h
      rfl
  | some off =>
    obtain ⟨out, ho, hcase⟩ := chosenSuffix_some g off hs
    rw [hs, ho] at h
    simp only [Option.some.injEq, Prod.mk.injEq] at h
    obtain ⟨h1, h2⟩ := h
    subst h1 h2
    have hle : off ≤ out.length := by
      rcases hcase with ⟨h1, _⟩ | ⟨_, h2, _⟩
      · have := (find_suffix_eq_some _ _ _ h1).1; omega
      · have := (find_suffix_eq_some _ _ _ h2).1; omega
    rw [List.length_take, Nat.min_eq_left hle]

/-- When `file_prefix` can be read, the second block of `create_file_names` has a
result. -/
theorem chosenPrefix_defined (g : Globals) (q : List Char)
    (h : Globals.file_prefix g = some q) : ∃ p l, chosenPrefix g = some (p, l) := by
  unfold chosenPrefix
  rw [h]
  cases (chosenSuffix g).1 with
  | none => exact ⟨_, _, rfl⟩
  | some off =>
    cases g.output_file_name with
    | none => exact ⟨_, _, rfl⟩
    | some out => exact ⟨_, _, rfl⟩

theorem freePrefix_eq (suffix : Option Nat) (g : Globals) :
    freePrefix suffix g =
      { g with file_prefix := if suffix.isSome then none else Globals.file_prefix g } := by
  unfold freePrefix
  cases suffix <;> rfl

/-- The globals `create_file_names` leaves, field by field: `p` is the string
`file_prefix` points to while the names are made. -/
theorem create_file_names_eq (g : Globals) (p : List Char) (l : Nat)
    (h : chosenPrefix g = some (p, l)) :
    create_file_names g = some
      { g with
        file_prefix := if (chosenSuffix g).1.isSome then none else some p
        oflag := g.oflag || g.output_file_name.isNone
        output_file_name := some (outputName p l g)
        code_file_name :=
          if g.rflag then some (alloc_file_name p l CODE_SUFFIX)
          else some (outputName p l g)
        dflag := g.dflag && !definesDropped g (outputName p l g)
        defines_file_name :=
          if g.dflag && !g.dflag2 then
            if g.explicit_file_name then
              if recognised (outputName p l g) then some (headerName (outputName p l g))
              else none
            else some (alloc_file_name p l (chosenSuffix g).2.1)
          else g.defines_file_name
        stderr :=
          if definesDropped g (outputName p l g) then
            g.stderr ++ [g.myname ++ ": suffix of output file name ".toList ++
              outputName p l g ++ " not recognized, no -d file generated.\n".toList]
          else g.stderr
        externs_file_name :=
          if g.iflag then some (alloc_file_name p l (chosenSuffix g).2.2)
          else g.externs_file_name
        verbose_file_name :=
          if g.vflag then some (alloc_file_name p l VERBOSE_SUFFIX)
          else g.verbose_file_name
        graph_file_name :=
          if g.gflag then some (alloc_file_name p l GRAPH_SUFFIX)
          else g.graph_file_name } := by
  unfold create_file_names
  simp only [h, freePrefix_eq, nameGraph_eq, nameVerbose_eq, nameExterns_eq, nameDefines_eq,
    nameCode_eq, nameOutput_eq]
  rfl

theorem openStream_eq (fs : OpenReq → Bool) (g : Globals) (req : OpenReq) (s : Stream)
    (g' : Globals) (h : openStream fs g req = some (s, g')) :
    s = Stream.file g.opened.length ∧ g' = { g with opened := g.opened ++ [req] } := by
  unfold openStream at h
  split_ifs at h
  cases h
  exact ⟨rfl, rfl⟩

theorem openNamed_eq (fs : OpenReq → Bool) (g : Globals) (name : Option (List Char))
    (mk : List Char → OpenReq) (s : Stream) (g' : Globals)
    (h : openNamed fs g name mk = some (s, g')) :
    ∃ n, name = some n ∧ s = Stream.file g.opened.length ∧
      g' = { g with opened := g.opened ++ [mk n] } := by
  unfold openNamed at h
  cases name with
  | none => cases h
  | some n =>
    obtain ⟨h1, h2⟩ := openStream_eq fs g (mk n) s g' h
    exact ⟨n, rfl, h1, h2⟩

theorem openInput_eq (fs : OpenReq → Bool) (g g' : Globals)
    (h : openInput fs g = some g') :
    ∃ s o, g' = { g with input_file := s, opened := g.opened ++ o } ∧ s.isSome = true ∧
      ((g.input_file.isSome = true ∧ s = g.input_file ∧ o = []) ∨
        (g.input_file = none ∧ ∃ n, g.input_file_name = some n ∧ o = [OpenReq.read n])) := by
  unfold openInput at h
  cases hi : g.input_file with
  | some s0 =>
    rw [hi] at h
    cases h
    refine ⟨some s0, [], ?_, rfl, Or.inl ⟨rfl, rfl, rfl⟩⟩
    simp only [List.append_nil]
    rw [← hi]
  | none =>
    rw [hi] at h
    simp only at h
    cases ho : openNamed fs g g.input_file_name OpenReq.read with
    | none => rw [ho] at h; cases h
    | some p =>
      obtain ⟨s, g1⟩ := p
      rw [ho] at h
      cases h
      obtain ⟨n, hn, hs, hg⟩ := openNamed_eq fs g _ _ s g1 ho
      subst hg
      exact ⟨some s, [OpenReq.read n], rfl, rfl, Or.inr ⟨rfl, n, hn, rfl⟩⟩

theorem openAction_eq (fs : OpenReq → Bool) (g g' : Globals)
    (h : openAction fs g = some g') :
    g' = { g with action_file := some (Stream.file g.opened.length)
                  opened := g.opened ++ [OpenReq.temp "action_file".toList] } := by
  unfold openAction at h
  cases ho : openStream fs g (OpenReq.temp "action_file".toList) with
  | none => rw [ho] at h; cases h
  | some p =>
    obtain ⟨s, g1⟩ := p
    rw [ho] at h
    cases h
    obtain ⟨hs, hg⟩ := openStream_eq fs g _ s g1 ho
    subst hg hs
    rfl

theorem openText_eq (fs : OpenReq → Bool) (g g' : Globals)
    (h : openText fs g = some g') :
    g' = { g with text_file := some (Stream.file g.opened.length)
                  opened := g.opened ++ [OpenReq.temp "text_file".toList] } := by
  unfold openText at h
  cases ho : openStream fs g (OpenReq.temp "text_file".toList) with
  | none => rw [ho] at h; cases h
  | some p =>
    obtain ⟨s, g1⟩ := p
    rw [ho] at h
    cases h
    obtain ⟨hs, hg⟩ := openStream_eq fs g _ s g1 ho
    subst hg hs
    rfl

theorem openVerbose_eq (fs : OpenReq → Bool) (g g' : Globals)
    (h : openVerbose fs g = some g') :
    (g.vflag = false ∧ g' = g) ∨
      (g.vflag = true ∧ ∃ n, g.verbose_file_name = some n ∧
        g' = { g with verbose_file := some (Stream.file g.opened.length)
                      opened := g.opened ++ [OpenReq.write n] }) := by
  unfold openVerbose at h
  by_cases hf : g.vflag = true
  swap
  · rw [if_neg hf] at h
    simp only [Option.some.injEq] at h
    exact Or.inl ⟨by simpa using hf, h.symm⟩
  · rw [if_pos hf] at h
    cases ho : openNamed fs g g.verbose_file_name OpenReq.write with
    | none => rw [ho] at h; cases h
    | some p =>
      obtain ⟨s, g1⟩ := p
      rw [ho] at h
      cases h
      obtain ⟨n, hn, hs, hg⟩ := openNamed_eq fs g _ _ s g1 ho
      subst hg hs
      exact Or.inr ⟨hf, n, hn, rfl⟩

theorem openGraph_eq (fs : OpenReq → Bool) (g g' : Globals)
    (h : openGraph fs g = some g') :
    (g.gflag = false ∧ g' = g) ∨
      (g.gflag = true ∧ ∃ n p, g.graph_file_name = some n ∧
        Globals.file_prefix g = some p ∧
        g' = { g with graph_file := some (Stream.file g.opened.length)
                      opened := g.opened ++ [OpenReq.write n] }) := by
  unfold openGraph at h
  by_cases hf : g.gflag = true
  swap
  · rw [if_neg hf] at h
    simp only [Option.some.injEq] at h
    exact Or.inl ⟨by simpa using hf, h.symm⟩
  · rw [if_pos hf] at h
    cases ho : openNamed fs g g.graph_file_name OpenReq.write with
    | none => rw [ho] at h; cases h
    | some q =>
      obtain ⟨s, g1⟩ := q
      rw [ho] at h
      obtain ⟨n, hn, hs, hg⟩ := openNamed_eq fs g _ _ s g1 ho
      subst hg hs
      simp only at h
      cases hp : Globals.file_prefix g with
      | none => rw [hp] at h; cases h
      | some p =>
        rw [hp] at h
        cases h
        exact Or.inr ⟨hf, n, p, hn, rfl, rfl⟩

/-- With `gflag` set and the block of `file_prefix` freed, the graph block of
`open_files` has no result, whatever the openings do. -/
theorem openGraph_freed (fs : OpenReq → Bool) (g : Globals) (hf : g.gflag = true)
    (hp : Globals.file_prefix g = none) : openGraph fs g = none := by
  cases h : openGraph fs g with
  | none => rfl
  | some g' =>
    rcases openGraph_eq fs g g' h with ⟨h1, _⟩ | ⟨_, n, p, _, h2, _⟩
    · rw [hf] at h1; cases h1
    · rw [hp] at h2; cases h2

theorem openExterns_eq (fs : OpenReq → Bool) (g g' : Globals)
    (h : openExterns fs g = some g') :
    (g.iflag = false ∧ g' = g) ∨
      (g.iflag = true ∧ ∃ n, g.externs_file_name = some n ∧
        g' = { g with externs_file := some (Stream.file g.opened.length)
                      opened := g.opened ++ [OpenReq.write n] }) := by
  unfold openExterns at h
  by_cases hf : g.iflag = true
  swap
  · rw [if_neg hf] at h
    simp only [Option.some.injEq] at h
    exact Or.inl ⟨by simpa using hf, h.symm⟩
  · rw [if_pos hf] at h
    cases ho : openNamed fs g g.externs_file_name OpenReq.write with
    | none => rw [ho] at h; cases h
    | some p =>
      obtain ⟨s, g1⟩ := p
      rw [ho] at h
      cases h
      obtain ⟨n, hn, hs, hg⟩ := openNamed_eq fs g _ _ s g1 ho
      subst hg hs
      exact Or.inr ⟨hf, n, hn, rfl⟩

theorem openDefines_eq (fs : OpenReq → Bool) (g g' : Globals)
    (h : openDefines fs g = some g') :
    ((g.dflag || g.dflag2) = false ∧ g' = g) ∨
      ((g.dflag || g.dflag2) = true ∧ ∃ n, g.defines_file_name = some n ∧
        g' = { g with defines_file := some (Stream.file g.opened.length)
                      union_file := some (Stream.file (g.opened.length + 1))
                      opened := g.opened ++
                        [OpenReq.write n, OpenReq.temp "union_file".toList] }) := by
  unfold openDefines at h
  cases hf : (g.dflag || g.dflag2) with
  | false =>
    rw [hf] at h
    simp only [Bool.false_eq_true, if_false, Option.some.injEq] at h
    exact Or.inl ⟨rfl, h.symm⟩
  | true =>
    rw [hf] at h
    simp only [if_true] at h
    cases ho : openNamed fs g g.defines_file_name OpenReq.write with
    | none => rw [ho] at h; cases h
    | some p =>
      obtain ⟨s, g1⟩ := p
      rw [ho] at h
      simp only at h
      obtain ⟨n, hn, hs, hg⟩ := openNamed_eq fs g _ _ s g1 ho
      cases hu : openStream fs { g1 with defines_file := some s }
          (OpenReq.temp "union_file".toList) with
      | none => rw [hu] at h; cases h
      | some q =>
        obtain ⟨u, g2⟩ := q
        rw [hu] at h
        cases h
        obtain ⟨hu1, hu2⟩ := openStream_eq fs _ _ u g2 hu
        subst hu2 hu1 hg hs
        refine Or.inr ⟨rfl, n, hn, ?_⟩
        simp

theorem openOutput_eq (fs : OpenReq → Bool) (g g' : Globals)
    (h : openOutput fs g = some g') :
    ∃ n, g.output_file_name = some n ∧
      g' = { g with output_file := some (Stream.file g.opened.length)
                    opened := g.opened ++ [OpenReq.write n] } := by
  unfold openOutput at h
  cases ho : openNamed fs g g.output_file_name OpenReq.write with
  | none => rw [ho] at h; cases h
  | some p =>
    obtain ⟨s, g1⟩ := p
    rw [ho] at h
    cases h
    obtain ⟨n, hn, hs, hg⟩ := openNamed_eq fs g _ _ s g1 ho
    subst hg hs
    exact ⟨n, hn, rfl⟩

theorem openCode_eq (fs : OpenReq → Bool) (g g' : Globals)
    (h : openCode fs g = some g') :
    (g.rflag = false ∧ g' = { g with code_file := g.output_file }) ∨
      (g.rflag = true ∧ ∃ n, g.code_file_name = some n ∧
        g' = { g with code_file := some (Stream.file g.opened.length)
                      opened := g.opened ++ [OpenReq.write n] }) := by
  unfold openCode at h
  by_cases hf : g.rflag = true
  swap
  · rw [if_neg hf] at h
    simp only [Option.some.injEq] at h
    exact Or.inl ⟨by simpa using hf, h.symm⟩
  · rw [if_pos hf] at h
    cases ho : openNamed fs g g.code_file_name OpenReq.write with
    | none => rw [ho] at h; cases h
    | some p =>
      obtain ⟨s, g1⟩ := p
      rw [ho] at h
      cases h
      obtain ⟨n, hn, hs, hg⟩ := openNamed_eq fs g _ _ s g1 ho
      subst hg hs
      exact Or.inr ⟨hf, n, hn, rfl⟩
set_option maxHeartbeats 4000000 in
/-- What `open_files` leaves, in terms of the globals `c` that
`create_file_names` left: flags and names are untouched, each optional stream is
opened exactly when its flag is set and comes from the opening of the file of
that name, `file_prefix` could be read if the graph file was asked for, and the
openings are the planned ones. -/
theorem open_files_spec (fs : OpenReq → Bool) (g0 c r : Globals)
    (hc : create_file_names g0 = some c) (h : open_files fs g0 = some r) :
    (r.vflag = c.vflag ∧ r.gflag = c.gflag ∧ r.iflag = c.iflag ∧ r.rflag = c.rflag ∧
      r.dflag = c.dflag ∧ r.dflag2 = c.dflag2 ∧
      r.verbose_file_name = c.verbose_file_name ∧
      r.graph_file_name = c.graph_file_name ∧
      r.defines_file_name = c.defines_file_name ∧
      r.externs_file_name = c.externs_file_name ∧
      r.output_file_name = c.output_file_name ∧
      r.code_file_name = c.code_file_name ∧
      Globals.file_prefix r = Globals.file_prefix c ∧
      r.stderr = c.stderr) ∧
    (if c.vflag then
        r.verbose_file.isSome = true ∧ c.verbose_file_name.isSome = true ∧
          streamReq r.opened r.verbose_file = c.verbose_file_name.map OpenReq.write
      else r.verbose_file = c.verbose_file) ∧
    (if c.gflag then
        r.graph_file.isSome = true ∧ c.graph_file_name.isSome = true ∧
          streamReq r.opened r.graph_file = c.graph_file_name.map OpenReq.write ∧
          Option.isSome c.file_prefix = true
      else r.graph_file = c.graph_file) ∧
    (if c.dflag || c.dflag2 then
        r.defines_file.isSome = true ∧ r.union_file.isSome = true ∧
          c.defines_file_name.isSome = true ∧
          streamReq r.opened r.defines_file = c.defines_file_name.map OpenReq.write ∧
          streamReq r.opened r.union_file = some (OpenReq.temp "union_file".toList)
      else r.defines_file = c.defines_file ∧ r.union_file = c.union_file) ∧
    (if c.iflag then
        r.externs_file.isSome = true ∧ c.externs_file_name.isSome = true ∧
          streamReq r.opened r.externs_file = c.externs_file_name.map OpenReq.write
      else r.externs_file = c.externs_file) ∧
    (r.output_file.isSome = true ∧
      streamReq r.opened r.output_file = c.output_file_name.map OpenReq.write) ∧
    (if c.rflag then
        r.code_file.isSome = true ∧ r.code_file ≠ r.output_file ∧
          streamReq r.opened r.code_file = c.code_file_name.map OpenReq.write
      else r.code_file = r.output_file) ∧
    r.opened = c.opened ++ plannedOpenings c := by
  unfold open_files at h
  rw [hc, Option.some_bind] at h
  clear hc
  simp only [Option.bind_eq_some] at h
  obtain ⟨g8, ⟨g7, ⟨g6, ⟨g5, ⟨g4, ⟨g3, ⟨g2, ⟨g1, h1, h2⟩, h3⟩, h4⟩, h5⟩, h6⟩, h7⟩, h8⟩, h9⟩ := h
  obtain ⟨s1, o1, e1, hs1, hi1⟩ := openInput_eq fs c g1 h1
  have e2 := openAction_eq fs g1 g2 h2
  have e3 := openText_eq fs g2 g3 h3
  have e4 := openVerbose_eq fs g3 g4 h4
  have e5 := openGraph_eq fs g4 g5 h5
  have e6 := openDefines_eq fs g5 g6 h6
  have e7 := openExterns_eq fs g6 g7 h7
  obtain ⟨n8, hn8, e8⟩ := openOutput_eq fs g7 g8 h8
  have e9 := openCode_eq fs g8 r h9
  clear h1 h2 h3 h4 h5 h6 h7 h8 h9
  subst e1 e2 e3
  rcases e4 with ⟨f4, rfl⟩ | ⟨f4, n4, hn4, rfl⟩ <;>
  rcases e5 with ⟨f5, rfl⟩ | ⟨f5, n5, p5, hn5, hp5, rfl⟩ <;>
  rcases e6 with ⟨f6, rfl⟩ | ⟨f6, n6, hn6, rfl⟩ <;>
  rcases e7 with ⟨f7, rfl⟩ | ⟨f7, n7, hn7, rfl⟩ <;>
  subst e8 <;>
  rcases e9 with ⟨f9, rfl⟩ | ⟨f9, n9, hn9, rfl⟩ <;>
  rcases hi1 with ⟨i1, rfl, rfl⟩ | ⟨i1, m1, hm1, rfl⟩ <;>
  simp only [] at f4 f5 f6 f7 f9 hn8 <;>
  (try simp only [] at hn4) <;> (try simp only [] at hn5) <;> (try simp only [] at hn6) <;>
  (try simp only [] at hn7) <;> (try simp only [] at hn9) <;> (try simp only [] at hp5) <;>
  simp [plannedOpenings, streamReq, *] <;>
  simp [List.getElem_append_right, Nat.add_assoc]

theorem definesOption_mem (opts : List (Char × List Char)) (c : Char)
    (h : definesOption opts = some c) : c = 'd' ∨ c = 'H' := by
  induction opts with
  | nil => cases h
  | cons o opts ih =>
    obtain ⟨ch, a⟩ := o
    rw [definesOption_cons] at h
    cases hd : definesOption opts with
    | some x =>
      rw [hd] at h
      simp only [Option.some.injEq] at h
      subst h
      exact ih hd
    | none =>
      rw [hd] at h
      simp only at h
      split_ifs at h with hc
      cases h
      exact hc

theorem lastArg_H_of_definesOption (opts : List (Char × List Char)) :
    (definesOption opts = none → lastArg 'H' opts = none) ∧
      (definesOption opts = some 'H' → (lastArg 'H' opts).isSome = true) := by
  induction opts with
  | nil => exact ⟨fun _ => rfl, fun h => by cases h⟩
  | cons o opts ih =>
    obtain ⟨ch, a⟩ := o
    rw [definesOption_cons, lastArg_cons]
    cases hd : definesOption opts with
    | some x =>
      constructor
      · intro h; cases h
      · intro h
        simp only [Option.some.injEq] at h
        subst h
        have := ih.2 hd
        cases hl : lastArg 'H' opts with
        | none => rw [hl] at this; cases this
        | some y => rfl
    | none =>
      have hn := ih.1 hd
      rw [hn]
      constructor
      · intro h
        simp only at h ⊢
        split_ifs at h with hc
        have : ¬ ch = 'H' := fun e => hc (Or.inr e)
        rw [if_neg this]
      · intro h
        simp only at h ⊢
        split_ifs at h with hc
        simp only [Option.some.injEq] at h
        subst h
        rfl

theorem lastArg_none_of_not_given (ch : Char) (opts : List (Char × List Char))
    (h : optGiven ch opts = false) : lastArg ch opts = none := by
  induction opts with
  | nil => rfl
  | cons o opts ih =>
    obtain ⟨c, a⟩ := o
    rw [optGiven_cons] at h
    simp only [Bool.or_eq_false_iff, decide_eq_false_iff_not] at h
    rw [lastArg_cons, ih h.2]
    simp only
    rw [if_neg h.1]

/-- The globals `getargs` leaves, in terms of the command line. -/
theorem getargs_spec (argv0 : Option (List Char)) (opts : List (Char × List Char))
    (operands : List (List Char)) (g : Globals)
    (h : getargs argv0 opts operands = some g) :
    g.vflag = optGiven 'v' opts ∧ g.gflag = optGiven 'g' opts ∧
    g.iflag = optGiven 'i' opts ∧ g.rflag = optGiven 'r' opts ∧
    g.dflag = (definesOption opts).isSome ∧
    g.dflag2 = decide (definesOption opts = some 'H') ∧
    g.output_file_name = lastArg 'o' opts ∧
    g.explicit_file_name = (lastArg 'o' opts).isSome ∧
    Globals.file_prefix g = some ((lastArg 'b' opts).getD "y".toList) ∧
    g.defines_file_name = lastArg 'H' opts ∧
    g.myname = argv0.getD "yacc".toList ∧
    g.code_file_name = none ∧ g.externs_file_name = none ∧ g.graph_file_name = none ∧
    g.verbose_file_name = none ∧
    g.action_file = none ∧ g.code_file = none ∧ g.defines_file = none ∧
    g.externs_file = none ∧ g.output_file = none ∧ g.text_file = none ∧
    g.union_file = none ∧ g.verbose_file = none ∧ g.graph_file = none ∧
    g.opened = [] ∧ g.stderr = [] ∧
    (g.input_file.isSome = true ∨ g.input_file_name.isSome = true) := by
  unfold getargs at h
  cases hl : getargsLoop (startGlobals argv0) opts with
  | none => rw [hl] at h; cases h
  | some g1 =>
    rw [hl] at h
    simp only at h
    obtain ⟨b1, b2, b3, b4, b5, b6, b7, b8, b9, b10, b11, b12, b13, b14, b15, b16, b17,
      b18, b19, b20, b21, b22, b23, b24, b25, b26, b27, b28⟩ := getargsLoop_spec opts _ g1 hl
    have init :
        (startGlobals argv0).vflag = false ∧ (startGlobals argv0).gflag = false ∧
        (startGlobals argv0).iflag = false ∧ (startGlobals argv0).rflag = false ∧
        (startGlobals argv0).dflag = false ∧ (startGlobals argv0).dflag2 = false ∧
        (startGlobals argv0).output_file_name = none ∧
        (startGlobals argv0).explicit_file_name = false ∧
        Globals.file_prefix (startGlobals argv0) = some "y".toList ∧
        (startGlobals argv0).defines_file_name = none ∧
        (startGlobals argv0).myname = argv0.getD "yacc".toList ∧
        (startGlobals argv0).code_file_name = none ∧
        (startGlobals argv0).externs_file_name = none ∧
        (startGlobals argv0).graph_file_name = none ∧
        (startGlobals argv0).verbose_file_name = none ∧
        (startGlobals argv0).action_file = none ∧ (startGlobals argv0).code_file = none ∧
        (startGlobals argv0).defines_file = none ∧
        (startGlobals argv0).externs_file = none ∧
        (startGlobals argv0).output_file = none ∧ (startGlobals argv0).text_file = none ∧
        (startGlobals argv0).union_file = none ∧ (startGlobals argv0).verbose_file = none ∧
        (startGlobals argv0).graph_file = none ∧
        (startGlobals argv0).opened = [] ∧ (startGlobals argv0).stderr = [] ∧
        (startGlobals argv0).input_file = none := by
      cases argv0 <;> simp [startGlobals, initialGlobals]
    obtain ⟨c1, c2, c3, c4, c5, c6, c7, c8, c9, c10, c11, c12, c13, c14, c15, c16, c17,
      c18, c19, c20, c21, c22, c23, c24, c25, c26, c27⟩ := init
    rw [c1] at b1; rw [c2] at b2; rw [c3] at b3; rw [c4] at b4; rw [c5] at b5
    rw [c6] at b6; rw [c7] at b7; rw [c8] at b8; rw [c9] at b9; rw [c10] at b10
    rw [c11] at b11; rw [c12] at b12; rw [c13] at b13; rw [c14] at b14; rw [c15] at b15
    rw [c16] at b17; rw [c17] at b18; rw [c18] at b19; rw [c19] at b20; rw [c27] at b21
    rw [c20] at b22; rw [c21] at b23; rw [c22] at b24; rw [c23] at b25; rw [c24] at b26
    rw [c25] at b27; rw [c26] at b28
    have d6 : g1.dflag2 = decide (definesOption opts = some 'H') := by
      rw [b6]
      cases definesOption opts <;> simp
    have d7 : g1.output_file_name = lastArg 'o' opts := by
      rw [b7]; cases lastArg 'o' opts <;> rfl
    have d9 : Globals.file_prefix g1 = some ((lastArg 'b' opts).getD "y".toList) := by
      rw [b9]; cases lastArg 'b' opts <;> rfl
    have d10 : g1.defines_file_name = lastArg 'H' opts := by
      rw [b10]; cases lastArg 'H' opts <;> rfl
    simp only [Bool.false_or] at b1 b2 b3 b4 b5 b8
    unfold inputOperand at h
    match operands, h with
    | [a], h =>
      simp only at h
      split_ifs at h
      · cases h
        exact ⟨b1, b2, b3, b4, b5, d6, d7, b8, d9, d10, b11, b12, b13, b14, b15, b17, b18,
          b19, b20, b22, b23, b24, b25, b26, b27, b28, Or.inl rfl⟩
      · cases h
        exact ⟨b1, b2, b3, b4, b5, d6, d7, b8, d9, d10, b11, b12, b13, b14, b15, b17, b18,
          b19, b20, b22, b23, b24, b25, b26, b27, b28, Or.inr rfl⟩

theorem take_set_succ {α : Type} (l : List α) (i : Nat) (c : α) (h : i < l.length) :
    (l.set i c).take (i + 1) = l.take i ++ [c] := by
  induction l generalizing i with
  | nil => simp at h
  | cons x l ih =>
    cases i with
    | zero => simp
    | succ i =>
      have h' : i < l.length := by simpa using h
      simp [ih i h']

theorem knownSuffix_length (x : List Char) (h : knownSuffix x = true) : 2 ≤ x.length := by
  unfold knownSuffix at h
  simp only [Bool.or_eq_true, decide_eq_true_eq] at h
  rcases h with (((h | h) | h) | h) | h <;> subst h <;> decide

/-- The defines name made from a recognised output name is that name up to and
including its last '.', followed by 'h'. -/
theorem headerName_eq (out : List Char) (k : Nat) (hk : strrchr out '.' = some k)
    (hs : knownSuffix (out.drop k) = true) :
    headerName out = out.take (k + 1) ++ ['h'] := by
  have hlen := knownSuffix_length _ hs
  rw [List.length_drop] at hlen
  unfold headerName
  rw [hk]
  exact take_set_succ out (k + 1) 'h' (by omega)

/-- The code file name `file_prefix ++ CODE_SUFFIX` differs from the output file
name, whichever way `create_file_names` chose `file_prefix`. -/
theorem code_name_ne_output_name (g : Globals) (p : List Char) (l : Nat)
    (hc : chosenPrefix g = some (p, l)) : p ++ CODE_SUFFIX ≠ outputName p l g := by
  intro e
  have hlen := chosenPrefix_len g p l hc
  subst hlen
  have hne1 : CODE_SUFFIX ≠ OUTPUT_SUFFIX := by decide
  have hne2 : CODE_SUFFIX ≠ ".c".toList := by decide
  cases hs : (chosenSuffix g).1 with
  | some off =>
    obtain ⟨out, ho, hcase⟩ := chosenSuffix_some g off hs
    have hp : p = out.take off := by
      unfold chosenPrefix at hc
      rw [hs, ho] at hc
      simp only [Option.some.injEq, Prod.mk.injEq] at hc
      exact hc.1.symm
    have hout : outputName p p.length g = out := by
      unfold outputName
      rw [ho]
    rw [hout, hp] at e
    rcases hcase with ⟨h1, _⟩ | ⟨_, h2, _⟩
    · have h3 := (find_suffix_eq_some _ _ _ h1).2.2
      exact hne1 (List.append_cancel_left (e.trans h3))
    · have h3 := (find_suffix_eq_some _ _ _ h2).2.2
      exact hne2 (List.append_cancel_left (e.trans h3))
  | none =>
    cases ho : g.output_file_name with
    | none =>
      have hout : outputName p p.length g = p ++ OUTPUT_SUFFIX := by
        unfold outputName
        rw [ho]
        exact alloc_file_name_eq _ _
      rw [hout] at e
      exact hne1 (List.append_cancel_left e)
    | some out =>
      have hout : outputName p p.length g = out := by
        unfold outputName
        rw [ho]
      obtain ⟨_, hn⟩ := chosenSuffix_none g hs
      have h2 := (hn out ho).2
      rw [hout] at e
      rw [← e] at h2
      have h3 : p ++ CODE_SUFFIX = (p ++ ".code".toList) ++ ".c".toList := by
        rw [List.append_assoc]
        rfl
      rw [h3, find_suffix_append] at h2
      cases h2
/-- After `getargs`, the second block of `create_file_names` makes `file_prefix`
point to the string `prefixFor opts`, and the last block frees it exactly when
`prefixFreed opts`. -/
theorem prefix_after_getargs (argv0 : Option (List Char)) (opts : List (Char × List Char))
    (operands : List (List Char)) (g : Globals)
    (hg : getargs argv0 opts operands = some g) :
    chosenPrefix g = some (prefixFor opts, (prefixFor opts).length) ∧
      (chosenSuffix g).1.isSome = prefixFreed opts := by
  obtain ⟨_, _, _, _, _, _, a7, _, a9, _⟩ := getargs_spec argv0 opts operands g hg
  have h1 : (∃ l, chosenPrefix g = some (prefixFor opts, l)) ∧
      (chosenSuffix g).1.isSome = prefixFreed opts := by
    unfold prefixFor prefixFreed chosenPrefix chosenSuffix
    rw [a7, a9]
    cases lastArg 'o' opts with
    | none => exact ⟨⟨_, rfl⟩, rfl⟩
    | some out =>
      simp only
      cases find_suffix out OUTPUT_SUFFIX with
      | some off => exact ⟨⟨_, rfl⟩, rfl⟩
      | none =>
        simp only
        cases find_suffix out ".c".toList with
        | some off => exact ⟨⟨_, rfl⟩, rfl⟩
        | none => exact ⟨⟨_, rfl⟩, rfl⟩
  obtain ⟨⟨l, hl⟩, h2⟩ := h1
  have := chosenPrefix_len g _ l hl
  subst this
  exact ⟨hl, h2⟩

/-- On every command line `getargs` accepts, `create_file_names` returns. -/
theorem create_file_names_defined (argv0 : Option (List Char))
    (opts : List (Char × List Char)) (operands : List (List Char)) (g : Globals)
    (hg : getargs argv0 opts operands = some g) : ∃ c, create_file_names g = some c :=
  ⟨_, create_file_names_eq g _ _ (prefix_after_getargs argv0 opts operands g hg).1⟩

theorem outputName_of_no_output (g : Globals) (p : List Char)
    (h : g.output_file_name = none) :
    outputName p p.length g = p ++ OUTPUT_SUFFIX := by
  unfold outputName
  rw [h]
  exact alloc_file_name_eq _ _

theorem chosenSuffix_of_no_output (g : Globals) (h : g.output_file_name = none) :
    chosenSuffix g = (none, DEFINES_SUFFIX, EXTERNS_SUFFIX) := by
  unfold chosenSuffix
  rw [h]

theorem prefixFor_of_no_output (opts : List (Char × List Char))
    (h : lastArg 'o' opts = none) : prefixFor opts = (lastArg 'b' opts).getD "y".toList := by
  unfold prefixFor
  rw [h]

/-- The value of `dflag || dflag2` after `create_file_names`, in terms of the
command line. -/
theorem defines_flags_after_names (argv0 : Option (List Char))
    (opts : List (Char × List Char)) (operands : List (List Char)) (g c : Globals)
    (hg : getargs argv0 opts operands = some g) (hc : create_file_names g = some c) :
    (c.dflag || c.dflag2) = definesMade opts ∧
      c.defines_file_name.isSome = definesMade opts := by
  obtain ⟨_, _, _, _, a5, a6, a7, a8, _, a10, _⟩ := getargs_spec argv0 opts operands g hg
  obtain ⟨hp, _⟩ := prefix_after_getargs argv0 opts operands g hg
  rw [create_file_names_eq g _ _ hp] at hc
  cases hc
  simp only
  unfold definesMade definesDropped
  rw [a5, a6, a8, a10]
  cases hd : definesOption opts with
  | none =>
    have := (lastArg_H_of_definesOption opts).1 hd
    simp [this]
  | some c =>
    rcases definesOption_mem opts c hd with rfl | rfl
    · cases ho : lastArg 'o' opts with
      | none => simp
      | some out =>
        have hout : outputName (prefixFor opts) (prefixFor opts).length g = out := by
          unfold outputName
          rw [a7, ho]
        rw [hout]
        cases hr : recognised out <;> simp [hr]
    · have := (lastArg_H_of_definesOption opts).2 hd
      simp [this]

theorem openStream_total (fs : OpenReq → Bool) (hfs : ∀ q, fs q = true) (g : Globals)
    (req : OpenReq) :
    openStream fs g req =
      some (Stream.file g.opened.length, { g with opened := g.opened ++ [req] }) := by
  unfold openStream
  rw [if_pos (hfs req)]

theorem openNamed_total (fs : OpenReq → Bool) (hfs : ∀ q, fs q = true) (g : Globals)
    (name : Option (List Char)) (mk : List Char → OpenReq) (h : name.isSome = true) :
    ∃ n, name = some n ∧
      openNamed fs g name mk =
        some (Stream.file g.opened.length, { g with opened := g.opened ++ [mk n] }) := by
  cases name with
  | none => cases h
  | some n => exact ⟨n, rfl, openStream_total fs hfs g (mk n)⟩

theorem openInput_total (fs : OpenReq → Bool) (hfs : ∀ q, fs q = true) (g : Globals)
    (h : namesReady g) : ∃ g', openInput fs g = some g' ∧ namesReady g' := by
  obtain ⟨h1, h2, h3, h4, h5, h6, h7⟩ := h
  unfold openInput
  cases hi : g.input_file with
  | some s => exact ⟨g, rfl, by rw [hi] at h1; exact ⟨by rw [hi]; exact h1, h2, h3, h4, h5, h6, h7⟩⟩
  | none =>
    rw [hi] at h1
    have hn : g.input_file_name.isSome = true := by
      rcases h1 with h1 | h1
      · cases h1
      · exact h1
    obtain ⟨n, _, e⟩ := openNamed_total fs hfs g g.input_file_name OpenReq.read hn
    simp only [e]
    exact ⟨_, rfl, Or.inl rfl, h2, h3, h4, h5, h6, h7⟩

theorem openAction_total (fs : OpenReq → Bool) (hfs : ∀ q, fs q = true) (g : Globals)
    (h : namesReady g) : ∃ g', openAction fs g = some g' ∧ namesReady g' := by
  unfold openAction
  simp only [openStream_total fs hfs]
  exact ⟨_, rfl, h⟩

theorem openText_total (fs : OpenReq → Bool) (hfs : ∀ q, fs q = true) (g : Globals)
    (h : namesReady g) : ∃ g', openText fs g = some g' ∧ namesReady g' := by
  unfold openText
  simp only [openStream_total fs hfs]
  exact ⟨_, rfl, h⟩

theorem openVerbose_total (fs : OpenReq → Bool) (hfs : ∀ q, fs q = true) (g : Globals)
    (h : namesReady g) : ∃ g', openVerbose fs g = some g' ∧ namesReady g' := by
  unfold openVerbose
  by_cases hf : g.vflag = true
  · obtain ⟨n, _, e⟩ := openNamed_total fs hfs g g.verbose_file_name OpenReq.write (h.2.1 hf)
    rw [if_pos hf]
    simp only [e]
    exact ⟨_, rfl, h⟩
  · rw [if_neg hf]
    exact ⟨g, rfl, h⟩

theorem openGraph_total (fs : OpenReq → Bool) (hfs : ∀ q, fs q = true) (g : Globals)
    (h : namesReady g) : ∃ g', openGraph fs g = some g' ∧ namesReady g' := by
  unfold openGraph
  by_cases hf : g.gflag = true
  · obtain ⟨hn, hp⟩ := h.2.2.1 hf
    obtain ⟨n, _, e⟩ := openNamed_total fs hfs g g.graph_file_name OpenReq.write hn
    rw [if_pos hf]
    simp only [e]
    obtain ⟨p, hq⟩ := Option.isSome_iff_exists.1 hp
    refine ⟨{ g with graph_file := some (Stream.file g.opened.length)
                     opened := g.opened ++ [OpenReq.write n] }, ?_, h⟩
    simp only [hq]
  · rw [if_neg hf]
    exact ⟨g, rfl, h⟩

theorem openDefines_total (fs : OpenReq → Bool) (hfs : ∀ q, fs q = true) (g : Globals)
    (h : namesReady g) : ∃ g', openDefines fs g = some g' ∧ namesReady g' := by
  unfold openDefines
  by_cases hf : (g.dflag || g.dflag2) = true
  · obtain ⟨n, _, e⟩ :=
      openNamed_total fs hfs g g.defines_file_name OpenReq.write (h.2.2.2.1 hf)
    rw [if_pos hf]
    simp only [e, openStream_total fs hfs]
    exact ⟨_, rfl, h⟩
  · rw [if_neg hf]
    exact ⟨g, rfl, h⟩

theorem openExterns_total (fs : OpenReq → Bool) (hfs : ∀ q, fs q = true) (g : Globals)
    (h : namesReady g) : ∃ g', openExterns fs g = some g' ∧ namesReady g' := by
  unfold openExterns
  by_cases hf : g.iflag = true
  · obtain ⟨n, _, e⟩ :=
      openNamed_total fs hfs g g.externs_file_name OpenReq.write (h.2.2.2.2.1 hf)
    rw [if_pos hf]
    simp only [e]
    exact ⟨_, rfl, h⟩
  · rw [if_neg hf]
    exact ⟨g, rfl, h⟩

theorem openOutput_total (fs : OpenReq → Bool) (hfs : ∀ q, fs q = true) (g : Globals)
    (h : namesReady g) : ∃ g', openOutput fs g = some g' ∧ namesReady g' := by
  unfold openOutput
  obtain ⟨n, _, e⟩ :=
    openNamed_total fs hfs g g.output_file_name OpenReq.write h.2.2.2.2.2.1
  simp only [e]
  exact ⟨_, rfl, h⟩

theorem openCode_total (fs : OpenReq → Bool) (hfs : ∀ q, fs q = true) (g : Globals)
    (h : namesReady g) : ∃ g', openCode fs g = some g' := by
  unfold openCode
  by_cases hf : g.rflag = true
  · obtain ⟨n, _, e⟩ :=
      openNamed_total fs hfs g g.code_file_name OpenReq.write (h.2.2.2.2.2.2 hf)
    rw [if_pos hf]
    simp only [e]
    exact ⟨_, rfl⟩
  · rw [if_neg hf]
    exact ⟨_, rfl⟩

/-- After `getargs`, `create_file_names` gives a name to every file `open_files`
is going to open; and `file_prefix` can still be read for the graph file unless
`-g` comes with an `-o` name that made `create_file_names` free it. -/
theorem names_ready_after_getargs (argv0 : Option (List Char))
    (opts : List (Char × List Char)) (operands : List (List Char)) (g c : Globals)
    (hg : getargs argv0 opts operands = some g) (hc : create_file_names g = some c)
    (hok : (optGiven 'g' opts && prefixFreed opts) = false) : namesReady c := by
  obtain ⟨d1, d2⟩ := defines_flags_after_names argv0 opts operands g c hg hc
  obtain ⟨_, a2, _, _, _, _, _, _, _, _, _, _, _, _, _, _, _, _, _, _, _, _, _, _, _, _,
    hin⟩ := getargs_spec argv0 opts operands g hg
  obtain ⟨hp, hfree⟩ := prefix_after_getargs argv0 opts operands g hg
  have hc' := hc
  rw [create_file_names_eq g _ _ hp] at hc'
  cases hc'
  refine ⟨hin, ?_, ?_, ?_, ?_, rfl, ?_⟩
  · intro h
    simp only at h ⊢
    rw [if_pos h]
    rfl
  · intro h
    simp only at h ⊢
    rw [if_pos h]
    refine ⟨rfl, ?_⟩
    rw [a2] at h
    rw [h, Bool.true_and] at hok
    rw [hfree, hok]
    rfl
  · intro h
    rw [d1] at h
    rw [d2, h]
  · intro h
    simp only at h ⊢
    rw [if_pos h]
    rfl
  · intro h
    simp only at h ⊢
    rw [if_pos h]
    rfl

/-- When every opening succeeds, `open_files` returns on every command line
`getargs` accepts, unless `-g` comes with an `-o` name that ends in OUTPUT_SUFFIX
or in ".c". -/
theorem open_files_defined (fs : OpenReq → Bool) (hfs : ∀ q, fs q = true)
    (argv0 : Option (List Char)) (opts : List (Char × List Char))
    (operands : List (List Char)) (g : Globals)
    (hg : getargs argv0 opts operands = some g)
    (hok : (optGiven 'g' opts && prefixFreed opts) = false) :
    ∃ r, open_files fs g = some r := by
  obtain ⟨c, hc⟩ := create_file_names_defined argv0 opts operands g hg
  have h0 := names_ready_after_getargs argv0 opts operands g c hg hc hok
  obtain ⟨g1, e1, h1⟩ := openInput_total fs hfs _ h0
  obtain ⟨g2, e2, h2⟩ := openAction_total fs hfs _ h1
  obtain ⟨g3, e3, h3⟩ := openText_total fs hfs _ h2
  obtain ⟨g4, e4, h4⟩ := openVerbose_total fs hfs _ h3
  obtain ⟨g5, e5, h5⟩ := openGraph_total fs hfs _ h4
  obtain ⟨g6, e6, h6⟩ := openDefines_total fs hfs _ h5
  obtain ⟨g7, e7, h7⟩ := openExterns_total fs hfs _ h6
  obtain ⟨g8, e8, h8⟩ := openOutput_total fs hfs _ h7
  obtain ⟨r, e9⟩ := openCode_total fs hfs _ h8
  refine ⟨r, ?_⟩
  unfold open_files
  rw [hc, Option.some_bind, e1, Option.some_bind, e2, Option.some_bind, e3,
    Option.some_bind, e4, Option.some_bind, e5, Option.some_bind, e6, Option.some_bind,
    e7, Option.some_bind, e8, Option.some_bind, e9]

/-- With `-g` and an `-o` name that ends in OUTPUT_SUFFIX or in ".c",
`open_files` has no result, whatever the openings do: the graph block reads
through `file_prefix` after `create_file_names` has freed the block. -/
theorem open_files_reads_freed (fs : OpenReq → Bool) (argv0 : Option (List Char))
    (opts : List (Char × List Char)) (operands : List (List Char)) (g : Globals)
    (hg : getargs argv0 opts operands = some g)
    (h1 : optGiven 'g' opts = true) (h2 : prefixFreed opts = true) :
    open_files fs g = none := by
  cases hr : open_files fs g with
  | none => rfl
  | some r =>
    obtain ⟨c, hc⟩ := create_file_names_defined argv0 opts operands g hg
    obtain ⟨_, _, hgr, _⟩ := open_files_spec fs g c r hc hr
    obtain ⟨_, a2, _⟩ := getargs_spec argv0 opts operands g hg
    obtain ⟨hp, hfree⟩ := prefix_after_getargs argv0 opts operands g hg
    rw [create_file_names_eq g _ _ hp] at hc
    cases hc
    simp only at hgr
    rw [a2, h1, hfree, h2] at hgr
    simp at hgr
theorem strrchr_none_of_not_mem (s : List Char) (c : Char) (h : c ∉ s) :
    strrchr s c = none := by
  induction s with
  | nil => rfl
  | cons x s ih =>
    have h1 : c ∉ s := fun hm => h (List.mem_cons_of_mem _ hm)
    have h2 : ¬ x = c := fun e => h (by rw [e]; exact List.mem_cons_self _ _)
    unfold strrchr
    rw [ih h1]
    simp only
    rw [if_neg h2]

/-- The last occurrence of `c` in a string is the one after which `c` occurs no
more. -/
theorem strrchr_append (pre rest : List Char) (c : Char) (h : c ∉ rest) :
    strrchr (pre ++ c :: rest) c = some pre.length := by
  induction pre with
  | nil =>
    simp only [List.nil_append, List.length_nil]
    unfold strrchr
    rw [strrchr_none_of_not_mem rest c h]
    simp
  | cons x pre ih =>
    simp only [List.cons_append, List.length_cons]
    unfold strrchr
    rw [ih]

/-- A name that ends in ".c" has a recognised suffix. -/
theorem recognised_of_dot_c (pre : List Char) : recognised (pre ++ ".c".toList) = true := by
  have h : strrchr (pre ++ ".c".toList) '.' = some pre.length :=
    strrchr_append pre ['c'] '.' (by decide)
  unfold recognised
  rw [h]
  simp only
  rw [List.drop_left]
  decide

/-- A name whose suffix is not recognised ends neither in OUTPUT_SUFFIX nor in
".c": `create_file_names` leaves `file_prefix` alone. -/
theorem find_suffix_none_of_not_recognised (name : List Char)
    (h : recognised name = false) :
    find_suffix name OUTPUT_SUFFIX = none ∧ find_suffix name ".c".toList = none := by
  constructor
  · cases h1 : find_suffix name OUTPUT_SUFFIX with
    | none => rfl
    | some off =>
      have h2 := (find_suffix_eq_some _ _ _ h1).2.2
      have h3 : name = (name.take off ++ ".tab".toList) ++ ".c".toList := by
        rw [List.append_assoc]
        exact h2
      rw [h3, recognised_of_dot_c] at h
      cases h
  · cases h1 : find_suffix name ".c".toList with
    | none => rfl
    | some off =>
      have h2 := (find_suffix_eq_some _ _ _ h1).2.2
      rw [h2, recognised_of_dot_c] at h
      cases h

theorem prefixFreed_of_not_recognised (opts : List (Char × List Char)) (name : List Char)
    (ho : lastArg 'o' opts = some name) (h : recognised name = false) :
    prefixFreed opts = false := by
  obtain ⟨h1, h2⟩ := find_suffix_none_of_not_recognised name h
  unfold prefixFreed
  rw [ho]
  simp only
  rw [h1, h2]
  rfl

theorem strrchr_ne_none_of_mem (s : List Char) (c : Char) (h : c ∈ s) :
    strrchr s c ≠ none := by
  induction s with
  | nil => cases h
  | cons x s ih =>
    unfold strrchr
    cases hs : strrchr s c with
    | some i => simp
    | none =>
      simp only
      by_cases hx : x = c
      · rw [if_pos hx]
        simp
      · exfalso
        rcases List.mem_cons.1 h with h1 | h1
        · exact hx h1.symm
        · exact ih h1 hs

theorem strrchr_some (s : List Char) (c : Char) (k : Nat) (h : strrchr s c = some k) :
    ∃ pre ext, s = pre ++ c :: ext ∧ c ∉ ext ∧ pre.length = k := by
  induction s generalizing k with
  | nil => cases h
  | cons x s ih =>
    unfold strrchr at h
    cases hs : strrchr s c with
    | some i =>
      rw [hs] at h
      simp only [Option.some.injEq] at h
      obtain ⟨pre, ext, e, hn, hl⟩ := ih i hs
      refine ⟨x :: pre, ext, by rw [e]; rfl, hn, ?_⟩
      rw [List.length_cons, hl, h]
    | none =>
      rw [hs] at h
      simp only at h
      split_ifs at h with hx
      simp only [Option.some.injEq] at h
      refine ⟨[], s, by rw [hx]; rfl, ?_, by rw [← h]; rfl⟩
      intro hm
      exact strrchr_ne_none_of_mem s c hm hs

/-- The test of `create_file_names` on the suffix of the output file name, in
terms of the name: the name is some text, a '.', and one of the extensions "c",
"C", "cc", "cxx", "cpp". -/
theorem recognised_iff (name : List Char) :
    recognised name = true ↔
      ∃ pre ext, name = pre ++ '.' :: ext ∧
        ext ∈ ["c".toList, "C".toList, "cc".toList, "cxx".toList, "cpp".toList] := by
  constructor
  · intro h
    unfold recognised at h
    cases hk : strrchr name '.' with
    | none => rw [hk] at h; cases h
    | some k =>
      rw [hk] at h
      simp only at h
      obtain ⟨pre, ext, e, _, hl⟩ := strrchr_some name '.' k hk
      refine ⟨pre, ext, e, ?_⟩
      rw [e, ← hl, List.drop_left] at h
      unfold knownSuffix at h
      simp only [Bool.or_eq_true, decide_eq_true_eq] at h
      rcases h with (((h | h) | h) | h) | h <;>
        · have := List.tail_eq_of_cons_eq h
          rw [this]
          decide
  · rintro ⟨pre, ext, e, hm⟩
    have hd : '.' ∉ ext := by
      simp only [List.mem_cons, List.mem_singleton, List.not_mem_nil, or_false] at hm
      rcases hm with h | h | h | h | h <;> rw [h] <;> decide
    have hk := strrchr_append pre ext '.' hd
    unfold recognised
    rw [e, hk]
    simp only
    rw [List.drop_left]
    simp only [List.mem_cons, List.mem_singleton, List.not_mem_nil, or_false] at hm
    rcases hm with h | h | h | h | h <;> rw [h] <;> decide
theorem streamReq_none (opened : List OpenReq) : streamReq opened none = none := rfl

/-- C5 as the code has it: on every command line `getargs` accepts, `open_files`
returns when every opening succeeds (the command lines with `-g` and an `-o`
name that ends in OUTPUT_SUFFIX or in ".c" are left aside: there `open_files`
reads `file_prefix` after `create_file_names` has freed it); and whenever
`open_files` returns, the verbose file is named and opened exactly when `-v` was
given, the graph file exactly when `-g` was given, the externs file exactly when
`-i` was given, and the defines file, with its union temp file, exactly when
`-H` is in effect, or `-d` is in effect and either no `-o` was given or the `-o`
name has a recognised suffix.  Each stream that is opened comes from the opening,
for writing, of the file of the corresponding name. -/
theorem auxiliary_outputs_follow_flags (fs : OpenReq → Bool) (argv0 : Option (List Char))
    (opts : List (Char × List Char)) (operands : List (List Char)) (g : Globals)
    (hg : getargs argv0 opts operands = some g) :
    ((∀ q, fs q = true) → (optGiven 'g' opts && prefixFreed opts) = false →
      ∃ r, open_files fs g = some r) ∧
    ∀ r, open_files fs g = some r →
      (r.verbose_file_name.isSome = optGiven 'v' opts ∧
        r.verbose_file.isSome = optGiven 'v' opts ∧
        streamReq r.opened r.verbose_file = r.verbose_file_name.map OpenReq.write) ∧
      (r.graph_file_name.isSome = optGiven 'g' opts ∧
        r.graph_file.isSome = optGiven 'g' opts ∧
        streamReq r.opened r.graph_file = r.graph_file_name.map OpenReq.write) ∧
      (r.externs_file_name.isSome = optGiven 'i' opts ∧
        r.externs_file.isSome = optGiven 'i' opts ∧
        streamReq r.opened r.externs_file = r.externs_file_name.map OpenReq.write) ∧
      (r.defines_file_name.isSome = definesMade opts ∧
        r.defines_file.isSome = definesMade opts ∧
        r.union_file.isSome = definesMade opts ∧
        streamReq r.opened r.defines_file = r.defines_file_name.map OpenReq.write ∧
        streamReq r.opened r.union_file =
          if definesMade opts then some (OpenReq.temp "union_file".toList) else none) := by
  refine ⟨fun hfs hok => open_files_defined fs hfs argv0 opts operands g hg hok, ?_⟩
  intro r hr
  obtain ⟨c, hc⟩ := create_file_names_defined argv0 opts operands g hg
  obtain ⟨a1, a2, a3, _, _, _, _, _, _, _, _, _, a13, a14, a15, _, _, a18, a19, _, _,
    a22, a23, a24, _⟩ := getargs_spec argv0 opts operands g hg
  obtain ⟨⟨b1, b2, b3, _, _, _, b7, b8, b9, b10, _⟩, hv, hgr, hd, hi, _⟩ :=
    open_files_spec fs g c r hc hr
  obtain ⟨d1, d2⟩ := defines_flags_after_names argv0 opts operands g c hg hc
  obtain ⟨hp, _⟩ := prefix_after_getargs argv0 opts operands g hg
  rw [d1] at hd
  rw [create_file_names_eq g _ _ hp] at hc
  cases hc
  simp only at hv hgr hd hi b7 b8 b9 b10 d2
  rw [a1, a15, a23] at hv
  rw [a2, a14, a24] at hgr
  rw [a3, a13, a19] at hi
  rw [a18, a22] at hd
  rw [a1, a15] at b7
  rw [a2, a14] at b8
  rw [a3, a13] at b10
  refine ⟨⟨?_, ?_, ?_⟩, ⟨?_, ?_, ?_⟩, ⟨?_, ?_, ?_⟩, ⟨by rw [b9, d2], ?_, ?_, ?_, ?_⟩⟩
  · rw [b7]; cases optGiven 'v' opts <;> rfl
  · cases h : optGiven 'v' opts <;> rw [h] at hv
    · simp only [Bool.false_eq_true, if_false] at hv; rw [hv]; rfl
    · simp only [if_true] at hv; exact hv.1
  · rw [b7]
    cases h : optGiven 'v' opts <;> rw [h] at hv
    · simp only [Bool.false_eq_true, if_false] at hv; rw [hv]; rfl
    · simp only [if_true] at hv; exact hv.2.2
  · rw [b8]; cases optGiven 'g' opts <;> rfl
  · cases h : optGiven 'g' opts <;> rw [h] at hgr
    · simp only [Bool.false_eq_true, if_false] at hgr; rw [hgr]; rfl
    · simp only [if_true] at hgr; exact hgr.1
  · rw [b8]
    cases h : optGiven 'g' opts <;> rw [h] at hgr
    · simp only [Bool.false_eq_true, if_false] at hgr; rw [hgr]; rfl
    · simp only [if_true] at hgr; exact hgr.2.2.1
  · rw [b10]; cases optGiven 'i' opts <;> rfl
  · cases h : optGiven 'i' opts <;> rw [h] at hi
    · simp only [Bool.false_eq_true, if_false] at hi; rw [hi]; rfl
    · simp only [if_true] at hi; exact hi.1
  · rw [b10]
    cases h : optGiven 'i' opts <;> rw [h] at hi
    · simp only [Bool.false_eq_true, if_false] at hi; rw [hi]; rfl
    · simp only [if_true] at hi; exact hi.2.2
  · cases h : definesMade opts <;> rw [h] at hd
    · simp only [Bool.false_eq_true, if_false] at hd; rw [hd.1]; rfl
    · simp only [if_true] at hd; exact hd.1
  · cases h : definesMade opts <;> rw [h] at hd
    · simp only [Bool.false_eq_true, if_false] at hd; rw [hd.2]; rfl
    · simp only [if_true] at hd; exact hd.2.1
  · rw [b9]
    cases h : definesMade opts <;> rw [h] at hd d2
    · simp only [Bool.false_eq_true, if_false] at hd
      rw [hd.1, streamReq_none]
      have hnone := Option.not_isSome_iff_eq_none.1 (by rw [d2]; decide)
      rw [hnone]
      rfl
    · simp only [if_true] at hd; exact hd.2.2.2.1
  · cases h : definesMade opts <;> rw [h] at hd
    · simp only [Bool.false_eq_true, if_false] at hd; rw [hd.2]; rfl
    · simp only [if_true] at hd; exact hd.2.2.2.2

theorem auxiliary_outputs_follow_flags_witness :
    getargs none [('d', []), ('o', "foo.y".toList), ('v', [])] ["g.y".toList] =
        some sampleA ∧
      open_files allOpen sampleA = some sampleAOpened ∧
      (sampleAOpened.verbose_file_name.isSome =
          optGiven 'v' [('d', []), ('o', "foo.y".toList), ('v', [])] ∧
        sampleAOpened.verbose_file.isSome =
          optGiven 'v' [('d', []), ('o', "foo.y".toList), ('v', [])] ∧
        streamReq sampleAOpened.opened sampleAOpened.verbose_file =
          sampleAOpened.verbose_file_name.map OpenReq.write) ∧
      (sampleAOpened.graph_file_name.isSome =
          optGiven 'g' [('d', []), ('o', "foo.y".toList), ('v', [])] ∧
        sampleAOpened.graph_file.isSome =
          optGiven 'g' [('d', []), ('o', "foo.y".toList), ('v', [])] ∧
        streamReq sampleAOpened.opened sampleAOpened.graph_file =
          sampleAOpened.graph_file_name.map OpenReq.write) ∧
      (sampleAOpened.externs_file_name.isSome =
          optGiven 'i' [('d', []), ('o', "foo.y".toList), ('v', [])] ∧
        sampleAOpened.externs_file.isSome =
          optGiven 'i' [('d', []), ('o', "foo.y".toList), ('v', [])] ∧
        streamReq sampleAOpened.opened sampleAOpened.externs_file =
          sampleAOpened.externs_file_name.map OpenReq.write) ∧
      (sampleAOpened.defines_file_name.isSome =
          definesMade [('d', []), ('o', "foo.y".toList), ('v', [])] ∧
        sampleAOpened.defines_file.isSome =
          definesMade [('d', []), ('o', "foo.y".toList), ('v', [])] ∧
        sampleAOpened.union_file.isSome =
          definesMade [('d', []), ('o', "foo.y".toList), ('v', [])] ∧
        streamReq sampleAOpened.opened sampleAOpened.defines_file =
          sampleAOpened.defines_file_name.map OpenReq.write ∧
        streamReq sampleAOpened.opened sampleAOpened.union_file =
          if definesMade [('d', []), ('o', "foo.y".toList), ('v', [])] then
            some (OpenReq.temp "union_file".toList)
          else none) :=
  ⟨by decide, by decide,
    (auxiliary_outputs_follow_flags allOpen none
      [('d', []), ('o', "foo.y".toList), ('v', [])] ["g.y".toList] sampleA
      (by decide)).2 sampleAOpened (by decide)⟩

/-- C5 as stated fails: on the command line `-d -o foo.y -v g.y`, which `getargs`
accepts, `-d` is given and `open_files` names and opens no defines file. -/
theorem defines_flag_without_defines_file :
    getargs none [('d', []), ('o', "foo.y".toList), ('v', [])] ["g.y".toList] =
        some sampleA ∧
      open_files allOpen sampleA = some sampleAOpened ∧
      sampleAOpened.defines_file_name = none ∧
      ¬ (sampleAOpened.defines_file.isSome = true ↔
        (optGiven 'd' [('d', []), ('o', "foo.y".toList), ('v', [])] ||
          optGiven 'H' [('d', []), ('o', "foo.y".toList), ('v', [])]) = true) := by
  decide
/-- The -r split on every command line `getargs` accepts.  `create_file_names`
returns: without `-r` the code file name is the output file name, with `-r` it
is `file_prefix ++ CODE_SUFFIX` for the string `file_prefix` points to while the
names are made, and differs from the output file name.  When every opening
succeeds `open_files` returns, except with `-g` and an `-o` name that ends in
OUTPUT_SUFFIX or in ".c".  Whenever `open_files` returns, `output_file` comes
from the opening of the output file name; without `-r`, `code_file` is the
stream `output_file`; with `-r`, `code_file` is another stream, which comes from
the opening of the code file name. -/
theorem code_file_split_general (fs : OpenReq → Bool) (argv0 : Option (List Char))
    (opts : List (Char × List Char)) (operands : List (List Char)) (g : Globals)
    (hg : getargs argv0 opts operands = some g) :
    (∃ c, create_file_names g = some c ∧
      Globals.file_prefix c = (if prefixFreed opts then none else some (prefixFor opts)) ∧
      (optGiven 'r' opts = false → c.code_file_name = c.output_file_name) ∧
      (optGiven 'r' opts = true →
        c.code_file_name = some (prefixFor opts ++ CODE_SUFFIX) ∧
          c.code_file_name ≠ c.output_file_name) ∧
      ∀ r, open_files fs g = some r →
        r.code_file_name = c.code_file_name ∧ r.output_file_name = c.output_file_name) ∧
    ((∀ q, fs q = true) →
      ((∃ r, open_files fs g = some r) ↔
        (optGiven 'g' opts && prefixFreed opts) = false)) ∧
    ∀ r, open_files fs g = some r →
      r.output_file.isSome = true ∧
      streamReq r.opened r.output_file = r.output_file_name.map OpenReq.write ∧
      (optGiven 'r' opts = false →
        r.code_file_name = r.output_file_name ∧ r.code_file = r.output_file) ∧
      (optGiven 'r' opts = true →
        r.code_file_name = some (prefixFor opts ++ CODE_SUFFIX) ∧
          r.code_file_name ≠ r.output_file_name ∧
          r.code_file.isSome = true ∧ r.code_file ≠ r.output_file ∧
          streamReq r.opened r.code_file =
            some (OpenReq.write (prefixFor opts ++ CODE_SUFFIX))) := by
  obtain ⟨_, _, _, a4, _⟩ := getargs_spec argv0 opts operands g hg
  obtain ⟨hp, hfree⟩ := prefix_after_getargs argv0 opts operands g hg
  have hne := code_name_ne_output_name g _ _ hp
  have hc := create_file_names_eq g _ _ hp
  rw [a4, hfree, alloc_file_name_eq] at hc
  have hnames : ∀ c, create_file_names g = some c →
      (optGiven 'r' opts = false → c.code_file_name = c.output_file_name) ∧
      (optGiven 'r' opts = true →
        c.code_file_name = some (prefixFor opts ++ CODE_SUFFIX) ∧
          c.code_file_name ≠ c.output_file_name) := by
    intro c hc'
    rw [hc] at hc'
    cases hc'
    constructor
    · intro h
      simp only
      rw [h]
      rfl
    · intro h
      simp only
      rw [h]
      refine ⟨rfl, ?_⟩
      intro e
      exact hne (Option.some.inj e)
  refine ⟨⟨_, hc, rfl, (hnames _ hc).1, (hnames _ hc).2, ?_⟩, ?_, ?_⟩
  · intro r hr
    obtain ⟨⟨_, _, _, _, _, _, _, _, _, _, b11, b12, _⟩, _⟩ :=
      open_files_spec fs g _ r hc hr
    exact ⟨b12, b11⟩
  · intro hfs
    constructor
    · rintro ⟨r, hr⟩
      cases h1 : optGiven 'g' opts with
      | false => rfl
      | true =>
        cases h2 : prefixFreed opts with
        | false => rfl
        | true =>
          rw [open_files_reads_freed fs argv0 opts operands g hg h1 h2] at hr
          cases hr
    · intro hok
      exact open_files_defined fs hfs argv0 opts operands g hg hok
  · intro r hr
    obtain ⟨c, hc'⟩ := create_file_names_defined argv0 opts operands g hg
    obtain ⟨n1, n2⟩ := hnames c hc'
    obtain ⟨⟨_, _, _, b4, _, _, _, _, _, _, b11, b12, _⟩, _, _, _, _, ho, hcode, _⟩ :=
      open_files_spec fs g c r hc' hr
    have hr4 : c.rflag = optGiven 'r' opts := by
      rw [hc] at hc'
      cases hc'
      rfl
    rw [hr4] at hcode
    refine ⟨ho.1, by rw [ho.2, b11], ?_, ?_⟩
    · intro h
      rw [h] at hcode
      simp only [Bool.false_eq_true, if_false] at hcode
      exact ⟨by rw [b12, b11]; exact n1 h, hcode⟩
    · intro h
      rw [h] at hcode
      simp only [if_true] at hcode
      obtain ⟨m1, m2⟩ := n2 h
      refine ⟨by rw [b12, m1], by rw [b12, b11]; exact m2, hcode.1, hcode.2.1, ?_⟩
      rw [hcode.2.2, m1]
      rfl

/-- C6 at a failing input, and what holds on every command line.  On the command
lines `-g -o foo.c g.y` and `-g -r -o foo.c g.y`, which `getargs` accepts,
`create_file_names` frees the block `file_prefix` points to and `open_files`,
with every opening succeeding, has no defined result: it reads `file_prefix` for
the graph file before it reaches the output file and the code file, so
`code_file` and `output_file` are never set.  On every command line
`create_file_names` returns and makes the code file name the output file name
without `-r`, and `file_prefix ++ CODE_SUFFIX`, different from the output file
name, with `-r`; when every opening succeeds `open_files` returns exactly on the
command lines that do not combine `-g` with an `-o` name ending in OUTPUT_SUFFIX
or ".c"; and whenever it returns, `code_file` is the stream `output_file`
without `-r` and a stream of its own, opened on the code file name, with `-r`. -/
theorem code_file_split :
    (getargs none [('g', []), ('o', "foo.c".toList)] ["g.y".toList] = some sampleE ∧
      optGiven 'r' [('g', []), ('o', "foo.c".toList)] = false ∧
      create_file_names sampleE = some sampleENamed ∧
      Globals.file_prefix sampleENamed = none ∧ sampleENamed.gflag = true ∧
      (∀ q, allOpen q = true) ∧
      open_files allOpen sampleE = none ∧
      getargs none [('g', []), ('r', []), ('o', "foo.c".toList)] ["g.y".toList] =
        some sampleF ∧
      open_files allOpen sampleF = none) ∧
    ∀ (fs : OpenReq → Bool) (argv0 : Option (List Char)) (opts : List (Char × List Char))
      (operands : List (List Char)) (g : Globals),
      getargs argv0 opts operands = some g →
      (∃ c, create_file_names g = some c ∧
        Globals.file_prefix c =
          (if prefixFreed opts then none else some (prefixFor opts)) ∧
        (optGiven 'r' opts = false → c.code_file_name = c.output_file_name) ∧
        (optGiven 'r' opts = true →
          c.code_file_name = some (prefixFor opts ++ CODE_SUFFIX) ∧
            c.code_file_name ≠ c.output_file_name) ∧
        ∀ r, open_files fs g = some r →
          r.code_file_name = c.code_file_name ∧
            r.output_file_name = c.output_file_name) ∧
      ((∀ q, fs q = true) →
        ((∃ r, open_files fs g = some r) ↔
          (optGiven 'g' opts && prefixFreed opts) = false)) ∧
      ∀ r, open_files fs g = some r →
        r.output_file.isSome = true ∧
        streamReq r.opened r.output_file = r.output_file_name.map OpenReq.write ∧
        (optGiven 'r' opts = false →
          r.code_file_name = r.output_file_name ∧ r.code_file = r.output_file) ∧
        (optGiven 'r' opts = true →
          r.code_file_name = some (prefixFor opts ++ CODE_SUFFIX) ∧
            r.code_file_name ≠ r.output_file_name ∧
            r.code_file.isSome = true ∧ r.code_file ≠ r.output_file ∧
            streamReq r.opened r.code_file =
              some (OpenReq.write (prefixFor opts ++ CODE_SUFFIX))) :=
  ⟨⟨by decide, by decide, by decide, by decide, by decide, fun _ => rfl, by decide,
      by decide, by decide⟩,
    code_file_split_general⟩

theorem code_file_split_witness :
    getargs none [('r', []), ('o', "foo.c".toList)] ["g.y".toList] = some sampleG ∧
      (open_files allOpen sampleG).map
          (fun r => (r.code_file_name, r.output_file_name, r.code_file, r.output_file)) =
        some (some "foo.code.c".toList, some "foo.c".toList, some (Stream.file 4),
          some (Stream.file 3)) ∧
      (open_files allOpen sampleG).map (fun r => r.opened) =
        some [OpenReq.read "g.y".toList, OpenReq.temp "action_file".toList,
          OpenReq.temp "text_file".toList, OpenReq.write "foo.c".toList,
          OpenReq.write "foo.code.c".toList] ∧
      getargs none [('d', []), ('o', "parse.cpp".toList), ('r', []), ('i', [])]
        ["-".toList] = some sampleB ∧
      open_files allOpen sampleB = some sampleBOpened ∧
      sampleBOpened.output_file = some (Stream.file 5) ∧
      sampleBOpened.code_file = some (Stream.file 6) ∧
      sampleBOpened.code_file_name = some "y.code.c".toList ∧
      sampleBOpened.output_file_name = some "parse.cpp".toList ∧
      streamReq sampleBOpened.opened sampleBOpened.output_file =
        some (OpenReq.write "parse.cpp".toList) ∧
      (optGiven 'r' [('d', []), ('o', "parse.cpp".toList), ('r', []), ('i', [])] = true →
        sampleBOpened.code_file_name =
            some (prefixFor [('d', []), ('o', "parse.cpp".toList), ('r', []), ('i', [])] ++
              CODE_SUFFIX) ∧
          sampleBOpened.code_file_name ≠ sampleBOpened.output_file_name ∧
          sampleBOpened.code_file.isSome = true ∧
          sampleBOpened.code_file ≠ sampleBOpened.output_file ∧
          streamReq sampleBOpened.opened sampleBOpened.code_file =
            some (OpenReq.write
              (prefixFor [('d', []), ('o', "parse.cpp".toList), ('r', []), ('i', [])] ++
                CODE_SUFFIX))) :=
  have h := (code_file_split.2 allOpen none
    [('d', []), ('o', "parse.cpp".toList), ('r', []), ('i', [])] ["-".toList]
    sampleB (by decide)).2.2 sampleBOpened (by decide)
  ⟨by decide, by decide, by decide, by decide, by decide, by decide, by decide, by decide,
    by decide, by decide, h.2.2.2⟩

/-- C7 as the code has it: when `-o` is not given, `create_file_names` returns
and makes the output file name `p ++ OUTPUT_SUFFIX`, where `p` is the argument
of `-b`, or "y" without `-b`; and it makes the defines name `p ++ DEFINES_SUFFIX`
when `-d` is in effect (the last of the `-d` and `-H` options is `-d`), the
externs name `p ++ EXTERNS_SUFFIX` when `-i` is given, the verbose name
`p ++ VERBOSE_SUFFIX` when `-v` is given and the graph name `p ++ GRAPH_SUFFIX`
when `-g` is given: `alloc_file_name` cuts nothing off. -/
theorem default_file_names (argv0 : Option (List Char)) (opts : List (Char × List Char))
    (operands : List (List Char)) (g : Globals)
    (hg : getargs argv0 opts operands = some g) (ho : optGiven 'o' opts = false) :
    ∃ c, create_file_names g = some c ∧
      c.output_file_name = some ((lastArg 'b' opts).getD "y".toList ++ OUTPUT_SUFFIX) ∧
      (definesOption opts = some 'd' →
        c.defines_file_name =
          some ((lastArg 'b' opts).getD "y".toList ++ DEFINES_SUFFIX)) ∧
      (optGiven 'i' opts = true →
        c.externs_file_name =
          some ((lastArg 'b' opts).getD "y".toList ++ EXTERNS_SUFFIX)) ∧
      (optGiven 'v' opts = true →
        c.verbose_file_name =
          some ((lastArg 'b' opts).getD "y".toList ++ VERBOSE_SUFFIX)) ∧
      (optGiven 'g' opts = true →
        c.graph_file_name =
          some ((lastArg 'b' opts).getD "y".toList ++ GRAPH_SUFFIX)) := by
  obtain ⟨a1, a2, a3, _, a5, a6, a7, a8, a9, _⟩ := getargs_spec argv0 opts operands g hg
  have hno := lastArg_none_of_not_given 'o' opts ho
  rw [hno] at a7 a8
  obtain ⟨hp, _⟩ := prefix_after_getargs argv0 opts operands g hg
  rw [prefixFor_of_no_output opts hno] at hp
  refine ⟨_, create_file_names_eq g _ _ hp, ?_⟩
  simp only
  rw [outputName_of_no_output g _ a7, chosenSuffix_of_no_output g a7, alloc_file_name_eq,
    alloc_file_name_eq, alloc_file_name_eq, alloc_file_name_eq, a1, a2, a3, a5, a6, a8]
  refine ⟨rfl, ?_, ?_, ?_, ?_⟩
  · intro h
    rw [h]
    rfl
  · intro h; rw [h]; rfl
  · intro h; rw [h]; rfl
  · intro h; rw [h]; rfl

theorem default_file_names_witness :
    getargs none [('b', "zz".toList), ('d', []), ('g', []), ('i', []), ('v', [])]
        ["g.y".toList] = some sampleC ∧
      optGiven 'o' [('b', "zz".toList), ('d', []), ('g', []), ('i', []), ('v', [])] =
        false ∧
      ∃ c, create_file_names sampleC = some c ∧
        c.output_file_name = some "zz.tab.c".toList ∧
        c.defines_file_name = some "zz.tab.h".toList ∧
        c.externs_file_name = some "zz.tab.i".toList ∧
        c.verbose_file_name = some "zz.output".toList ∧
        c.graph_file_name = some "zz.dot".toList :=
  match default_file_names none
    [('b', "zz".toList), ('d', []), ('g', []), ('i', []), ('v', [])] ["g.y".toList]
    sampleC (by decide) (by decide) with
  | ⟨c, hc, h⟩ =>
    ⟨by decide, by decide, c, hc, h.1, h.2.1 (by decide), h.2.2.1 (by decide),
      h.2.2.2.1 (by decide), h.2.2.2.2 (by decide)⟩

/-- C7 as stated fails: on the command line `-d -H foo.h g.y`, which has `-d` and
no `-o`, the defines file name is the argument of `-H`, not `y.tab.h`. -/
theorem defines_name_follows_later_H :
    getargs none [('d', []), ('H', "foo.h".toList)] ["g.y".toList] = some sampleD ∧
      optGiven 'o' [('d', []), ('H', "foo.h".toList)] = false ∧
      optGiven 'd' [('d', []), ('H', "foo.h".toList)] = true ∧
      (create_file_names sampleD).map Globals.dflag = some true ∧
      (create_file_names sampleD).map Globals.defines_file_name =
        some (some "foo.h".toList) ∧
      (create_file_names sampleD).map Globals.defines_file_name ≠
        some (some ("y".toList ++ DEFINES_SUFFIX)) := by
  decide
/-- C8: on a command line with `-d` in effect and `-o NAME`, `create_file_names`
returns.  If the text of NAME from its last '.' is one of ".c", ".C", ".cc",
".cxx", ".cpp" (NAME is some text `pre`, a '.', and one of the extensions "c",
"C", "cc", "cxx", "cpp"), the defines name is NAME up to and including that '.',
followed by 'h' (`pre` followed by ".h"), `dflag` stays set and nothing is
printed.  Otherwise `create_file_names`
prints the one line "MYNAME: suffix of output file name NAME not recognized, no
-d file generated." on the standard error stream, clears `dflag` and leaves
`defines_file_name` null; and `open_files`, which returns when every opening
succeeds, leaves `defines_file` and `union_file` null and opens nothing but the
input file, the temp files "action_file" and "text_file", and the verbose,
graph, externs, output and code files under their names. -/
theorem defines_name_under_explicit_output (fs : OpenReq → Bool)
    (argv0 : Option (List Char)) (opts : List (Char × List Char))
    (operands : List (List Char)) (g : Globals) (name : List Char)
    (hg : getargs argv0 opts operands = some g)
    (hd : definesOption opts = some 'd') (ho : lastArg 'o' opts = some name) :
    ∃ c, create_file_names g = some c ∧
      (∀ pre ext, name = pre ++ '.' :: ext →
        ext ∈ ["c".toList, "C".toList, "cc".toList, "cxx".toList, "cpp".toList] →
        c.defines_file_name = some (pre ++ ".h".toList) ∧
          c.dflag = true ∧ c.stderr = []) ∧
      ((¬ ∃ pre ext, name = pre ++ '.' :: ext ∧
          ext ∈ ["c".toList, "C".toList, "cc".toList, "cxx".toList, "cpp".toList]) →
        c.stderr = [argv0.getD "yacc".toList ++ ": suffix of output file name ".toList ++
          name ++ " not recognized, no -d file generated.\n".toList] ∧
          c.dflag = false ∧ c.defines_file_name = none ∧
          ((∀ q, fs q = true) → ∃ r, open_files fs g = some r) ∧
          ∀ r, open_files fs g = some r →
            r.dflag = false ∧ r.defines_file_name = none ∧ r.defines_file = none ∧
              r.union_file = none ∧
              ∀ q ∈ r.opened,
                (∃ n, g.input_file_name = some n ∧ q = OpenReq.read n) ∨
                q = OpenReq.temp "action_file".toList ∨
                q = OpenReq.temp "text_file".toList ∨
                (∃ n, r.verbose_file_name = some n ∧ q = OpenReq.write n) ∨
                (∃ n, r.graph_file_name = some n ∧ q = OpenReq.write n) ∨
                (∃ n, r.externs_file_name = some n ∧ q = OpenReq.write n) ∨
                q = OpenReq.write name ∨
                (∃ n, r.code_file_name = some n ∧ q = OpenReq.write n)) := by
  obtain ⟨_, _, _, _, a5, a6, a7, a8, _, _, a11, _, _, _, _, _, _, a18, _, _, _, a22, _,
    _, a25, a26, a27⟩ := getargs_spec argv0 opts operands g hg
  obtain ⟨hp, _⟩ := prefix_after_getargs argv0 opts operands g hg
  rw [hd] at a5 a6
  rw [ho] at a7 a8
  have a6' : g.dflag2 = false := by rw [a6]; decide
  simp only [Option.isSome_some] at a5 a8
  have hout : outputName (prefixFor opts) (prefixFor opts).length g = name := by
    unfold outputName
    rw [a7]
  have hc := create_file_names_eq g _ _ hp
  rw [hout, a5, a6', a8, a11, a26] at hc
  simp only [Option.isSome_some, Bool.not_false, Bool.and_true, if_true] at hc
  refine ⟨_, hc, ?_, ?_⟩
  · intro pre ext e hm
    have hrec' : recognised name = true := (recognised_iff name).2 ⟨pre, ext, e, hm⟩
    have hdrop : definesDropped g name = false := by
      unfold definesDropped
      rw [a5, a6', a8, hrec']
      rfl
    have hd : '.' ∉ ext := by
      simp only [List.mem_cons, List.mem_singleton, List.not_mem_nil, or_false] at hm
      rcases hm with h | h | h | h | h <;> rw [h] <;> decide
    have hk : strrchr name '.' = some pre.length := by
      rw [e]
      exact strrchr_append pre ext '.' hd
    have hrec : knownSuffix (name.drop pre.length) = true := by
      have := hrec'
      unfold recognised at this
      rw [hk] at this
      exact this
    have htake : name.take (pre.length + 1) = pre ++ ['.'] := by
      rw [e]
      simp [List.take_append_eq_append_take]
    refine ⟨?_, ?_, ?_⟩
    · simp only
      rw [hrec', if_pos rfl, headerName_eq name _ hk hrec, htake, List.append_assoc]
      rfl
    · simp only
      rw [hdrop]
      rfl
    · simp only
      rw [hdrop]
      rfl
  · intro hnot
    have hrec : recognised name = false := by
      cases hr : recognised name with
      | false => rfl
      | true => exact absurd ((recognised_iff name).1 hr) hnot
    have hdrop : definesDropped g name = true := by
      unfold definesDropped
      rw [a5, a6', a8, hrec]
      rfl
    rw [hrec, hdrop] at hc
    simp only [Bool.not_true, if_true, Bool.false_eq_true, if_false, List.nil_append,
      Bool.and_false] at hc
    rw [hrec, hdrop]
    simp only [Bool.not_true, if_true, Bool.false_eq_true, if_false, List.nil_append,
      Bool.and_false]
    refine ⟨trivial, trivial, trivial, ?_, ?_⟩
    · intro hfs
      refine open_files_defined fs hfs argv0 opts operands g hg ?_
      rw [prefixFreed_of_not_recognised opts name ho hrec, Bool.and_false]
    intro r hr
    obtain ⟨⟨_, _, _, _, b5, _, b7, b8, b9, b10, _, b12, _⟩, _, _, hdef, _, _, _, hop⟩ :=
      open_files_spec fs g _ r hc hr
    simp only [a6', a18, a22, a25, Bool.or_self, Bool.false_eq_true, if_false,
      List.nil_append] at hdef hop b5 b9
    refine ⟨b5, b9, hdef.1, hdef.2, ?_⟩
    intro q hq
    rw [hop] at hq
    rw [b7, b8, b10, b12]
    unfold plannedOpenings at hq
    simp only [a6', Bool.or_self, Bool.false_eq_true, if_false, List.append_nil,
      List.mem_append, List.mem_cons, List.mem_singleton, Option.map_some',
      Option.toList_some, List.not_mem_nil, or_false] at hq
    rcases hq with (((((hq | hq) | hq) | hq) | hq) | hq) | hq
    · left
      split_ifs at hq with hi
      · cases hq
      · cases hn : g.input_file_name with
        | none => rw [hn] at hq; cases hq
        | some n =>
          rw [hn] at hq
          simp only [Option.map_some', Option.toList_some, List.mem_singleton] at hq
          exact ⟨n, rfl, hq⟩
    · rcases hq with hq | hq
      · exact Or.inr (Or.inl hq)
      · exact Or.inr (Or.inr (Or.inl hq))
    · right; right; right; left
      split_ifs at hq with hf
      · simp only [Option.map_some', Option.toList_some, List.mem_singleton] at hq
        refine ⟨_, ?_, hq⟩
        simp only
        rw [if_pos hf]
      · cases hq
    · right; right; right; right; left
      split_ifs at hq with hf
      · simp only [Option.map_some', Option.toList_some, List.mem_singleton] at hq
        refine ⟨_, ?_, hq⟩
        simp only
        rw [if_pos hf]
      · cases hq
    · right; right; right; right; right; left
      split_ifs at hq with hf
      · simp only [Option.map_some', Option.toList_some, List.mem_singleton] at hq
        refine ⟨_, ?_, hq⟩
        simp only
        rw [if_pos hf]
      · cases hq
    · right; right; right; right; right; right; left
      exact hq
    · right; right; right; right; right; right; right
      split_ifs at hq with hf
      · simp only [Option.map_some', Option.toList_some, List.mem_singleton] at hq
        refine ⟨_, ?_, hq⟩
        simp only
        rw [if_pos hf]
      · cases hq

theorem defines_name_under_explicit_output_witness :
    (getargs none [('d', []), ('o', "parse.cpp".toList), ('r', []), ('i', [])]
        ["-".toList] = some sampleB ∧
      definesOption [('d', []), ('o', "parse.cpp".toList), ('r', []), ('i', [])] =
        some 'd' ∧
      lastArg 'o' [('d', []), ('o', "parse.cpp".toList), ('r', []), ('i', [])] =
        some "parse.cpp".toList ∧
      "parse.cpp".toList = "parse".toList ++ '.' :: "cpp".toList ∧
      ∃ c, create_file_names sampleB = some c ∧
        c.defines_file_name = some "parse.h".toList ∧ c.dflag = true ∧ c.stderr = []) ∧
    (getargs none [('d', []), ('o', "foo.y".toList), ('v', [])] ["g.y".toList] =
        some sampleA ∧
      definesOption [('d', []), ('o', "foo.y".toList), ('v', [])] = some 'd' ∧
      lastArg 'o' [('d', []), ('o', "foo.y".toList), ('v', [])] = some "foo.y".toList ∧
      (¬ ∃ pre ext, "foo.y".toList = pre ++ '.' :: ext ∧
        ext ∈ ["c".toList, "C".toList, "cc".toList, "cxx".toList, "cpp".toList]) ∧
      ∃ c, create_file_names sampleA = some c ∧
        c.stderr =
          ["yacc: suffix of output file name foo.y not recognized, no -d file generated.\n".toList] ∧
        c.dflag = false ∧ c.defines_file_name = none ∧
        open_files allOpen sampleA = some sampleAOpened ∧
        sampleAOpened.dflag = false ∧ sampleAOpened.defines_file_name = none ∧
        sampleAOpened.defines_file = none ∧ sampleAOpened.union_file = none ∧
        sampleAOpened.opened =
          [OpenReq.read "g.y".toList, OpenReq.temp "action_file".toList,
            OpenReq.temp "text_file".toList, OpenReq.write "y.output".toList,
            OpenReq.write "foo.y".toList]) :=
  have hnot : ¬ ∃ pre ext, "foo.y".toList = pre ++ '.' :: ext ∧
      ext ∈ ["c".toList, "C".toList, "cc".toList, "cxx".toList, "cpp".toList] :=
    fun h => absurd ((recognised_iff "foo.y".toList).2 h) (by decide)
  ⟨match defines_name_under_explicit_output allOpen none
        [('d', []), ('o', "parse.cpp".toList), ('r', []), ('i', [])] ["-".toList] sampleB
        "parse.cpp".toList (by decide) (by decide) (by decide) with
    | ⟨c, hc, h1, _⟩ =>
      ⟨by decide, by decide, by decide, by decide, c, hc,
        h1 "parse".toList "cpp".toList (by decide) (by decide)⟩,
   match defines_name_under_explicit_output allOpen none
        [('d', []), ('o', "foo.y".toList), ('v', [])] ["g.y".toList] sampleA
        "foo.y".toList (by decide) (by decide) (by decide) with
    | ⟨c, hc, _, h2⟩ =>
      match h2 hnot with
      | ⟨hs, hd, hn, _, hr⟩ =>
        have h3 := hr sampleAOpened (by decide)
        ⟨by decide, by decide, by decide, hnot, c, hc, hs, hd, hn, by decide,
          h3.1, h3.2.1, h3.2.2.1, h3.2.2.2.1, by decide⟩⟩

end Yacc
